import Mathlib

/-!
# UberWolf cryptographic core: a shallow embedding of `WolfNew.h`

Bytes (`uint8_t`) are natural numbers below 256; buffers (`uint8_t *`,
`std::vector<uint8_t>`, `std::array<uint8_t, N>`) are `List Nat`.  A read
`p[i]` is `p.getD i 0` and a write `p[i] = v` is `p.set i v`; the theorems
carry the length hypotheses under which every access of the source is in
bounds, so that the two defaults (reading 0, dropping the write) are never
exercised.  An XOR of two bytes is a byte, so `^=` needs no reduction;
sums stored into a byte are reduced modulo 256 explicitly.
-/

namespace UberWolf

/-! ## wolfCrypt (WolfNew.h, lines 38-68) -/

/-- The body of the `for` loop of `wolfCrypt`.  The first argument counts the
iterations still to run (`len - i`); `off` is the displacement applied to
`pData` before the loop (`start` when `updateDataPos` is set, else 0). -/
def wolfCryptLoop (pKey : List Nat) (off : Nat) :
    Nat → Nat → Nat → Nat → Nat → List Nat → List Nat
  | 0, _, _, _, _, pData => pData
  | n + 1, i, v1Cnt, v2Cnt, v3Cnt, pData =>
    let pData1 := pData.set (off + i)
      (pData.getD (off + i) 0 ^^^
        (pKey.getD v1Cnt 0 ^^^ pKey.getD (v2Cnt + 256) 0 ^^^ pKey.getD (v3Cnt + 512) 0))
    let v1Cnt := v1Cnt + 1
    if v1Cnt = 256 then
      let v2Cnt := v2Cnt + 1
      if v2Cnt = 256 then
        let v3Cnt := v3Cnt + 1
        if v3Cnt = 256 then
          wolfCryptLoop pKey off n (i + 1) 0 0 0 pData1
        else
          wolfCryptLoop pKey off n (i + 1) 0 0 v3Cnt pData1
      else
        wolfCryptLoop pKey off n (i + 1) 0 v2Cnt v3Cnt pData1
    else
      wolfCryptLoop pKey off n (i + 1) v1Cnt v2Cnt v3Cnt pData1

/-- The function `wolfCrypt(pKey, pData, start, end, updateDataPos)` for
non-negative `start` and `end`; the result is the buffer `pData` points into
after the call.  `len = end - start` is not positive when `end < start`, in
which case the loop does not run: the truncated subtraction gives the same. -/
def wolfCrypt (pKey pData : List Nat) (start «end» : Nat) (updateDataPos : Bool) : List Nat :=
  let len := «end» - start
  let off := if updateDataPos then start else 0
  wolfCryptLoop pKey off len 0 (start % 256) (start / 256 % 256) (start / 65536 % 256) pData

/-- The sub-table `tableN` of the key material: key bytes `[256 N, 256 N + 256)`. -/
def keyTable (pKey : List Nat) (N : Nat) : List Nat :=
  (pKey.drop (256 * N)).take 256

/-- The key-stream byte of absolute position `p`. -/
def wolfKeyStream (pKey : List Nat) (p : Nat) : Nat :=
  pKey.getD (p % 256) 0 ^^^ pKey.getD (p / 256 % 256 + 256) 0 ^^^
    pKey.getD (p / 65536 % 256 + 512) 0

/-! ## AES-128 engine (WolfNew.h, lines 227-458) -/

def sbox : List Nat := [
  0x63, 0x7C, 0x77, 0x7B, 0xF2, 0x6B, 0x6F, 0xC5, 0x30, 0x01, 0x67, 0x2B, 0xFE, 0xD7, 0xAB, 0x76,
  0xCA, 0x82, 0xC9, 0x7D, 0xFA, 0x59, 0x47, 0xF0, 0xAD, 0xD4, 0xA2, 0xAF, 0x9C, 0xA4, 0x72, 0xC0,
  0xB7, 0xFD, 0x93, 0x26, 0x36, 0x3F, 0xF7, 0xCC, 0x34, 0xA5, 0xE5, 0xF1, 0x71, 0xD8, 0x31, 0x15,
  0x04, 0xC7, 0x23, 0xC3, 0x18, 0x96, 0x05, 0x9A, 0x07, 0x12, 0x80, 0xE2, 0xEB, 0x27, 0xB2, 0x75,
  0x09, 0x83, 0x2C, 0x1A, 0x1B, 0x6E, 0x5A, 0xA0, 0x52, 0x3B, 0xD6, 0xB3, 0x29, 0xE3, 0x2F, 0x84,
  0x53, 0xD1, 0x00, 0xED, 0x20, 0xFC, 0xB1, 0x5B, 0x6A, 0xCB, 0xBE, 0x39, 0x4A, 0x4C, 0x58, 0xCF,
  0xD0, 0xEF, 0xAA, 0xFB, 0x43, 0x4D, 0x33, 0x85, 0x45, 0xF9, 0x02, 0x7F, 0x50, 0x3C, 0x9F, 0xA8,
  0x51, 0xA3, 0x40, 0x8F, 0x92, 0x9D, 0x38, 0xF5, 0xBC, 0xB6, 0xDA, 0x21, 0x10, 0xFF, 0xF3, 0xD2,
  0xCD, 0x0C, 0x13, 0xEC, 0x5F, 0x97, 0x44, 0x17, 0xC4, 0xA7, 0x7E, 0x3D, 0x64, 0x5D, 0x19, 0x73,
  0x60, 0x81, 0x4F, 0xDC, 0x22, 0x2A, 0x90, 0x88, 0x46, 0xEE, 0xB8, 0x14, 0xDE, 0x5E, 0x0B, 0xDB,
  0xE0, 0x32, 0x3A, 0x0A, 0x49, 0x06, 0x24, 0x5C, 0xC2, 0xD3, 0xAC, 0x62, 0x91, 0x95, 0xE4, 0x79,
  0xE7, 0xC8, 0x37, 0x6D, 0x8D, 0xD5, 0x4E, 0xA9, 0x6C, 0x56, 0xF4, 0xEA, 0x65, 0x7A, 0xAE, 0x08,
  0xBA, 0x78, 0x25, 0x2E, 0x1C, 0xA6, 0xB4, 0xC6, 0xE8, 0xDD, 0x74, 0x1F, 0x4B, 0xBD, 0x8B, 0x8A,
  0x70, 0x3E, 0xB5, 0x66, 0x48, 0x03, 0xF6, 0x0E, 0x61, 0x35, 0x57, 0xB9, 0x86, 0xC1, 0x1D, 0x9E,
  0xE1, 0xF8, 0x98, 0x11, 0x69, 0xD9, 0x8E, 0x94, 0x9B, 0x1E, 0x87, 0xE9, 0xCE, 0x55, 0x28, 0xDF,
  0x8C, 0xA1, 0x89, 0x0D, 0xBF, 0xE6, 0x42, 0x68, 0x41, 0x99, 0x2D, 0x0F, 0xB0, 0x54, 0xBB, 0x16]

def Rcon : List Nat := [0x8D, 0x01, 0x02, 0x04, 0x08, 0x10, 0x20, 0x40, 0x80, 0x1B, 0x36]

/-- The library function `std::rotr` at type `uint8_t`: rotate an 8-bit value
right by `s` positions. -/
def rotr8 (x s : Nat) : Nat :=
  ((x >>> (s % 8)) ||| (x <<< (8 - s % 8))) % 256

/-- The operator `~` on a byte, stored back into a byte: the operand is
promoted to a 32-bit `int`, complemented, and truncated to 8 bits. -/
def notByte (x : Nat) : Nat :=
  (2 ^ 32 - 1 - x) % 256

/-- The first loop of `keyExpansion`: the first round key is the key itself. -/
def keyExpansionInit (pRoundKey pKey : List Nat) : List Nat :=
  (List.range 4).foldl (fun rk i =>
    let rk := rk.set (i * 4 + 0) (pKey.getD (i * 4 + 0) 0)
    let rk := rk.set (i * 4 + 1) (pKey.getD (i * 4 + 1) 0)
    let rk := rk.set (i * 4 + 2) (pKey.getD (i * 4 + 2) 0)
    rk.set (i * 4 + 3) (pKey.getD (i * 4 + 3) 0)) pRoundKey

/-- The four bytes `tempa` at the end of iteration `i` of the second loop of
`keyExpansion`, before they are XORed into the schedule. -/
def keyExpansionTemp (pRoundKey : List Nat) (i : Nat) : Nat × Nat × Nat × Nat :=
  let k := (i - 1) * 4
  let tempa0 := pRoundKey.getD (k + 0) 0
  let tempa1 := pRoundKey.getD (k + 1) 0
  let tempa2 := pRoundKey.getD (k + 2) 0
  let tempa3 := pRoundKey.getD (k + 3) 0
  if i % 4 = 0 then
    let u8tmp := tempa0
    let tempa0 := tempa1
    let tempa1 := tempa2
    let tempa2 := tempa3
    let tempa3 := u8tmp
    (sbox.getD tempa0 0 ^^^ Rcon.getD (i / 4) 0,
      sbox.getD tempa1 0 >>> 4,
      notByte (sbox.getD tempa2 0),
      rotr8 (sbox.getD tempa3 0) 7)
  else
    (tempa0, tempa1, tempa2, tempa3)

/-- One iteration (word index `i`) of the second loop of `keyExpansion`. -/
def keyExpansionStep (pRoundKey : List Nat) (i : Nat) : List Nat :=
  let tempa := keyExpansionTemp pRoundKey i
  let j := i * 4
  let k := (i - 4) * 4
  let rk := pRoundKey.set (j + 0) (pRoundKey.getD (k + 0) 0 ^^^ tempa.1)
  let rk := rk.set (j + 1) (rk.getD (k + 1) 0 ^^^ tempa.2.1)
  let rk := rk.set (j + 2) (rk.getD (k + 2) 0 ^^^ tempa.2.2.1)
  rk.set (j + 3) (rk.getD (k + 3) 0 ^^^ tempa.2.2.2)

/-- The function `keyExpansion(pRoundKey, pKey)`: the content of the buffer
`pRoundKey` after the call (`Nk = 4`, `Nb = 4`, `Nr = 10`, so the second loop
runs over the word indices 4, ..., 43). -/
def keyExpansion (pRoundKey pKey : List Nat) : List Nat :=
  (List.range' 4 40).foldl keyExpansionStep (keyExpansionInit pRoundKey pKey)

def addRoundKey (pState : List Nat) (round : Nat) (pRoundKey : List Nat) : List Nat :=
  (List.range 16).foldl
    (fun st i => st.set i (st.getD i 0 ^^^ pRoundKey.getD (round * 16 + i) 0)) pState

def subBytes (pState : List Nat) : List Nat :=
  (List.range 16).foldl (fun st i => st.set i (sbox.getD (st.getD i 0) 0)) pState

def shiftRows (pState : List Nat) : List Nat :=
  let temp := pState.getD 1 0
  let st := pState.set 1 (pState.getD 5 0)
  let st := st.set 5 (st.getD 9 0)
  let st := st.set 9 (st.getD 13 0)
  let st := st.set 13 temp
  let temp := st.getD 2 0
  let st := st.set 2 (st.getD 10 0)
  let st := st.set 10 temp
  let temp := st.getD 6 0
  let st := st.set 6 (st.getD 14 0)
  let st := st.set 14 temp
  let temp := st.getD 3 0
  let st := st.set 3 (st.getD 15 0)
  let st := st.set 15 (st.getD 11 0)
  let st := st.set 11 (st.getD 7 0)
  st.set 7 temp

/-- The function `xtime`: the expression is evaluated on `int` and the result
is truncated to `uint8_t`. -/
def xtime (x : Nat) : Nat :=
  ((x <<< 1) ^^^ (((x >>> 7) &&& 1) * 0x1b)) % 256

/-- One iteration of the loop of `mixColumns`, on the column that starts at
byte `off` of the state (`pState += 4` per iteration). -/
def mixColumn (pState : List Nat) (off : Nat) : List Nat :=
  let t := pState.getD (off + 0) 0
  let tmp := pState.getD (off + 1) 0 ^^^ pState.getD (off + 0) 0 ^^^ pState.getD (off + 2) 0
    ^^^ pState.getD (off + 3) 0
  let st := pState.set (off + 0)
    (pState.getD (off + 0) 0 ^^^ (tmp ^^^ xtime (pState.getD (off + 1) 0 ^^^ pState.getD (off + 0) 0)))
  let st := st.set (off + 1)
    (st.getD (off + 1) 0 ^^^ (tmp ^^^ xtime (st.getD (off + 2) 0 ^^^ st.getD (off + 1) 0)))
  let st := st.set (off + 2)
    (st.getD (off + 2) 0 ^^^ (tmp ^^^ xtime (st.getD (off + 2) 0 ^^^ st.getD (off + 3) 0)))
  st.set (off + 3) (st.getD (off + 3) 0 ^^^ (tmp ^^^ xtime (st.getD (off + 3) 0 ^^^ t)))

def mixColumns (pState : List Nat) : List Nat :=
  (List.range 4).foldl (fun st i => mixColumn st (4 * i)) pState

/-- The function `cipher(pState, pRoundKey)`: the state after the call. -/
def cipher (pState pRoundKey : List Nat) : List Nat :=
  let st := addRoundKey pState 0 pRoundKey
  let st := (List.range' 1 9).foldl
    (fun st round => addRoundKey (mixColumns (shiftRows (subBytes st))) round pRoundKey) st
  addRoundKey (shiftRows (subBytes st)) 10 pRoundKey

/-- The inner loop of `aesCtrXCrypt` that increments the IV, which is stored
at offset `AES_KEY_EXP_SIZE = 176` of `pKey`.  The first argument is `bi + 1`:
the loop runs while `bi >= 0`. -/
def ivIncrement : Nat → List Nat → List Nat
  | 0, pKey => pKey
  | bi + 1, pKey =>
    if pKey.getD (176 + bi) 0 = 0xFF then
      ivIncrement bi (pKey.set (176 + bi) 0)
    else
      pKey.set (176 + bi) (pKey.getD (176 + bi) 0 + 1)

/-- The bytes copied by `memcpy(state, pIv, AES_BLOCKLEN)`. -/
def ivBlock (pKey : List Nat) : List Nat :=
  (List.range 16).map (fun j => pKey.getD (176 + j) 0)

/-- The main loop of `aesCtrXCrypt`.  The first argument counts the
iterations still to run (`size - i`); the result is the pair of the data
buffer and the schedule-and-IV buffer after the loop. -/
def aesCtrLoop : Nat → Nat → Nat → List Nat → List Nat → List Nat → List Nat × List Nat
  | 0, _, _, _, pData, pKey => (pData, pKey)
  | n + 1, i, bi, state, pData, pKey =>
    if bi = 16 then
      let state := cipher (ivBlock pKey) pKey
      let pKey := ivIncrement 16 pKey
      let bi := 0
      aesCtrLoop n (i + 1) (bi + 1) state (pData.set i (pData.getD i 0 ^^^ state.getD bi 0)) pKey
    else
      aesCtrLoop n (i + 1) (bi + 1) state (pData.set i (pData.getD i 0 ^^^ state.getD bi 0)) pKey

/-- The function `aesCtrXCrypt(pData, pKey, size)`: the data buffer and the
192-byte schedule-and-IV buffer after the call.  The local `state` is not
initialised; it is not read before the first iteration fills it, because `bi`
starts at `AES_BLOCKLEN`. -/
def aesCtrXCrypt (pData pKey : List Nat) (size : Nat) : List Nat × List Nat :=
  aesCtrLoop size 0 16 [] pData pKey

/-- The 16-byte IV of a schedule-and-IV buffer, read as a big-endian number:
the value of the bytes `[off, off + k)` of the buffer. -/
def beVal (buf : List Nat) (off : Nat) : Nat → Nat
  | 0 => 0
  | k + 1 => beVal buf off k * 256 + buf.getD (off + k) 0

/-- The 16 bytes of the big-endian representation of `v` modulo `2 ^ 128`. -/
def toBE16 (v : Nat) : List Nat :=
  (List.range 16).map (fun j => v / 256 ^ (15 - j) % 256)

/-! ## Reference AES-128 block encryption (FIPS-197), for comparison -/

/-- Carry-less product of two polynomials over GF(2) of degree below 8. -/
def clMul (a b : Nat) : Nat :=
  (List.range 8).foldl (fun acc i => if b.testBit i then acc ^^^ (a <<< i) else acc) 0

/-- Reduction of a polynomial of degree below 15 modulo
`x^8 + x^4 + x^3 + x + 1` (`0x11B`). -/
def gfReduce (p : Nat) : Nat :=
  [14, 13, 12, 11, 10, 9, 8].foldl
    (fun acc i => if acc.testBit i then acc ^^^ (0x11B <<< (i - 8)) else acc) p

/-- Multiplication in GF(2^8) modulo `x^8 + x^4 + x^3 + x + 1`. -/
def gfMul (a b : Nat) : Nat :=
  gfReduce (clMul a b)

/-- The MixColumns matrix of FIPS-197. -/
def mixMatrix : List (List Nat) :=
  [[2, 3, 1, 1], [1, 2, 3, 1], [1, 1, 2, 3], [3, 1, 1, 2]]

def refSubBytes (st : List Nat) : List Nat :=
  st.map (fun x => sbox.getD x 0)

/-- ShiftRows on the column-major state: `out[4c+r] = in[4((c+r) mod 4)+r]`. -/
def refShiftRows (st : List Nat) : List Nat :=
  (List.range 16).map (fun k => st.getD (4 * ((k / 4 + k % 4) % 4) + k % 4) 0)

/-- MixColumns: every column is multiplied by `mixMatrix` over GF(2^8). -/
def refMixColumns (st : List Nat) : List Nat :=
  (List.range 16).map (fun k =>
    (List.range 4).foldl
      (fun acc m => acc ^^^ gfMul ((mixMatrix.getD (k % 4) []).getD m 0) (st.getD (4 * (k / 4) + m) 0))
      0)

/-- AddRoundKey(r): XOR with the bytes `[16 r, 16 r + 16)` of the schedule. -/
def refAddRoundKey (st : List Nat) (r : Nat) (schedule : List Nat) : List Nat :=
  (List.range 16).map (fun k => st.getD k 0 ^^^ schedule.getD (16 * r + k) 0)

def refRounds (schedule : List Nat) : Nat → List Nat → List Nat
  | 0, st => refAddRoundKey st 0 schedule
  | r + 1, st =>
    refAddRoundKey (refMixColumns (refShiftRows (refSubBytes (refRounds schedule r st))))
      (r + 1) schedule

/-- AES-128 block encryption given the round keys: AddRoundKey(0), rounds
1..9 of SubBytes, ShiftRows, MixColumns, AddRoundKey(r), then SubBytes,
ShiftRows, AddRoundKey(10). -/
def refCipher (st schedule : List Nat) : List Nat :=
  refAddRoundKey (refShiftRows (refSubBytes (refRounds schedule 9 st))) 10 schedule

/-- The key-stream block number `b` of a CTR run whose schedule-and-IV buffer
is `pKey` on entry: the block cipher, under the first 176 bytes of `pKey`,
applied to the big-endian bytes of `(IV0 + b) mod 2^128`. -/
def ctrBlock (pKey : List Nat) (b : Nat) : List Nat :=
  cipher (toBE16 ((beVal pKey 176 16 + b) % 2 ^ 128)) (pKey.take 176)

/-- A buffer of `uint8_t`: every element is below 256. -/
def IsBytes (l : List Nat) : Prop :=
  ∀ x ∈ l, x < 256

instance (l : List Nat) : Decidable (IsBytes l) :=
  inferInstanceAs (Decidable (∀ x ∈ l, x < 256))

/-! ## Key validator (WolfNew.h, lines 863-899) -/

/-- The ways in which the validator can fail to return a value. -/
inductive WolfError where
  /-- The exception `std::runtime_error("Key is too long")`. -/
  | keyTooLong
  /-- Undefined behaviour: an integer division by zero. -/
  | divisionByZero
  deriving DecidableEq

/-- The function `validateKey(key, tarKey)`, with `ENCRYPTED_KEY_SIZE = 128`.
The length `key.size()` is cast to `uint32_t`.  The local array `keyBytes` is
not initialised; it is modelled as zeroes, and the second loop overwrites all
of it.  A sum stored into a `uint8_t` is reduced modulo 256.  The call of
`std::equal` compares the 128 elements of `keyBytes` with those of `tarKey`. -/
def validateKey (key tarKey : List Nat) : Except WolfError Bool :=
  if key.isEmpty then
    .ok false
  else
    let keyLen := key.length % 2 ^ 32
    if keyLen > 128 then
      .error .keyTooLong
    else
      let keyBytes := List.replicate 128 0
      let keyBytes := (List.range keyLen).foldl (fun kb i => kb.set i (key.getD i 0)) keyBytes
      if keyLen = 0 then
        .error .divisionByZero
      else
        let keyBytes := (List.range 128).foldl
          (fun kb i => kb.set i ((i / keyLen + key.getD (i % keyLen) 0) % 256)) keyBytes
        .ok ((List.range 128).all (fun i => keyBytes.getD i 0 == tarKey.getD i 0))

/-- The candidate built in iteration `i` of `findKey`: a vector of `i` zeroes
into which `std::copy` writes the first `i` bytes of `encKey`. -/
def candidateKey (encKey : List Nat) (i : Nat) : List Nat :=
  (List.range i).foldl (fun key j => key.set j (encKey.getD j 0)) (List.replicate i 0)

/-- The loop of `findKey`.  The first argument counts the iterations still to
run (`ENCRYPTED_KEY_SIZE - i`).  An exception of `validateKey` propagates. -/
def findKeyLoop (encKey : List Nat) : Nat → Nat → Except WolfError (List Nat)
  | 0, _ => .ok []
  | n + 1, i =>
    let key := candidateKey encKey i
    match validateKey key encKey with
    | .error e => .error e
    | .ok true => .ok key
    | .ok false => findKeyLoop encKey n (i + 1)

/-- The function `findKey(encKey)`: `i` runs from `MIN_KEY_LEN = 4` while
`i < ENCRYPTED_KEY_SIZE = 128`. -/
def findKey (encKey : List Nat) : Except WolfError (List Nat) :=
  findKeyLoop encKey (128 - 4) 4

/-- The check table of the spec: `check[i] = (i / L + candidate[i mod L]) mod 256`. -/
def tiling (key : List Nat) (i : Nat) : Nat :=
  (i / key.length + key.getD (i % key.length) 0) % 256

/-- The 128-byte blob that tiles the key `K`, as `calcSalt` produces it:
`blob[i] = (i / |K| + K[i mod |K|]) mod 256` for `i` in 0..127. -/
def tilingBlob (K : List Nat) : List Nat :=
  (List.range 128).map (tiling K)

/-! ## Custom generators (WolfNew.h, lines 473-644) -/

/-- Reduction of a value to `uint32_t`. -/
@[irreducible] def u32 (x : Nat) : Nat :=
  x % 4294967296

/-- The scalar fields of `RngData`.  The three generators read and write
these fields only. -/
structure RngSeeds where
  seed1 : Nat
  seed2 : Nat
  counter : Nat
  deriving DecidableEq

/-- The structure `RngData`: the scalar fields and the matrix `data`
(`OUTER_VEC_LEN = 32` rows of `INNER_VEC_LEN = 256` words). -/
structure RngData extends RngSeeds where
  data : List (List Nat)
  deriving DecidableEq

/-- A default-constructed `RngData`; it is also the state after `Reset()`. -/
def RngData.fresh : RngData :=
  { seed1 := 0, seed2 := 0, counter := 0, data := List.replicate 32 (List.replicate 256 0) }

/-- The method `RngData::Reset`. -/
def RngData.Reset (_rd : RngData) : RngData :=
  RngData.fresh

/-- The value `state` that `customRng1` computes from `rd.seed1`. -/
@[irreducible] def rng1 (seed1 : Nat) : Nat :=
  let seedP1 := seed1 ^^^ ((u32 (seed1 <<< 11) ^^^ seed1) >>> 8)
  let seed := u32 (seed1 <<< 11) ^^^ seedP1
  let state := u32 (1664525 * seed + 1013904223)
  let stateMod := if u32 (13 * seedP1 + 95) &&& 1 = 0 then state / 8 else u32 (state * 4)
  let state := state ^^^ stateMod
  let state1 := if state &&& 0x400 ≠ 0 then state ^^^ u32 (state <<< 21)
    else state ^^^ u32 (state * 4)
  let stateMod := if state &&& 0x400 ≠ 0 then state1 >>> 9 else state1 >>> 22
  let state := state1 ^^^ stateMod
  if state &&& 0xFFFFF = 0 then u32 (state + 256) else state

/-- The function `customRng1`: the returned value and the updated fields. -/
def customRng1 (rd : RngSeeds) : Nat × RngSeeds :=
  (rng1 rd.seed1, { rd with seed1 := rng1 rd.seed1 })

/-- The value `state` that `customRng2` computes from `rd.seed1`.  The
expression `~state` is the 32-bit complement. -/
@[irreducible] def rng2 (seed : Nat) : Nat :=
  let state := u32 (1664525 * seed + 1013904223)
  let stateMod := (seed &&& 7) + 1
  let state :=
    if state % 3 ≠ 0 then
      if state % 3 = 1 then state ^^^ (state >>> stateMod)
      else u32 ((4294967295 - state) + u32 (state <<< stateMod))
    else state ^^^ u32 (state <<< stateMod)
  if state ≠ 0 then
    if state % 65536 = 0 then state ^^^ 0x55AA55AA else state
  else 0x173BEF

/-- The function `customRng2`. -/
def customRng2 (rd : RngSeeds) : Nat × RngSeeds :=
  (rng2 rd.seed1, { rd with seed1 := rng2 rd.seed1 })

/-- The value `state` that `customRng3` computes from `rd.seed2`.  In the
third statement `&` binds tighter than `^`. -/
@[irreducible] def rng3 (seed2 : Nat) : Nat :=
  let state := u32 (1566083941 * seed2) ^^^ u32 (292331520 * seed2)
  let state := state ^^^ ((state >>> 17) ^^^ u32 (32 * (state ^^^ (state >>> 17))))
  let state := u32 (69069 * (state ^^^ ((state ^^^ (state >>> 11)) &&& 0x3FFFFFFF)))
  if state ≠ 0 then
    let state := if state % 65536 = 0 then state ^^^ 0x59A6F141 else state
    if state &&& 0xFFFFF = 0 then u32 (state + 256) else state
  else 1566083941

/-- The function `customRng3`. -/
def customRng3 (rd : RngSeeds) : Nat × RngSeeds :=
  (rng3 rd.seed2, { rd with seed2 := rng3 rd.seed2 })

/-- One conditional statement of the body of `rngChain`,
`if (cond) d = upd(d, gen(rd));`, on the pair of `d` and the fields. -/
def rngStage (cond : RngSeeds → Bool) (gen : RngSeeds → Nat × RngSeeds)
    (upd : Nat → Nat → Nat) (s : Nat × RngSeeds) : Nat × RngSeeds :=
  if cond s.2 then (upd s.1 (gen s.2).1, (gen s.2).2) else s

/-- The body of the loop of `rngChain` for the element of index `i`: the new
value of the element `d` and the updated fields.  The old value of `d` is
overwritten by the first assignment and is not an input. -/
@[irreducible] def rngChainStep (i : Nat) (rd : RngSeeds) : Nat × RngSeeds :=
  let rn := (customRng2 rd).1
  let rd := (customRng2 rd).2
  let d := rn ^^^ (customRng3 rd).1
  let rd := (customRng3 rd).2
  let rd := { rd with counter := u32 (rd.counter + 1) }
  (d, rd)
    |> rngStage (fun rd => rd.counter &&& 1 == 0) customRng3 (fun d r => u32 (d + r))
    |> rngStage (fun rd => rd.counter % 3 == 0) customRng1 (fun d r => d ^^^ u32 (r + 3))
    |> rngStage (fun rd => rd.counter % 7 == 0) customRng3 (fun d r => u32 (d + u32 (r + 1)))
    |> rngStage (fun rd => rd.counter &&& 7 == 0) customRng1 (fun d r => u32 (d * r))
    |> rngStage (fun rd => u32 (i + rd.seed1) % 5 == 0) customRng1 (fun d r => d ^^^ r)
    |> rngStage (fun rd => rd.counter % 9 == 0) customRng2 (fun d r => u32 (d + u32 (r + 4)))
    |> rngStage (fun rd => rd.counter % 0x18 == 0) customRng2 (fun d r => u32 (d + u32 (r + 7)))
    |> rngStage (fun rd => rd.counter % 0x1F == 0) customRng3 (fun d r => u32 (d + u32 (3 * r)))
    |> rngStage (fun rd => rd.counter % 0x3D == 0) customRng3 (fun d r => u32 (d + u32 (r + 1)))
    |> rngStage (fun rd => rd.counter % 0xA1 == 0) customRng2 (fun d r => u32 (d + r))
    |> rngStage (fun _ => rn % 65536 == 256) customRng3 (fun d r => u32 (d + u32 (3 * r)))

/-- The loop of `rngChain` from the element of index `i` on. -/
def rngChainLoop : Nat → RngSeeds → List Nat → RngSeeds × List Nat
  | _, rd, [] => (rd, [])
  | i, rd, _ :: rest =>
    let s := rngChainStep i rd
    let r := rngChainLoop (u32 (i + 1)) s.2 rest
    (r.1, s.1 :: r.2)

/-- The function `rngChain(rd, data)`: the updated fields and the row. -/
def rngChain (rd : RngSeeds) (data : List Nat) : RngSeeds × List Nat :=
  rngChainLoop 0 rd data

/-- The loop of `runCrypt` over the rows of the matrix. -/
def runCryptRows : RngSeeds → List (List Nat) → RngSeeds × List (List Nat)
  | rd, [] => (rd, [])
  | rd, row :: rest =>
    let s := rngChain rd row
    let r := runCryptRows s.1 rest
    (r.1, s.2 :: r.2)

/-- The function `runCrypt(rd, seed1, seed2)`.  The call `srand(seed1)` sets
the state of the platform generator, which is not part of `RngData`. -/
def runCrypt (rd : RngData) (seed1 seed2 : Nat) : RngData :=
  let r := runCryptRows { seed1 := seed1, seed2 := seed2, counter := 0 } rd.data
  { seed1 := r.1.seed1, seed2 := r.1.seed2, counter := r.1.counter, data := r.2 }

/-- A matrix of `OUTER_VEC_LEN = 32` rows of `INNER_VEC_LEN = 256` words. -/
def IsMatrix (data : List (List Nat)) : Prop :=
  data.length = 32 ∧ ∀ row ∈ data, row.length = 256

/-! ## aLotOfRngStuff (WolfNew.h, lines 646-693) -/

/-- The variables of `aLotOfRngStuff` that its loop body reads and writes: the
generator state `rd`, the by-value parameters `a2` and `a3`, the byte vector
`cryptData` and the loop bound `itrs`. -/
structure ALotState where
  rd : RngData
  a2 : Nat
  a3 : Nat
  cryptData : List Nat
  itrs : Nat

/-- Lines 652-654: two generator calls select the cell of the matrix that
replaces `a3`. -/
def aLotDraw (s : ALotState) : ALotState :=
  let r1 := customRng1 s.rd.toRngSeeds
  let r2 := customRng2 r1.2
  let idx1 := (s.a2 ^^^ r1.1) &&& 0x1F
  let idx2 := (s.a3 ^^^ r2.1) &&& 0xFF
  { rd := { toRngSeeds := r2.2, data := s.rd.data },
    a2 := s.a2,
    a3 := (s.rd.data.getD idx1 []).getD idx2 0,
    cryptData := s.cryptData,
    itrs := s.itrs }

/-- Lines 656-684: the `switch` on the selector `sel`. -/
def aLotSwitch (idx sel : Nat) (s : ALotState) : ALotState :=
  if sel = 1 then
    let row := u32 (s.a2 + 5) &&& 0x1F
    let r := rngChain s.rd.toRngSeeds (s.rd.data.getD row [])
    { rd := { toRngSeeds := r.1, data := s.rd.data.set row r.2 },
      a2 := s.a2, a3 := s.a3, cryptData := s.cryptData, itrs := s.itrs }
  else if sel = 2 then
    let r := customRng1 s.rd.toRngSeeds
    { rd := { toRngSeeds := r.2, data := s.rd.data },
      a2 := s.a2, a3 := s.a3 ^^^ r.1, cryptData := s.cryptData, itrs := s.itrs }
  else if sel = 5 then
    if s.a2 &&& 0xFFFFF = 0 then
      let r := customRng3 s.rd.toRngSeeds
      { rd := { toRngSeeds := r.2, data := s.rd.data },
        a2 := s.a2, a3 := s.a3,
        cryptData := s.cryptData.set idx ((s.cryptData.getD idx 0 ^^^ r.1) % 256),
        itrs := s.itrs }
    else s
  else if sel = 9 ∨ sel = 0xE then
    let r := customRng2 s.rd.toRngSeeds
    { rd := { toRngSeeds := r.2, data := s.rd.data },
      a2 := s.a2, a3 := s.a3,
      cryptData := s.cryptData.set (r.1 % 0x30) ((s.cryptData.getD (r.1 % 0x30) 0 + s.a3) % 256),
      itrs := s.itrs }
  else if sel = 0xB then
    let r := customRng1 s.rd.toRngSeeds
    { rd := { toRngSeeds := r.2, data := s.rd.data },
      a2 := s.a2, a3 := s.a3,
      cryptData := s.cryptData.set idx ((s.cryptData.getD idx 0 ^^^ r.1) % 256),
      itrs := s.itrs }
  else if sel = 0x11 then
    { rd := s.rd, a2 := s.a2, a3 := s.a3, cryptData := s.cryptData, itrs := u32 (s.itrs + 1) }
  else if sel = 0x13 then
    if s.a2 % 65536 = 0 then
      let r := customRng2 s.rd.toRngSeeds
      { rd := { toRngSeeds := r.2, data := s.rd.data },
        a2 := s.a2, a3 := s.a3,
        cryptData := s.cryptData.set idx ((s.cryptData.getD idx 0 ^^^ r.1) % 256),
        itrs := s.itrs }
    else s
  else s

/-- Lines 686-689: `a2 += customRng3(rd)` and the clamp of `itrs` at 50. -/
def aLotAdvance (s : ALotState) : ALotState :=
  let r := customRng3 s.rd.toRngSeeds
  { rd := { toRngSeeds := r.2, data := s.rd.data },
    a2 := u32 (s.a2 + r.1), a3 := s.a3, cryptData := s.cryptData,
    itrs := if s.itrs > 50 then 50 else s.itrs }

/-- The selector of the `switch`, `(a2 + rd.counter) % 0x14u`. -/
def aLotSelector (s : ALotState) : Nat :=
  u32 (s.a2 + s.rd.counter) % 0x14

/-- One iteration of the loop of `aLotOfRngStuff` (lines 652-689). -/
def aLotBody (idx : Nat) (s : ALotState) : ALotState :=
  aLotAdvance (aLotSwitch idx (aLotSelector (aLotDraw s)) (aLotDraw s))

/-- The loop `for (uint32_t i = 0; i < itrs; i++)` from the value `i` of its
index, with `fuel` bounding the number of iterations; the result is the final
index and the final state, or `none` when the fuel runs out. -/
def aLotLoop : Nat → Nat → Nat → ALotState → Option (Nat × ALotState)
  | 0, _, _, _ => none
  | fuel + 1, idx, i, s =>
    if i < s.itrs then aLotLoop fuel idx (u32 (i + 1)) (aLotBody idx s)
    else some (i, s)

/-- The start of the loop: `itrs = 20`. -/
def aLotInit (rd : RngData) (a2 a3 : Nat) (cryptData : List Nat) : ALotState :=
  { rd := rd, a2 := a2, a3 := a3, cryptData := cryptData, itrs := 20 }

/-- `aLotOfRngStuff(rd, a2, a3, idx, cryptData)`: the loop, then
`cryptData[idx] += a3`. -/
def aLotOfRngStuff (fuel : Nat) (rd : RngData) (a2 a3 idx : Nat) (cryptData : List Nat) :
    Option (RngData × List Nat) :=
  match aLotLoop fuel idx 0 (aLotInit rd a2 a3 cryptData) with
  | none => none
  | some r => some (r.2.rd, r.2.cryptData.set idx ((r.2.cryptData.getD idx 0 + r.2.a3) % 256))

/-! ## calcKey: the coprime search (WolfNew.h, lines 782-803) -/

/-- Conversion of an integer to `int32_t` (two's complement). -/
def int32 (x : Int) : Int :=
  (x + 2147483648) % 4294967296 - 2147483648

/-- The initial value of `k` (line 782), from the header bytes 3, 4 and 6:
`gameDatBytes[4] + ((static_cast<uint16_t>(gameDatBytes[3]) * gameDatBytes[6]) & 0x3FF)`. -/
def strideStart (g3 g4 g6 : Nat) : Nat :=
  g4 + (((g3 % 65536) * g6) &&& 0x3FF)

/-- The loop `do { v3 = v1 % v2; v1 = v2; v2 = v3; } while (v3);` (lines
793-798) on `int32_t` values, `%` being the truncated remainder.  The result is
the final `v1`, or `none` when the fuel runs out. -/
def gcdLoop : Nat → Int → Int → Option Int
  | 0, _, _ => none
  | fuel + 1, v1, v2 =>
    if Int.tmod v1 v2 ≠ 0 then gcdLoop fuel v2 (Int.tmod v1 v2) else some v2

/-- Lines 787-799: the value of `v1` tested by `if (v1 <= 1)`, for a payload
size `dataSize` and a stride `k`. -/
def strideTest (gfuel dataSize : Nat) (k : Int) : Option Int :=
  if k ≠ 0 then gcdLoop gfuel (int32 dataSize) k else some (int32 dataSize)

/-- The loop `for (;; k++)` of lines 785-803 from the value `k`: the value of
`k` at the `break`, or `none` when the fuel runs out (`fuel` bounds the passes
of this loop, `gfuel` those of the inner loop). -/
def coprimeSearch : Nat → Nat → Nat → Int → Option Int
  | 0, _, _, _ => none
  | fuel + 1, gfuel, dataSize, k =>
    match strideTest gfuel dataSize k with
    | none => none
    | some v1 => if v1 ≤ 1 then some k else coprimeSearch fuel gfuel dataSize (int32 (k + 1))

/-! ## Header derivation (WolfNew.h, lines 460-471, 695-720, 816-861) -/

/-- The record `CryptData`: four derived key bytes, four seed bytes, the
archive buffer, the payload size and the two 32-bit seeds. -/
structure CryptData where
  keyBytes : List Nat
  seedBytes : List Nat
  gameDatBytes : List Nat
  dataSize : Nat
  seed1 : Nat
  seed2 : Nat
  deriving DecidableEq

/-- A default-constructed `CryptData` whose buffer is then set to `g`
(lines 759-762). -/
def CryptData.ofBytes (g : List Nat) : CryptData :=
  { keyBytes := [0, 0, 0, 0], seedBytes := [0, 0, 0, 0], gameDatBytes := g,
    dataSize := 0, seed1 := 0, seed2 := 0 }

/-- The payload size of `initCrypt` (line 699) for a buffer of `n` bytes:
`static_cast<uint32_t>(n) - HEADER_SIZE` in `uint32_t`, with `HEADER_SIZE = 31`. -/
def stdDataSize (n : Nat) : Nat :=
  (n % 4294967296 + 4294967296 - 31) % 4294967296

/-- The four derived key bytes of `initCrypt` (lines 701-711) for the payload
size `dataSize`, each the low byte of a `uint32_t` value. -/
def stdKeyBytes (dataSize : Nat) : List Nat :=
  let sizeDiv := dataSize / 3
  let val1 := (sizeDiv + 71 + (sizeDiv >>> 31)) % 4294967296
  let val2 := dataSize ^^^ 0x70
  let val3 := (dataSize % 1200 + 152) % 4294967296
  let val4 := (dataSize + 2 * dataSize + 85) % 4294967296
  [(val4 ^^^ val1) % 256,
   ((val3 + val2) % 4294967296) % 256,
   ((val2 + 4294967296 - val4) % 4294967296) % 256,
   ((val2 * val4) % 4294967296) % 256]

/-- The function `initCrypt(cd)`. -/
def initCrypt (cd : CryptData) : CryptData :=
  let dataSize := stdDataSize cd.gameDatBytes.length
  let sizeDiv := dataSize / 3
  let val1 := (sizeDiv + 71 + (sizeDiv >>> 31)) % 4294967296
  let val2 := dataSize ^^^ 0x70
  let val3 := (dataSize % 1200 + 152) % 4294967296
  let val4 := (dataSize + 2 * dataSize + 85) % 4294967296
  { keyBytes := stdKeyBytes dataSize,
    seedBytes :=
      [((val1 + cd.gameDatBytes.getD 3 0) % 4294967296) % 256,
       ((val3 + cd.gameDatBytes.getD 7 0) % 4294967296) % 256,
       ((val2 + cd.gameDatBytes.getD 5 0) % 4294967296) % 256,
       ((val4 + cd.gameDatBytes.getD 6 0) % 4294967296) % 256],
    gameDatBytes := cd.gameDatBytes,
    dataSize := dataSize,
    seed1 := val1,
    seed2 := val3 }

/-- The function `genMTSeed(seeds)` on the three bytes `s0`, `s1`, `s2`; the
left shifts by 13 are reduced to 32 bits. -/
def genMTSeed (s0 s1 s2 : Nat) : Nat :=
  let seedP1 := (s1 ||| (s0 <<< 8)) <<< 8
  let x := s2 ||| seedP1
  let a := (x <<< 13) % 4294967296
  let seedP2 := ((a ^^^ x) >>> 17) ^^^ a ^^^ x
  ((32 * seedP2) % 4294967296) ^^^ seedP2

/-- The loop `for (uint32_t i = 0xA; i < data.size(); i++) data[i] ^= rnds[i % 128]`
of `decrpytProV2P1` from the value `i` of its index; `none` when the fuel runs
out. -/
def decrpytLoop (rnds : List Nat) : Nat → Nat → List Nat → Option (List Nat)
  | 0, _, _ => none
  | fuel + 1, i, data =>
    if i < data.length then
      decrpytLoop rnds fuel ((i + 1) % 4294967296)
        (data.set i ((data.getD i 0 ^^^ rnds.getD (i % 128) 0) % 256))
    else some data

/-- The function `decrpytProV2P1(data, seed)`.  The generator `std::mt19937` is
a parameter: `gen seed j` is the `j`-th 32-bit word it yields after
`gen.seed(seed)`. -/
def decrpytProV2P1 (gen : Nat → Nat → Nat) (fuel : Nat) (data : List Nat) (seed : Nat) :
    Option (List Nat) :=
  decrpytLoop ((List.range 128).map (gen seed)) fuel 0xA data

/-- The first step of `initCryptProt` (line 850): `decrpytProV2P1` on the
buffer, seeded by `genMTSeed` of its bytes 0, 8 and 6. -/
def protMask (gen : Nat → Nat → Nat) (fuel : Nat) (g : List Nat) : Option (List Nat) :=
  decrpytProV2P1 gen fuel g (genMTSeed (g.getD 0 0) (g.getD 8 0) (g.getD 6 0))

/-- The payload size of `initCryptProt` (lines 843-848) for a buffer of `n`
bytes. -/
def protDataSize (n : Nat) : Nat :=
  if (n % 4294967296 + 4294967296 - 20) % 4294967296 < 326 then
    (n % 4294967296 + 4294967296 - 20) % 4294967296
  else 326

/-- The function `initCryptProt(cd)`; `none` when the fuel of the mask loop runs
out. -/
def initCryptProt (gen : Nat → Nat → Nat) (fuel : Nat) (cd : CryptData) : Option CryptData :=
  match protMask gen fuel cd.gameDatBytes with
  | none => none
  | some g =>
    let kb0 := g.getD 0xB 0
    let kb1 := g.getD 0xC 0
    let kb2 := g.getD 0xD 0
    let kb3 := g.getD 0xE 0
    some
      { keyBytes := [kb0, kb1, kb2, kb3],
        seedBytes :=
          [(g.getD 7 0 + 3 * kb0) % 256,
           kb1 ^^^ kb2,
           kb3 ^^^ g.getD 7 0,
           (kb2 + g.getD 7 0 + 256 - kb0 % 256) % 256],
        gameDatBytes := g,
        dataSize := protDataSize cd.gameDatBytes.length,
        seed1 := kb1 ^^^ kb2,
        seed2 := kb1 ^^^ kb2 }

/-- One step of xorshift32, as the specification words it: `x ^= x << 13;
x ^= x >> 17; x ^= x << 5` in 32-bit wraparound arithmetic. -/
def xorshift32 (x : Nat) : Nat :=
  let x1 := x ^^^ ((x <<< 13) % 4294967296)
  let x2 := x1 ^^^ (x1 >>> 17)
  x2 ^^^ ((x2 <<< 5) % 4294967296)

/-! ## initWolfCrypt: the substitution network (WolfNew.h, lines 141-200) -/

/-- The selector `round = (curS2 | (curS << 8)) % 7` (line 156), a `uint8_t`. -/
def saltRound (curS curS2 : Nat) : Nat :=
  ((curS2 ||| (curS <<< 8)) % 7) % 256

/-- The `switch (round)` of lines 160-193: the value of `newK` and of the mark
`skip` after it, for the loop indices `j`, the running value `t`, the salt
bytes `curS`, `curS2` and the key byte `curK`. -/
def substSwitch (j t curS curS2 curK : Nat) : Nat × Bool :=
  let sXk := curS ^^^ curK
  let round := saltRound curS curS2
  if round = 1 then
    (if curS2 % 0xB = 0 then curK else sXk, false)
  else if round = 2 then
    (if curS % 0x1D = 0 then notByte sXk else sXk, false)
  else if round = 3 then
    (if ((round + j) % 4294967296) % 0x25 = 0 then curS2 ^^^ sXk else sXk, false)
  else if round = 4 then
    (if (curS + curS2) % 97 = 0 then (curS + sXk) % 256 else sXk, false)
  else if round = 5 then
    (if ((j * round) % 4294967296) % 0x7B = 0 then (sXk ^^^ t) % 256 else sXk, false)
  else if round = 6 then
    if curS = 0xFF ∧ curS2 = 0 then (0, true) else (sXk, false)
  else (sXk, false)

/-- The new key byte stored by one pass of the inner loop (lines 148-198), for
the loop indices `i`, `j` and the running value `t`. -/
def substByte (i j t curS curS2 curK : Nat) : Nat :=
  let r := substSwitch j t curS curS2 curK
  if ((j + i) % 4294967296) % (curS % 5 + 1) = 0 then (r.1 ^^^ t) % 256
  else if r.2 then notByte (curS ^^^ curK)
  else r.1

/-! ## aesKeyGen and calcKey (WolfNew.h, lines 722-814) -/

/-- The loop of lines 728-729 of `aesKeyGen`, `n` calls of `aLotOfRngStuff`
from the index `i`; `sb2` and `sb3` are `seedBytes[2]` and `seedBytes[3]`. -/
def aesKeyGenPool (fuel sb2 sb3 : Nat) : Nat → Nat → RngData → List Nat →
    Option (RngData × List Nat)
  | 0, _, rd, cryptData => some (rd, cryptData)
  | n + 1, i, rd, cryptData =>
    match aLotOfRngStuff fuel rd ((i + sb3) % 4294967296)
        ((sb2 + 4294967296 - i) % 4294967296) i cryptData with
    | none => none
    | some r => aesKeyGenPool fuel sb2 sb3 n (i + 1) r.1 r.2

/-- One pass of the loop of lines 739-746: `rn` is the value returned by
`rand()` in this pass, `i` the loop index. -/
def shuffleStep (indexes : List Nat) (rn i : Nat) : List Nat :=
  (indexes.set i (indexes.getD (rn % 48) 0)).set (rn % 48) (indexes.getD i 0)

/-- The index table after the loop of lines 739-746; `rand j` is the value of
the `j`-th call of `rand()` after `srand(seed)`. -/
def shuffle (rand : Nat → Nat) : List Nat :=
  (List.range 48).foldl (fun indexes i => shuffleStep indexes (rand i % 4294967296) i)
    (List.range 48)

/-- An index table of 48 entries below 48, no two equal. -/
def IsIndexTable (l : List Nat) : Prop :=
  l.length = 48 ∧ (∀ i, i < 48 → l.getD i 0 < 48) ∧
    ∀ i j, i < 48 → j < 48 → l.getD i 0 = l.getD j 0 → i = j

/-- Lines 731-754 of `aesKeyGen`: the AES key and the IV taken from the pool
`cryptData` through the shuffled index table.  The platform generator is a
parameter: `rand seed j` is the `j`-th value of `rand()` after `srand(seed)`. -/
def aesKeyGenSelect (rand : Nat → Nat → Nat) (seedBytes cryptData : List Nat) :
    List Nat × List Nat :=
  let seed := seedBytes.getD 1 0 ^^^ seedBytes.getD 2 0
  let indexes := shuffle (rand seed)
  let resData := (List.range 48).map (fun i => cryptData.getD (indexes.getD i 0) 0)
  (resData.take 16, (resData.drop 16).take 16)

/-- The function `aesKeyGen(cd, rd, aesKey, aesIv)`: the generator state after
the call, the key and the IV; `none` when the fuel of a loop of
`aLotOfRngStuff` runs out. -/
def aesKeyGen (rand : Nat → Nat → Nat) (fuel : Nat) (cd : CryptData) (rd : RngData) :
    Option (RngData × List Nat × List Nat) :=
  match aesKeyGenPool fuel (cd.seedBytes.getD 2 0) (cd.seedBytes.getD 3 0) 48 0
      (runCrypt rd (cd.seedBytes.getD 0 0) (cd.seedBytes.getD 1 0)) (List.replicate 48 0) with
  | none => none
  | some r => some (r.1, aesKeyGenSelect rand cd.seedBytes r.2)

/-- The index read at line 806, `(i * k) % dataSize + 30 + gameDatBytes[7]`, in
`uint32_t` arithmetic (`k` is converted from `int32_t`). -/
def keySampleIndex (dataSize g7 i : Nat) (k : Int) : Nat :=
  ((((i * (k % 4294967296).toNat) % 4294967296) % dataSize + 30) % 4294967296 + g7)
    % 4294967296

/-- The function `calcKey(gameDataBytes)`.  The result is `none` where the
source has no defined result: when the range `[30, 30 + dataSize)` decrypted at
line 778 or an index read at line 806 lies outside the buffer, when the
remainder of line 806 would divide by a zero payload size, and when the fuel of
a loop runs out. -/
def calcKey (rand : Nat → Nat → Nat) (fuel : Nat) (gameDataBytes : List Nat) :
    Option (List Nat) :=
  let cd := initCrypt (CryptData.ofBytes gameDataBytes)
  if cd.gameDatBytes.length < 30 + cd.dataSize then none
  else
    match aesKeyGen rand fuel cd (runCrypt RngData.fresh cd.seed1 cd.seed2) with
    | none => none
    | some r =>
      let roundKey := (keyExpansion (List.replicate 192 0) r.2.1).take 176 ++ r.2.2
      let g := cd.gameDatBytes.take 30 ++
        (aesCtrXCrypt (cd.gameDatBytes.drop 30) roundKey cd.dataSize).1
      match coprimeSearch fuel fuel cd.dataSize
          (strideStart (g.getD 3 0) (g.getD 4 0) (g.getD 6 0)) with
      | none => none
      | some k =>
        if cd.dataSize = 0 ∧ g.getD 19 0 ≠ 0 then none
        else if ∀ i, i < g.getD 19 0 →
            keySampleIndex cd.dataSize (g.getD 7 0) i k < cd.gameDatBytes.length then
          some ((List.range (g.getD 19 0)).map
              (fun i => g.getD (keySampleIndex cd.dataSize (g.getD 7 0) i k) 0)
            ++ [0] ++ cd.keyBytes)
        else none

/-- The derived key bytes as the specification words them, for a payload size
`s`: with `v1 = s / 3 + 71`, `v2 = s XOR 0x70`, `v3 = s mod 1200 + 152`,
`v4 = 3 s + 85` (32-bit wraparound), the low 8 bits of `v4 XOR v1`, `v3 + v2`,
`v2 - v4`, `v2 * v4`. -/
def specKeyBytes (s : Nat) : List Nat :=
  let v1 := (s / 3 + 71) % 4294967296
  let v2 := (s ^^^ 0x70) % 4294967296
  let v3 := (s % 1200 + 152) % 4294967296
  let v4 := (3 * s + 85) % 4294967296
  [(v4 ^^^ v1) % 256, (v3 + v2) % 256, (v2 + 4294967296 - v4) % 256, (v2 * v4) % 256]

/-! ## The schedule recurrence, as specified -/

/-- Byte `c` of word `i` of a schedule. -/
def wordByte (rk : List Nat) (i c : Nat) : Nat :=
  rk.getD (4 * i + c) 0

/-- The word `t` of the recurrence `word[i] = word[i-4] XOR t`: it is
`word[i-1]` when `i mod 4 ≠ 0`; when `i mod 4 = 0`, with `(b0, b1, b2, b3)`
the bytes of `word[i-1]` after the one-byte left rotation, it is
`[sbox(b0) XOR Rcon[i/4], sbox(b1) >> 4, ~sbox(b2), rotr(sbox(b3), 7)]`,
complement and rotation taken on 8 bits. -/
def scheduleT (rk : List Nat) (i : Nat) : List Nat :=
  if i % 4 ≠ 0 then
    [wordByte rk (i - 1) 0, wordByte rk (i - 1) 1, wordByte rk (i - 1) 2, wordByte rk (i - 1) 3]
  else
    let b0 := wordByte rk (i - 1) 1
    let b1 := wordByte rk (i - 1) 2
    let b2 := wordByte rk (i - 1) 3
    let b3 := wordByte rk (i - 1) 0
    [sbox.getD b0 0 ^^^ Rcon.getD (i / 4) 0, sbox.getD b1 0 >>> 4, sbox.getD b2 0 ^^^ 0xFF,
      rotr8 (sbox.getD b3 0) 7]

/-! ## Sample inputs -/

/-- A 192-byte schedule-and-IV buffer whose IV is `FF ... FF FE`. -/
def sampleSchedule : List Nat :=
  List.replicate 176 0x5A ++ List.replicate 15 0xFF ++ [0xFE]

/-- A data buffer of 24 bytes. -/
def sampleData : List Nat :=
  [3, 1, 4, 1, 5, 9, 2, 6, 5, 3, 5, 8, 9, 7, 9, 3, 2, 3, 8, 4, 6, 2, 6, 4]

/-- A 16-byte block (also used as a 16-byte AES key). -/
def sampleBlock : List Nat :=
  [0x2b, 0x7e, 0x15, 0x16, 0x28, 0xae, 0xd2, 0xa6, 0xab, 0xf7, 0x15, 0x88, 0x09, 0xcf, 0x4f, 0x3c]

/-! ## Buffer lemmas -/

theorem getD_set_eq (l : List Nat) (i j v : Nat) :
    (l.set i v).getD j 0 = if i = j ∧ i < l.length then v else l.getD j 0 := by
  simp only [List.getD_eq_getElem?_getD, List.getElem?_set]
  by_cases h : i = j
  · subst h
    by_cases h2 : i < l.length
    · simp [h2]
    · have : l.length ≤ i := by omega
      simp [h2, List.getElem?_eq_none this]
  · simp [h]

theorem list_ext_getD (l1 l2 : List Nat) (hlen : l1.length = l2.length)
    (h : ∀ j, j < l1.length → l1.getD j 0 = l2.getD j 0) : l1 = l2 := by
  apply List.ext_getElem hlen
  intro n h1 h2
  have := h n h1
  simpa [List.getD_eq_getElem?_getD, List.getElem?_eq_getElem h1,
    List.getElem?_eq_getElem h2] using this

theorem getD_of_length_le (l : List Nat) (j : Nat) (h : l.length ≤ j) : l.getD j 0 = 0 := by
  simp [List.getD_eq_getElem?_getD, List.getElem?_eq_none h]

theorem xor_xor_cancel (a b : Nat) : a ^^^ b ^^^ b = a := by
  rw [Nat.xor_assoc, Nat.xor_self, Nat.xor_zero]

/-! ## wolfCrypt: closed form -/

theorem wolfCryptLoop_length (pKey : List Nat) (off : Nat) :
    ∀ n i v1 v2 v3 pData,
      (wolfCryptLoop pKey off n i v1 v2 v3 pData).length = pData.length := by
  intro n
  induction n with
  | zero => intro i v1 v2 v3 pData; rfl
  | succ n ih =>
    intro i v1 v2 v3 pData
    simp only [wolfCryptLoop]
    split_ifs <;> simp [ih]

theorem wolfCryptLoop_getD (pKey : List Nat) (off start : Nat) :
    ∀ n i v1 v2 v3 pData,
      v1 = (start + i) % 256 → v2 = (start + i) / 256 % 256 →
      v3 = (start + i) / 65536 % 256 → off + i + n ≤ pData.length →
      ∀ j, (wolfCryptLoop pKey off n i v1 v2 v3 pData).getD j 0 =
        if off + i ≤ j ∧ j < off + i + n then
          pData.getD j 0 ^^^ wolfKeyStream pKey (start + (j - off))
        else pData.getD j 0 := by
  intro n
  induction n with
  | zero =>
    intro i v1 v2 v3 pData _ _ _ _ j
    have : ¬ (off + i ≤ j ∧ j < off + i + 0) := by omega
    rw [if_neg this]
    rfl
  | succ n ih =>
    intro i v1 v2 v3 pData h1 h2 h3 hlen j
    have hstep : ∀ w1 w2 w3 : Nat, w1 = (start + (i + 1)) % 256 →
        w2 = (start + (i + 1)) / 256 % 256 → w3 = (start + (i + 1)) / 65536 % 256 →
        (wolfCryptLoop pKey off n (i + 1) w1 w2 w3
          (pData.set (off + i) (pData.getD (off + i) 0 ^^^
            (pKey.getD v1 0 ^^^ pKey.getD (v2 + 256) 0 ^^^ pKey.getD (v3 + 512) 0)))).getD j 0 =
        if off + i ≤ j ∧ j < off + i + (n + 1) then
          pData.getD j 0 ^^^ wolfKeyStream pKey (start + (j - off))
        else pData.getD j 0 := by
      intro w1 w2 w3 e1 e2 e3
      rw [ih (i + 1) w1 w2 w3 _ e1 e2 e3 (by simp; omega) j, getD_set_eq]
      by_cases hj : off + i = j
      · have hlt : off + i < pData.length := by omega
        have c1 : ¬ (off + (i + 1) ≤ j ∧ j < off + (i + 1) + n) := by omega
        have c2 : off + i ≤ j ∧ j < off + i + (n + 1) := by omega
        have c3 : start + (j - off) = start + i := by omega
        subst hj
        rw [if_neg c1, if_pos c2, if_pos ⟨rfl, hlt⟩, c3, wolfKeyStream, ← h1, ← h2, ← h3]
      · by_cases hr : off + (i + 1) ≤ j ∧ j < off + (i + 1) + n
        · have c2 : off + i ≤ j ∧ j < off + i + (n + 1) := by omega
          simp [hr, c2, hj]
        · have c2 : ¬ (off + i ≤ j ∧ j < off + i + (n + 1)) := by omega
          simp [hr, c2, hj]
    by_cases c1 : v1 + 1 = 256
    · by_cases c2 : v2 + 1 = 256
      · by_cases c3 : v3 + 1 = 256
        · simp only [wolfCryptLoop, c1, c2, c3, if_true]
          exact hstep 0 0 0 (by omega) (by omega) (by omega)
        · simp only [wolfCryptLoop, c1, c2, c3, if_true, if_false]
          exact hstep 0 0 (v3 + 1) (by omega) (by omega) (by omega)
      · simp only [wolfCryptLoop, c1, c2, if_true, if_false]
        exact hstep 0 (v2 + 1) v3 (by omega) (by omega) (by omega)
    · simp only [wolfCryptLoop, c1, if_false]
      exact hstep (v1 + 1) v2 v3 (by omega) (by omega) (by omega)

theorem wolfCrypt_length (pKey pData : List Nat) (s e : Nat) (f : Bool) :
    (wolfCrypt pKey pData s e f).length = pData.length := by
  simp [wolfCrypt, wolfCryptLoop_length]

theorem wolfCrypt_getD (pKey pData : List Nat) (s e : Nat) (f : Bool) (off : Nat)
    (hoff : off = if f then s else 0) (hb : off + (e - s) ≤ pData.length) (j : Nat) :
    (wolfCrypt pKey pData s e f).getD j 0 =
      if off ≤ j ∧ j < off + (e - s) then
        pData.getD j 0 ^^^ wolfKeyStream pKey (s + (j - off))
      else pData.getD j 0 := by
  have := wolfCryptLoop_getD pKey off s (e - s) 0 (s % 256) (s / 256 % 256)
    (s / 65536 % 256) pData (by simp) (by simp) (by simp) (by simpa using hb) j
  simpa [wolfCrypt, ← hoff] using this

theorem keyTable_getD (pKey : List Nat) (N k : Nat) (hk : k < 256) :
    (keyTable pKey N).getD k 0 = pKey.getD (256 * N + k) 0 := by
  simp [keyTable, List.getD_eq_getElem?_getD, List.getElem?_take, hk]

/-! ## Claims on wolfCrypt -/

/-- C1: `wolfCrypt` is self-inverse.  For every key material, every buffer,
every `start` and `end` with the processed range inside the buffer and either
value of the advance-pointer flag, applying `wolfCrypt` twice with the same
key, start, end and flag gives back the original buffer. -/
theorem wolfCrypt_self_inverse (pKey pData : List Nat) (start «end» : Nat)
    (updateDataPos : Bool) (hse : start ≤ «end») (hbuf : «end» ≤ pData.length) :
    wolfCrypt pKey (wolfCrypt pKey pData start «end» updateDataPos) start «end» updateDataPos
      = pData := by
  obtain ⟨off, hoff⟩ : ∃ off, off = if updateDataPos then start else 0 := ⟨_, rfl⟩
  have hb : off + («end» - start) ≤ pData.length := by
    rw [hoff]
    split_ifs <;> omega
  apply list_ext_getD
  · simp [wolfCrypt_length]
  · intro j _
    rw [wolfCrypt_getD _ _ _ _ _ off hoff (by simpa [wolfCrypt_length] using hb),
      wolfCrypt_getD _ _ _ _ _ off hoff hb]
    by_cases hj : off ≤ j ∧ j < off + («end» - start)
    · rw [if_pos hj, if_pos hj]
      exact xor_xor_cancel _ _
    · rw [if_neg hj, if_neg hj]

theorem wolfCrypt_self_inverse_witness :
(1 ≤ 4 ∧ 4 ≤ [10, 20, 30, 40, 50].length) ∧
      wolfCrypt (List.replicate 768 90) (wolfCrypt (List.replicate 768 90) [10, 20, 30, 40, 50] 1 4 true)
        1 4 true = [10, 20, 30, 40, 50] :=
  ⟨by decide,
    wolfCrypt_self_inverse (List.replicate 768 90) [10, 20, 30, 40, 50] 1 4 true (by decide) (by decide)⟩

/-- C2: closed form of `wolfCrypt`.  For `start` and `end` with the processed
positions inside the buffer (`[start, end)` when the advance-pointer flag is
set, `[0, end - start)` otherwise; none when `end ≤ start`) and every
`i < end - start`, the `i`-th processed byte (position `start + i` when
the advance-pointer flag is set, position `i` otherwise) becomes the old byte
XOR `table0[(start+i) mod 256]` XOR `table1[((start+i)/256) mod 256]` XOR
`table2[((start+i)/65536) mod 256]`, where `tableN` is key bytes
`[256 N, 256 N + 256)`; every other byte of the buffer is unchanged and the
buffer keeps its length.  The key material is an argument that is only read. -/
theorem wolfCrypt_closed_form (pKey pData : List Nat) (start «end» : Nat)
    (updateDataPos : Bool)
    (hbuf : (if updateDataPos then start else 0) + («end» - start) ≤ pData.length) :
    (wolfCrypt pKey pData start «end» updateDataPos).length = pData.length ∧
    (∀ i, i < «end» - start →
      (wolfCrypt pKey pData start «end» updateDataPos).getD
          ((if updateDataPos then start else 0) + i) 0 =
        pData.getD ((if updateDataPos then start else 0) + i) 0
          ^^^ (keyTable pKey 0).getD ((start + i) % 256) 0
          ^^^ (keyTable pKey 1).getD ((start + i) / 256 % 256) 0
          ^^^ (keyTable pKey 2).getD ((start + i) / 65536 % 256) 0) ∧
    (∀ j, (j < (if updateDataPos then start else 0) ∨
        (if updateDataPos then start else 0) + («end» - start) ≤ j) →
      (wolfCrypt pKey pData start «end» updateDataPos).getD j 0 = pData.getD j 0) := by
  obtain ⟨off, hoff⟩ : ∃ off, off = if updateDataPos then start else 0 := ⟨_, rfl⟩
  have hb : off + («end» - start) ≤ pData.length := by
    rw [hoff]
    exact hbuf
  rw [← hoff]
  refine ⟨wolfCrypt_length _ _ _ _ _, ?_, ?_⟩
  · intro i hi
    rw [wolfCrypt_getD _ _ _ _ _ off hoff hb, if_pos (by omega)]
    have e : start + (off + i - off) = start + i := by omega
    rw [e, wolfKeyStream, keyTable_getD _ _ _ (Nat.mod_lt _ (by decide)),
      keyTable_getD _ _ _ (Nat.mod_lt _ (by decide)),
      keyTable_getD _ _ _ (Nat.mod_lt _ (by decide))]
    simp only [Nat.mul_zero, Nat.zero_add, Nat.mul_one]
    rw [Nat.add_comm 256, Nat.add_comm (256 * 2)]
    simp only [Nat.xor_assoc]
  · intro j hj
    rw [wolfCrypt_getD _ _ _ _ _ off hoff hb, if_neg (by omega)]

theorem wolfCrypt_closed_form_witness :
    (if true = true then 1 else 0) + (4 - 1) ≤ [10, 20, 30, 40, 50].length ∧
    ((wolfCrypt (List.replicate 768 90) [10, 20, 30, 40, 50] 1 4 true).length
        = [10, 20, 30, 40, 50].length ∧
    (∀ i, i < 4 - 1 →
      (wolfCrypt (List.replicate 768 90) [10, 20, 30, 40, 50] 1 4 true).getD
          ((if true = true then 1 else 0) + i) 0 =
        [10, 20, 30, 40, 50].getD ((if true = true then 1 else 0) + i) 0
          ^^^ (keyTable (List.replicate 768 90) 0).getD ((1 + i) % 256) 0
          ^^^ (keyTable (List.replicate 768 90) 1).getD ((1 + i) / 256 % 256) 0
          ^^^ (keyTable (List.replicate 768 90) 2).getD ((1 + i) / 65536 % 256) 0) ∧
    (∀ j, (j < (if true = true then 1 else 0) ∨
        (if true = true then 1 else 0) + (4 - 1) ≤ j) →
      (wolfCrypt (List.replicate 768 90) [10, 20, 30, 40, 50] 1 4 true).getD j 0
        = [10, 20, 30, 40, 50].getD j 0)) :=
  ⟨by decide,
    wolfCrypt_closed_form (List.replicate 768 90) [10, 20, 30, 40, 50] 1 4 true (by decide)⟩

/-! ## The big-endian counter -/

theorem getD_take_lt (l : List Nat) (n j : Nat) (h : j < n) :
    (l.take n).getD j 0 = l.getD j 0 := by
  simp [List.getD_eq_getElem?_getD, List.getElem?_take, h]

theorem getD_map_range (f : Nat → Nat) (n j : Nat) (h : j < n) :
    ((List.range n).map f).getD j 0 = f j := by
  simp [List.getD_eq_getElem?_getD, h]

theorem beVal_congr (a b : List Nat) (off : Nat) :
    ∀ k, (∀ j, j < k → a.getD (off + j) 0 = b.getD (off + j) 0) →
      beVal a off k = beVal b off k := by
  intro k
  induction k with
  | zero => intro _; rfl
  | succ k ih =>
    intro h
    simp only [beVal]
    rw [ih (fun j hj => h j (by omega)), h k (by omega)]

theorem beVal_lt (a : List Nat) (off : Nat) :
    ∀ k, (∀ j, j < k → a.getD (off + j) 0 < 256) → beVal a off k < 256 ^ k := by
  intro k
  induction k with
  | zero => intro _; simp [beVal]
  | succ k ih =>
    intro h
    have h1 := ih (fun j hj => h j (by omega))
    have h2 := h k (by omega)
    simp only [beVal, Nat.pow_succ]
    omega

theorem beVal_eq_zero (a : List Nat) (off : Nat) :
    ∀ k, beVal a off k = 0 → ∀ j, j < k → a.getD (off + j) 0 = 0 := by
  intro k
  induction k with
  | zero => intro _ j hj; omega
  | succ k ih =>
    intro h j hj
    simp only [beVal] at h
    have h1 : beVal a off k = 0 := by omega
    have h2 : a.getD (off + k) 0 = 0 := by omega
    by_cases e : j = k
    · rw [e]; exact h2
    · exact ih h1 j (by omega)

theorem beVal_all_ff (a : List Nat) (off : Nat) :
    ∀ k, (∀ j, j < k → a.getD (off + j) 0 = 255) → beVal a off k + 1 = 256 ^ k := by
  intro k
  induction k with
  | zero => intro _; simp [beVal]
  | succ k ih =>
    intro h
    have h1 := ih (fun j hj => h j (by omega))
    have h2 := h k (by omega)
    simp only [beVal, Nat.pow_succ]
    omega

/-- Byte `j` of a big-endian value. -/
theorem beVal_digit (a : List Nat) (off : Nat) :
    ∀ k, (∀ j, j < k → a.getD (off + j) 0 < 256) →
      ∀ j, j < k → beVal a off k / 256 ^ (k - 1 - j) % 256 = a.getD (off + j) 0 := by
  intro k
  induction k with
  | zero => intro _ j hj; omega
  | succ k ih =>
    intro h j hj
    have hk := h k (by omega)
    by_cases e : j = k
    · subst e
      simp only [beVal, Nat.add_sub_cancel, Nat.sub_self, Nat.pow_zero, Nat.div_one]
      omega
    · have hjk : j < k := by omega
      have e1 : k + 1 - 1 - j = (k - 1 - j) + 1 := by omega
      have e2 : (beVal a off k * 256 + a.getD (off + k) 0) / 256 = beVal a off k := by omega
      rw [e1, Nat.pow_succ, Nat.mul_comm, ← Nat.div_div_eq_div_mul]
      simp only [beVal]
      rw [e2]
      exact ih (fun j hj => h j (by omega)) j hjk

theorem ivBlock_eq_toBE16 (pKey : List Nat) (hb : ∀ j, j < 16 → pKey.getD (176 + j) 0 < 256) :
    ivBlock pKey = toBE16 (beVal pKey 176 16) := by
  unfold ivBlock toBE16
  apply List.map_congr_left
  intro j hj
  have hj16 : j < 16 := List.mem_range.mp hj
  have := beVal_digit pKey 176 16 hb j hj16
  simpa using this.symm

theorem ivIncrement_spec : ∀ k pKey, 176 + k ≤ pKey.length →
    (∀ j, j < k → pKey.getD (176 + j) 0 < 256) →
    (ivIncrement k pKey).length = pKey.length ∧
    (∀ j, (j < 176 ∨ 176 + k ≤ j) → (ivIncrement k pKey).getD j 0 = pKey.getD j 0) ∧
    (∀ j, j < k → (ivIncrement k pKey).getD (176 + j) 0 < 256) ∧
    beVal (ivIncrement k pKey) 176 k = (beVal pKey 176 k + 1) % 256 ^ k := by
  intro k
  induction k with
  | zero =>
    intro pKey _ _
    refine ⟨rfl, fun _ _ => rfl, fun j hj => by omega, ?_⟩
    simp [ivIncrement, beVal]
  | succ k ih =>
    intro pKey hlen hb
    have hbk := hb k (by omega)
    by_cases hff : pKey.getD (176 + k) 0 = 0xFF
    · have hset : ∀ j, 176 + k ≠ j → (pKey.set (176 + k) 0).getD j 0 = pKey.getD j 0 := by
        intro j hj
        rw [getD_set_eq, if_neg (by omega)]
      have hk0 : (pKey.set (176 + k) 0).getD (176 + k) 0 = 0 := by
        rw [getD_set_eq, if_pos ⟨rfl, by omega⟩]
      obtain ⟨i1, i2, i3, i4⟩ := ih (pKey.set (176 + k) 0) (by simp; omega)
        (fun j hj => by rw [hset _ (by omega)]; exact hb j (by omega))
      have hres : ivIncrement (k + 1) pKey = ivIncrement k (pKey.set (176 + k) 0) := by
        simp only [ivIncrement, hff, if_true]
      rw [hres]
      have hlast : (ivIncrement k (pKey.set (176 + k) 0)).getD (176 + k) 0 = 0 := by
        rw [i2 _ (Or.inr (le_refl _)), hk0]
      refine ⟨by simpa using i1, ?_, ?_, ?_⟩
      · intro j hj
        rw [i2 j (by omega), hset j (by omega)]
      · intro j hj
        by_cases e : j = k
        · rw [e, hlast]; decide
        · exact i3 j (by omega)
      · simp only [beVal]
        have e : beVal pKey 176 k * 256 + 0xFF + 1 = (beVal pKey 176 k + 1) * 256 := by ring
        rw [hlast, i4, beVal_congr _ pKey 176 k (fun j hj => hset _ (by omega)), hff, e,
          Nat.pow_succ, Nat.mul_mod_mul_right, Nat.add_zero]
    · have hres : ivIncrement (k + 1) pKey
          = pKey.set (176 + k) (pKey.getD (176 + k) 0 + 1) := by
        simp only [ivIncrement, hff, if_false]
      rw [hres]
      have hset : ∀ j, 176 + k ≠ j →
          (pKey.set (176 + k) (pKey.getD (176 + k) 0 + 1)).getD j 0 = pKey.getD j 0 := by
        intro j hj
        rw [getD_set_eq, if_neg (by omega)]
      have hk1 : (pKey.set (176 + k) (pKey.getD (176 + k) 0 + 1)).getD (176 + k) 0
          = pKey.getD (176 + k) 0 + 1 := by
        rw [getD_set_eq, if_pos ⟨rfl, by omega⟩]
      have hlt := beVal_lt pKey 176 k (fun j hj => hb j (by omega))
      refine ⟨by simp, fun j hj => hset j (by omega), ?_, ?_⟩
      · intro j hj
        by_cases e : j = k
        · rw [e, hk1]
          have : pKey.getD (176 + k) 0 ≠ 255 := hff
          omega
        · rw [hset _ (by omega)]
          exact hb j (by omega)
      · simp only [beVal]
        rw [hk1, beVal_congr _ pKey 176 k (fun j hj => hset _ (by omega))]
        have : pKey.getD (176 + k) 0 ≠ 255 := hff
        rw [Nat.mod_eq_of_lt]
        · ring
        · rw [Nat.pow_succ]
          omega

/-! ## The block cipher reads only the expanded key -/

theorem addRoundKey_congr (st K K1 : List Nat) (round : Nat) (hr : round ≤ 10)
    (h : ∀ j, j < 176 → K.getD j 0 = K1.getD j 0) :
    addRoundKey st round K = addRoundKey st round K1 := by
  unfold addRoundKey
  apply List.foldl_ext
  intro a b hb
  have : b < 16 := List.mem_range.mp hb
  rw [h (round * 16 + b) (by omega)]

theorem cipher_congr (st K K1 : List Nat) (h : ∀ j, j < 176 → K.getD j 0 = K1.getD j 0) :
    cipher st K = cipher st K1 := by
  unfold cipher
  simp only
  rw [addRoundKey_congr st K K1 0 (by omega) h]
  have e : ∀ s0, (List.range' 1 9).foldl
      (fun st round => addRoundKey (mixColumns (shiftRows (subBytes st))) round K) s0
      = (List.range' 1 9).foldl
      (fun st round => addRoundKey (mixColumns (shiftRows (subBytes st))) round K1) s0 := by
    intro s0
    apply List.foldl_ext
    intro a b hb
    obtain ⟨i, hi, rfl⟩ := List.mem_range'.mp hb
    exact addRoundKey_congr _ K K1 _ (by omega) h
  rw [e, addRoundKey_congr _ K K1 10 (by omega) h]

/-! ## aesCtrXCrypt: closed form -/

theorem aesCtrLoop_spec (K0 : List Nat) (hK0 : 192 ≤ K0.length) :
    ∀ n i bi state pData pKey,
      pKey.length = K0.length →
      (∀ j, j < 176 → pKey.getD j 0 = K0.getD j 0) →
      (∀ j, j < 16 → pKey.getD (176 + j) 0 < 256) →
      beVal pKey 176 16 = (beVal K0 176 16 + (i + 15) / 16) % 2 ^ 128 →
      bi = (if i % 16 = 0 then 16 else i % 16) →
      (i % 16 ≠ 0 → state = ctrBlock K0 (i / 16)) →
      (i + n ≤ pData.length →
        (aesCtrLoop n i bi state pData pKey).1.length = pData.length ∧
        ∀ j, (aesCtrLoop n i bi state pData pKey).1.getD j 0 =
          if i ≤ j ∧ j < i + n then pData.getD j 0 ^^^ (ctrBlock K0 (j / 16)).getD (j % 16) 0
          else pData.getD j 0) ∧
      (aesCtrLoop n i bi state pData pKey).2.length = K0.length ∧
      (∀ j, j < 176 → (aesCtrLoop n i bi state pData pKey).2.getD j 0 = K0.getD j 0) ∧
      (∀ j, j < 16 → (aesCtrLoop n i bi state pData pKey).2.getD (176 + j) 0 < 256) ∧
      beVal (aesCtrLoop n i bi state pData pKey).2 176 16
        = (beVal K0 176 16 + (i + n + 15) / 16) % 2 ^ 128 := by
  intro n
  induction n with
  | zero =>
    intro i bi state pData pKey h1 h2 h3 h4 _ _
    refine ⟨fun _ => ⟨rfl, fun j => ?_⟩, h1, h2, h3, h4⟩
    rw [if_neg (by omega)]
    rfl
  | succ n ih =>
    intro i bi state pData pKey h1 h2 h3 h4 h5 h6
    -- the data part of the conclusion, from the recursive call on the updated buffer
    have hdata : ∀ (st : List Nat) (r : List Nat × List Nat),
        st = ctrBlock K0 (i / 16) →
        (i + 1 + n ≤ (pData.set i (pData.getD i 0 ^^^ st.getD (i % 16) 0)).length →
          r.1.length = (pData.set i (pData.getD i 0 ^^^ st.getD (i % 16) 0)).length ∧
          ∀ j, r.1.getD j 0 =
            if i + 1 ≤ j ∧ j < i + 1 + n then
              (pData.set i (pData.getD i 0 ^^^ st.getD (i % 16) 0)).getD j 0
                ^^^ (ctrBlock K0 (j / 16)).getD (j % 16) 0
            else (pData.set i (pData.getD i 0 ^^^ st.getD (i % 16) 0)).getD j 0) →
        (i + (n + 1) ≤ pData.length →
          r.1.length = pData.length ∧
          ∀ j, r.1.getD j 0 =
            if i ≤ j ∧ j < i + (n + 1) then
              pData.getD j 0 ^^^ (ctrBlock K0 (j / 16)).getD (j % 16) 0
            else pData.getD j 0) := by
      intro st r hst hr hlen
      obtain ⟨r1, r2⟩ := hr (by simp; omega)
      refine ⟨by simpa using r1, fun j => ?_⟩
      rw [r2 j, getD_set_eq]
      by_cases hj : i = j
      · subst hj
        rw [if_neg (by omega), if_pos ⟨rfl, by omega⟩, if_pos (by omega), hst]
      · by_cases hr : i + 1 ≤ j ∧ j < i + 1 + n
        · rw [if_pos hr, if_neg (by omega), if_pos (by omega)]
        · rw [if_neg hr, if_neg (by omega), if_neg (by omega)]
    by_cases hbi : bi = 16
    · have hi : i % 16 = 0 := by
        by_contra hne
        rw [if_neg hne] at h5
        omega
      obtain ⟨i1, i2, i3, i4⟩ := ivIncrement_spec 16 pKey (by omega) h3
      have hstate : cipher (ivBlock pKey) pKey = ctrBlock K0 (i / 16) := by
        have e : (i + 15) / 16 = i / 16 := by omega
        rw [ivBlock_eq_toBE16 pKey h3, h4, e]
        unfold ctrBlock
        apply cipher_congr
        intro j hj
        rw [h2 j hj, getD_take_lt _ _ _ hj]
      have hval : beVal (ivIncrement 16 pKey) 176 16
          = (beVal K0 176 16 + (i + 1 + 15) / 16) % 2 ^ 128 := by
        have e : (i + 1 + 15) / 16 = (i + 15) / 16 + 1 := by omega
        have p : (256 : Nat) ^ 16 = 2 ^ 128 := by norm_num
        rw [i4, h4, p, e, Nat.mod_add_mod, Nat.add_assoc]
      have hres : aesCtrLoop (n + 1) i bi state pData pKey
          = aesCtrLoop n (i + 1) 1 (cipher (ivBlock pKey) pKey)
              (pData.set i (pData.getD i 0 ^^^ (cipher (ivBlock pKey) pKey).getD 0 0))
              (ivIncrement 16 pKey) := by
        simp only [aesCtrLoop, hbi, if_true]
      have := ih (i + 1) 1 (cipher (ivBlock pKey) pKey)
        (pData.set i (pData.getD i 0 ^^^ (cipher (ivBlock pKey) pKey).getD 0 0))
        (ivIncrement 16 pKey) (by rw [i1, h1])
        (fun j hj => by rw [i2 j (Or.inl hj), h2 j hj]) i3 hval
        (by rw [if_neg (by omega)]; omega)
        (fun _ => by rw [hstate, show (i + 1) / 16 = i / 16 by omega])
      rw [hres]
      obtain ⟨d, k1, k2, k3, k4⟩ := this
      refine ⟨?_, k1, k2, k3, by rw [k4, show i + 1 + n = i + (n + 1) by omega]⟩
      have := hdata (cipher (ivBlock pKey) pKey) _ hstate (by rw [hi]; exact d)
      exact this
    · have hi : i % 16 ≠ 0 := by
        intro h0
        rw [if_pos h0] at h5
        exact hbi h5
      have hbi2 : bi = i % 16 := by rw [if_neg hi] at h5; exact h5
      have hstate := h6 hi
      have hres : aesCtrLoop (n + 1) i bi state pData pKey
          = aesCtrLoop n (i + 1) (bi + 1) state
              (pData.set i (pData.getD i 0 ^^^ state.getD bi 0)) pKey := by
        simp only [aesCtrLoop, hbi, if_false]
      have hval : beVal pKey 176 16 = (beVal K0 176 16 + (i + 1 + 15) / 16) % 2 ^ 128 := by
        have e : (i + 1 + 15) / 16 = (i + 15) / 16 := by omega
        rw [h4, e]
      have := ih (i + 1) (bi + 1) state
        (pData.set i (pData.getD i 0 ^^^ state.getD bi 0)) pKey h1 h2 h3 hval
        (by split_ifs <;> omega)
        (fun _ => by rw [hstate, show (i + 1) / 16 = i / 16 by omega])
      rw [hres]
      obtain ⟨d, k1, k2, k3, k4⟩ := this
      refine ⟨?_, k1, k2, k3, by rw [k4, show i + 1 + n = i + (n + 1) by omega]⟩
      have := hdata state _ hstate (by rw [← hbi2]; exact d)
      exact this

theorem isBytes_iv (pKey : List Nat) (hb : IsBytes pKey) (j : Nat) :
    pKey.getD (176 + j) 0 < 256 := by
  by_cases h : 176 + j < pKey.length
  · have : pKey.getD (176 + j) 0 = pKey[176 + j] := by
      simp [List.getD_eq_getElem?_getD, List.getElem?_eq_getElem h]
    rw [this]
    exact hb _ (List.getElem_mem h)
  · rw [getD_of_length_le _ _ (by omega)]
    decide

theorem aesCtrXCrypt_spec (pData pKey : List Nat) (n : Nat) (hlen : pKey.length = 192)
    (hb : IsBytes pKey) :
    (n ≤ pData.length →
      (aesCtrXCrypt pData pKey n).1.length = pData.length ∧
      ∀ j, (aesCtrXCrypt pData pKey n).1.getD j 0 =
        if j < n then pData.getD j 0 ^^^ (ctrBlock pKey (j / 16)).getD (j % 16) 0
        else pData.getD j 0) ∧
    (aesCtrXCrypt pData pKey n).2.length = 192 ∧
    (∀ j, j < 176 → (aesCtrXCrypt pData pKey n).2.getD j 0 = pKey.getD j 0) ∧
    (∀ j, j < 16 → (aesCtrXCrypt pData pKey n).2.getD (176 + j) 0 < 256) ∧
    beVal (aesCtrXCrypt pData pKey n).2 176 16
      = (beVal pKey 176 16 + (n + 15) / 16) % 2 ^ 128 := by
  have hlt : beVal pKey 176 16 < 2 ^ 128 := by
    have := beVal_lt pKey 176 16 (fun j _ => isBytes_iv pKey hb j)
    have p : (256 : Nat) ^ 16 = 2 ^ 128 := by norm_num
    rwa [p] at this
  have := aesCtrLoop_spec pKey (by omega) n 0 16 [] pData pKey rfl (fun _ _ => rfl)
    (fun j _ => isBytes_iv pKey hb j)
    (by rw [show (0 + 15) / 16 = 0 by decide, Nat.add_zero, Nat.mod_eq_of_lt hlt])
    (by decide) (fun h => absurd rfl h)
  obtain ⟨d, k1, k2, k3, k4⟩ := this
  have hdef : aesCtrXCrypt pData pKey n = aesCtrLoop n 0 16 [] pData pKey := rfl
  rw [hdef]
  refine ⟨fun hn => ?_, by rw [← hlen]; exact k1, k2, k3, by rw [k4, Nat.zero_add]⟩
  obtain ⟨d1, d2⟩ := d (by omega)
  refine ⟨d1, fun j => ?_⟩
  rw [d2 j, Nat.zero_add]
  by_cases hj : j < n
  · rw [if_pos hj, if_pos ⟨Nat.zero_le _, hj⟩]
  · rw [if_neg hj, if_neg (fun h => hj h.2)]

theorem take_eq_of_getD (a b : List Nat) (m : Nat) (hlen : a.length = b.length)
    (h : ∀ j, j < m → a.getD j 0 = b.getD j 0) : a.take m = b.take m := by
  apply list_ext_getD
  · simp [hlen]
  · intro j hj
    have hjm : j < m := by
      rw [List.length_take] at hj
      omega
    rw [getD_take_lt _ _ _ hjm, getD_take_lt _ _ _ hjm, h j hjm]

/-! ## Claims on aesCtrXCrypt -/

/-- C3: CTR round trip.  For every 192-byte schedule-and-IV buffer of bytes,
every data buffer and every length `n` not above the buffer length, running
`aesCtrXCrypt`, then running it again on the resulting data with the
resulting schedule and the IV restored to its starting value, gives back the
original data. -/
theorem aesCtrXCrypt_round_trip (pData pKey : List Nat) (n : Nat)
    (hlen : pKey.length = 192) (hb : IsBytes pKey) (hn : n ≤ pData.length) :
    (aesCtrXCrypt (aesCtrXCrypt pData pKey n).1
      ((aesCtrXCrypt pData pKey n).2.take 176 ++ pKey.drop 176) n).1 = pData := by
  obtain ⟨d, k1, k2, _, _⟩ := aesCtrXCrypt_spec pData pKey n hlen hb
  obtain ⟨d1, d2⟩ := d hn
  have hk : (aesCtrXCrypt pData pKey n).2.take 176 ++ pKey.drop 176 = pKey := by
    rw [take_eq_of_getD _ pKey 176 (by rw [k1, hlen]) k2, List.take_append_drop]
  rw [hk]
  obtain ⟨e, _⟩ := aesCtrXCrypt_spec (aesCtrXCrypt pData pKey n).1 pKey n hlen hb
  obtain ⟨e1, e2⟩ := e (by rw [d1]; exact hn)
  apply list_ext_getD
  · rw [e1, d1]
  · intro j _
    rw [e2 j, d2 j]
    by_cases hj : j < n
    · rw [if_pos hj, if_pos hj]
      exact xor_xor_cancel _ _
    · rw [if_neg hj, if_neg hj]

set_option maxRecDepth 8192 in
theorem aesCtrXCrypt_round_trip_witness :
    (sampleSchedule.length = 192 ∧ IsBytes sampleSchedule ∧ 20 ≤ sampleData.length) ∧
    (aesCtrXCrypt (aesCtrXCrypt sampleData sampleSchedule 20).1
      ((aesCtrXCrypt sampleData sampleSchedule 20).2.take 176 ++ sampleSchedule.drop 176) 20).1
      = sampleData :=
  ⟨⟨by decide, by decide, by decide⟩,
    aesCtrXCrypt_round_trip sampleData sampleSchedule 20 (by decide) (by decide) (by decide)⟩

/-- C4: CTR key stream.  For every 192-byte schedule-and-IV buffer of bytes,
every data buffer and every `n` not above its length, `aesCtrXCrypt` replaces
`data[i]`, for each `i < n`, by `data[i] XOR cipher(IV0 + i / 16)[i mod 16]`,
where `IV0` is the IV on entry read as a 128-bit big-endian number, the sum is
taken modulo `2^128`, and `cipher` is the block cipher under the first 176
bytes of the buffer; the bytes at index `n` and above are unchanged, and the
data buffer keeps its length. -/
theorem aesCtrXCrypt_keystream (pData pKey : List Nat) (n : Nat)
    (hlen : pKey.length = 192) (hb : IsBytes pKey) (hn : n ≤ pData.length) :
    (aesCtrXCrypt pData pKey n).1.length = pData.length ∧
    (∀ i, i < n → (aesCtrXCrypt pData pKey n).1.getD i 0 =
      pData.getD i 0 ^^^
        (cipher (toBE16 ((beVal pKey 176 16 + i / 16) % 2 ^ 128)) (pKey.take 176)).getD
          (i % 16) 0) ∧
    (∀ i, n ≤ i → (aesCtrXCrypt pData pKey n).1.getD i 0 = pData.getD i 0) := by
  obtain ⟨d, _⟩ := aesCtrXCrypt_spec pData pKey n hlen hb
  obtain ⟨d1, d2⟩ := d hn
  refine ⟨d1, fun i hi => ?_, fun i hi => ?_⟩
  · rw [d2 i, if_pos hi]
    rfl
  · rw [d2 i, if_neg (by omega)]

set_option maxRecDepth 8192 in
theorem aesCtrXCrypt_keystream_witness :
    (sampleSchedule.length = 192 ∧ IsBytes sampleSchedule ∧ 20 ≤ sampleData.length) ∧
    ((aesCtrXCrypt sampleData sampleSchedule 20).1.length = sampleData.length ∧
    (∀ i, i < 20 → (aesCtrXCrypt sampleData sampleSchedule 20).1.getD i 0 =
      sampleData.getD i 0 ^^^
        (cipher (toBE16 ((beVal sampleSchedule 176 16 + i / 16) % 2 ^ 128))
          (sampleSchedule.take 176)).getD (i % 16) 0) ∧
    (∀ i, 20 ≤ i → (aesCtrXCrypt sampleData sampleSchedule 20).1.getD i 0
      = sampleData.getD i 0)) :=
  ⟨⟨by decide, by decide, by decide⟩,
    aesCtrXCrypt_keystream sampleData sampleSchedule 20 (by decide) (by decide) (by decide)⟩

/-- C5: the schedule under CTR streaming.  For every 192-byte
schedule-and-IV buffer of bytes, every data buffer and every length `n`,
`aesCtrXCrypt` leaves the length and the first 176 bytes (the expanded key) of
the buffer unchanged, and the last 16 bytes, read as a big-endian 128-bit
number, end up equal to `(IV0 + ceil(n / 16)) mod 2^128`.  In particular
`n = 0` leaves the whole buffer unchanged, and an all-0xFF IV becomes
all-zero after one block (`1 ≤ n ≤ 16`). -/
theorem aesCtrXCrypt_schedule (pData pKey : List Nat) (n : Nat)
    (hlen : pKey.length = 192) (hb : IsBytes pKey) :
    (aesCtrXCrypt pData pKey n).2.length = 192 ∧
    (aesCtrXCrypt pData pKey n).2.take 176 = pKey.take 176 ∧
    beVal (aesCtrXCrypt pData pKey n).2 176 16
      = (beVal pKey 176 16 + (n + 15) / 16) % 2 ^ 128 ∧
    (n = 0 → (aesCtrXCrypt pData pKey n).2 = pKey) ∧
    (1 ≤ n → n ≤ 16 → (∀ j, j < 16 → pKey.getD (176 + j) 0 = 0xFF) →
      ∀ j, j < 16 → (aesCtrXCrypt pData pKey n).2.getD (176 + j) 0 = 0) := by
  obtain ⟨_, k1, k2, _, k4⟩ := aesCtrXCrypt_spec pData pKey n hlen hb
  refine ⟨k1, take_eq_of_getD _ pKey 176 (by rw [k1, hlen]) k2, k4, ?_, ?_⟩
  · intro h0
    rw [h0]
    rfl
  · intro h1 h16 hff
    have hv := beVal_all_ff pKey 176 16 hff
    have hc : (n + 15) / 16 = 1 := by omega
    have p : (256 : Nat) ^ 16 = 2 ^ 128 := by norm_num
    rw [hc, hv, p, Nat.mod_self] at k4
    exact beVal_eq_zero _ 176 16 k4

set_option maxRecDepth 8192 in
theorem aesCtrXCrypt_schedule_witness :
    (sampleSchedule.length = 192 ∧ IsBytes sampleSchedule) ∧
    ((aesCtrXCrypt sampleData sampleSchedule 20).2.length = 192 ∧
    (aesCtrXCrypt sampleData sampleSchedule 20).2.take 176 = sampleSchedule.take 176 ∧
    beVal (aesCtrXCrypt sampleData sampleSchedule 20).2 176 16
      = (beVal sampleSchedule 176 16 + (20 + 15) / 16) % 2 ^ 128 ∧
    (20 = 0 → (aesCtrXCrypt sampleData sampleSchedule 20).2 = sampleSchedule) ∧
    (1 ≤ 20 → 20 ≤ 16 → (∀ j, j < 16 → sampleSchedule.getD (176 + j) 0 = 0xFF) →
      ∀ j, j < 16 → (aesCtrXCrypt sampleData sampleSchedule 20).2.getD (176 + j) 0 = 0)) :=
  ⟨⟨by decide, by decide⟩,
    aesCtrXCrypt_schedule sampleData sampleSchedule 20 (by decide) (by decide)⟩

/-! ## keyExpansion -/

set_option maxRecDepth 8192 in
theorem sbox_lt (x : Nat) : sbox.getD x 0 < 256 := by
  have hall : ∀ v ∈ sbox, v < 256 := by decide
  by_cases h : x < sbox.length
  · have : sbox.getD x 0 = sbox[x] := by
      simp [List.getD_eq_getElem?_getD, List.getElem?_eq_getElem h]
    rw [this]
    exact hall _ (List.getElem_mem h)
  · rw [getD_of_length_le _ _ (by omega)]
    decide

set_option maxRecDepth 8192 in
theorem notByte_eq_xor : ∀ s, s < 256 → notByte s = s ^^^ 0xFF := by
  decide

theorem keyExpansionStep_length (rk : List Nat) (i : Nat) :
    (keyExpansionStep rk i).length = rk.length := by
  simp [keyExpansionStep]

theorem keyExpansionStep_getD (rk : List Nat) (i : Nat)
    (hlen : i * 4 + 3 < rk.length) (j : Nat) :
    (keyExpansionStep rk i).getD j 0 =
      if j = i * 4 + 0 then rk.getD ((i - 4) * 4 + 0) 0 ^^^ (keyExpansionTemp rk i).1
      else if j = i * 4 + 1 then rk.getD ((i - 4) * 4 + 1) 0 ^^^ (keyExpansionTemp rk i).2.1
      else if j = i * 4 + 2 then rk.getD ((i - 4) * 4 + 2) 0 ^^^ (keyExpansionTemp rk i).2.2.1
      else if j = i * 4 + 3 then rk.getD ((i - 4) * 4 + 3) 0 ^^^ (keyExpansionTemp rk i).2.2.2
      else rk.getD j 0 := by
  have n1 : ¬ (i * 4 + 0 = (i - 4) * 4 + 1 ∧ i * 4 + 0 < rk.length) := by omega
  have n2 : ¬ (i * 4 + 0 = (i - 4) * 4 + 2 ∧ i * 4 + 0 < rk.length) := by omega
  have n3 : ¬ (i * 4 + 1 = (i - 4) * 4 + 2 ∧ i * 4 + 1 < rk.length) := by omega
  have n4 : ¬ (i * 4 + 0 = (i - 4) * 4 + 3 ∧ i * 4 + 0 < rk.length) := by omega
  have n5 : ¬ (i * 4 + 1 = (i - 4) * 4 + 3 ∧ i * 4 + 1 < rk.length) := by omega
  have n6 : ¬ (i * 4 + 2 = (i - 4) * 4 + 3 ∧ i * 4 + 2 < rk.length) := by omega
  simp only [keyExpansionStep, getD_set_eq, List.length_set, n1, n2, n3, n4, n5, n6, if_false]
  by_cases h0 : j = i * 4 + 0
  · rw [if_pos h0, if_neg (by omega), if_neg (by omega), if_neg (by omega), if_pos (by omega)]
  · rw [if_neg h0]
    by_cases h1 : j = i * 4 + 1
    · rw [if_pos h1, if_neg (by omega), if_neg (by omega), if_pos (by omega)]
    · rw [if_neg h1]
      by_cases h2 : j = i * 4 + 2
      · rw [if_pos h2, if_neg (by omega), if_pos (by omega)]
      · rw [if_neg h2]
        by_cases h3 : j = i * 4 + 3
        · rw [if_pos h3, if_pos (by omega)]
        · rw [if_neg h3, if_neg (by omega), if_neg (by omega), if_neg (by omega),
            if_neg (by omega)]

/-- The bytes `tempa` of the code are the word `t` of the recurrence. -/
theorem keyExpansionTemp_eq (rk : List Nat) (i : Nat) :
    (keyExpansionTemp rk i).1 = (scheduleT rk i).getD 0 0 ∧
    (keyExpansionTemp rk i).2.1 = (scheduleT rk i).getD 1 0 ∧
    (keyExpansionTemp rk i).2.2.1 = (scheduleT rk i).getD 2 0 ∧
    (keyExpansionTemp rk i).2.2.2 = (scheduleT rk i).getD 3 0 := by
  have e0 : (i - 1) * 4 + 0 = 4 * (i - 1) + 0 := by omega
  have e1 : (i - 1) * 4 + 1 = 4 * (i - 1) + 1 := by omega
  have e2 : (i - 1) * 4 + 2 = 4 * (i - 1) + 2 := by omega
  have e3 : (i - 1) * 4 + 3 = 4 * (i - 1) + 3 := by omega
  unfold keyExpansionTemp scheduleT wordByte
  simp only [e0, e1, e2, e3]
  by_cases h : i % 4 = 0
  · simp only [h, if_true, ne_eq, not_true_eq_false, if_false, List.getD_cons_zero,
      List.getD_cons_succ, true_and]
    exact ⟨notByte_eq_xor _ (sbox_lt _), trivial⟩
  · simp only [h, if_false, ne_eq, not_false_eq_true, if_true, List.getD_cons_zero,
      List.getD_cons_succ, and_self]

theorem scheduleT_congr (a b : List Nat) (i : Nat)
    (h : ∀ c, c < 4 → wordByte a (i - 1) c = wordByte b (i - 1) c) :
    scheduleT a i = scheduleT b i := by
  unfold scheduleT
  rw [h 0 (by omega), h 1 (by omega), h 2 (by omega), h 3 (by omega)]

theorem keyExpansionInit_length (buf key : List Nat) :
    (keyExpansionInit buf key).length = buf.length := by
  simp [keyExpansionInit, List.range, List.range.loop]

theorem keyExpansionInit_getD (buf key : List Nat) (hlen : 16 ≤ buf.length) (j : Nat)
    (hj : j < 16) : (keyExpansionInit buf key).getD j 0 = key.getD j 0 := by
  have f0 : 0 < buf.length := by omega
  have f1 : 1 < buf.length := by omega
  have f2 : 2 < buf.length := by omega
  have f3 : 3 < buf.length := by omega
  have f4 : 4 < buf.length := by omega
  have f5 : 5 < buf.length := by omega
  have f6 : 6 < buf.length := by omega
  have f7 : 7 < buf.length := by omega
  have f8 : 8 < buf.length := by omega
  have f9 : 9 < buf.length := by omega
  have f10 : 10 < buf.length := by omega
  have f11 : 11 < buf.length := by omega
  have f12 : 12 < buf.length := by omega
  have f13 : 13 < buf.length := by omega
  have f14 : 14 < buf.length := by omega
  have f15 : 15 < buf.length := by omega
  simp only [keyExpansionInit, List.range, List.range.loop, List.foldl, getD_set_eq,
    List.length_set]
  interval_cases j <;>
    simp [f0, f1, f2, f3, f4, f5, f6, f7, f8, f9, f10, f11, f12, f13, f14, f15]

/-- The schedule after the first `m` iterations of the second loop. -/
theorem keyExpansion_prefix (buf key : List Nat) (hlen : 176 ≤ buf.length) :
    ∀ m, m ≤ 40 →
      ((List.range' 4 m).foldl keyExpansionStep (keyExpansionInit buf key)).length = buf.length ∧
      (∀ j, j < 16 →
        ((List.range' 4 m).foldl keyExpansionStep (keyExpansionInit buf key)).getD j 0
          = key.getD j 0) ∧
      ∀ i, 4 ≤ i → i < 4 + m → ∀ c, c < 4 →
        wordByte ((List.range' 4 m).foldl keyExpansionStep (keyExpansionInit buf key)) i c =
          wordByte ((List.range' 4 m).foldl keyExpansionStep (keyExpansionInit buf key)) (i - 4) c
            ^^^ (scheduleT ((List.range' 4 m).foldl keyExpansionStep
              (keyExpansionInit buf key)) i).getD c 0 := by
  intro m
  induction m with
  | zero =>
    intro _
    have e : (List.range' 4 0).foldl keyExpansionStep (keyExpansionInit buf key)
        = keyExpansionInit buf key := rfl
    rw [e]
    refine ⟨keyExpansionInit_length buf key, ?_, ?_⟩
    · intro j hj
      exact keyExpansionInit_getD buf key (by omega) j hj
    · intro i h1 h2
      omega
  | succ m ih =>
    intro hm
    obtain ⟨l1, l2, l3⟩ := ih (by omega)
    rw [List.range'_1_concat, List.foldl_append]
    simp only [List.foldl_cons, List.foldl_nil]
    generalize (List.range' 4 m).foldl keyExpansionStep (keyExpansionInit buf key) = R at l1 l2 l3
    have hg := keyExpansionStep_getD R (4 + m) (by omega)
    have hold : ∀ j, j < (4 + m) * 4 → (keyExpansionStep R (4 + m)).getD j 0 = R.getD j 0 := by
      intro j hj
      rw [hg j, if_neg (by omega), if_neg (by omega), if_neg (by omega), if_neg (by omega)]
    have hw : ∀ i c, i < 4 + m → c < 4 →
        wordByte (keyExpansionStep R (4 + m)) i c = wordByte R i c := by
      intro i c hi hc
      exact hold _ (by omega)
    refine ⟨by rw [keyExpansionStep_length, l1], fun j hj => by rw [hold j (by omega), l2 j hj], ?_⟩
    intro i h1 h2 c hc
    rw [hw (i - 4) c (by omega) hc,
      scheduleT_congr (keyExpansionStep R (4 + m)) R i (fun c hc => hw (i - 1) c (by omega) hc)]
    by_cases hi : i < 4 + m
    · rw [hw i c hi hc]
      exact l3 i h1 hi c hc
    · have e : i = 4 + m := by omega
      subst e
      obtain ⟨t0, t1, t2, t3⟩ := keyExpansionTemp_eq R (4 + m)
      have ec : c = 0 ∨ c = 1 ∨ c = 2 ∨ c = 3 := by omega
      have ew : 4 * (4 + m - 4) = (4 + m - 4) * 4 := by omega
      unfold wordByte
      rcases ec with rfl | rfl | rfl | rfl
      · rw [hg, if_pos (by omega), t0, ew]
      · rw [hg, if_neg (by omega), if_pos (by omega), t1, ew]
      · rw [hg, if_neg (by omega), if_neg (by omega), if_pos (by omega), t2, ew]
      · rw [hg, if_neg (by omega), if_neg (by omega), if_neg (by omega), if_pos (by omega), t3, ew]

/-- C6: `keyExpansion` follows the mutated schedule recurrence.  For every
key and every output buffer of at least 176 bytes, schedule bytes 0..15 equal
the key, and for every word index `i` in 4..43 and byte `c` of the word,
`word[i][c] = word[i-4][c] XOR t[c]`, where `t = word[i-1]` when
`i mod 4 ≠ 0`, and when `i mod 4 = 0`, with `(b0, b1, b2, b3)` the bytes of
`word[i-1]` after the one-byte left rotation,
`t = [sbox(b0) XOR Rcon[i/4], sbox(b1) >> 4, sbox(b2) XOR 0xFF, rotr8(sbox(b3), 7)]`
(`scheduleT`).  The buffer keeps its length. -/
theorem keyExpansion_recurrence (pRoundKey pKey : List Nat) (hlen : 176 ≤ pRoundKey.length) :
    (keyExpansion pRoundKey pKey).length = pRoundKey.length ∧
    (∀ j, j < 16 → (keyExpansion pRoundKey pKey).getD j 0 = pKey.getD j 0) ∧
    ∀ i, 4 ≤ i → i < 44 → ∀ c, c < 4 →
      wordByte (keyExpansion pRoundKey pKey) i c =
        wordByte (keyExpansion pRoundKey pKey) (i - 4) c
          ^^^ (scheduleT (keyExpansion pRoundKey pKey) i).getD c 0 := by
  obtain ⟨l1, l2, l3⟩ := keyExpansion_prefix pRoundKey pKey hlen 40 (le_refl _)
  exact ⟨l1, l2, fun i h1 h2 c hc => l3 i h1 (by omega) c hc⟩

set_option maxRecDepth 8192 in
theorem keyExpansion_recurrence_witness :
    176 ≤ sampleSchedule.length ∧
    ((keyExpansion sampleSchedule sampleBlock).length = sampleSchedule.length ∧
    (∀ j, j < 16 → (keyExpansion sampleSchedule sampleBlock).getD j 0 = sampleBlock.getD j 0) ∧
    ∀ i, 4 ≤ i → i < 44 → ∀ c, c < 4 →
      wordByte (keyExpansion sampleSchedule sampleBlock) i c =
        wordByte (keyExpansion sampleSchedule sampleBlock) (i - 4) c
          ^^^ (scheduleT (keyExpansion sampleSchedule sampleBlock) i).getD c 0) :=
  ⟨by decide, keyExpansion_recurrence sampleSchedule sampleBlock (by decide)⟩


/-! ## The block cipher against the reference -/

theorem list16_cases (st : List Nat) (h : st.length = 16) :
    ∃ a0 a1 a2 a3 a4 a5 a6 a7 a8 a9 a10 a11 a12 a13 a14 a15 : Nat,
      st = [a0, a1, a2, a3, a4, a5, a6, a7, a8, a9, a10, a11, a12, a13, a14, a15] := by
  match st, h with
  | [a0, a1, a2, a3, a4, a5, a6, a7, a8, a9, a10, a11, a12, a13, a14, a15], _ =>
    exact ⟨a0, a1, a2, a3, a4, a5, a6, a7, a8, a9, a10, a11, a12, a13, a14, a15, rfl⟩

theorem mixColumns_list (a0 a1 a2 a3 a4 a5 a6 a7 a8 a9 a10 a11 a12 a13 a14 a15 : Nat) :
    mixColumns [a0, a1, a2, a3, a4, a5, a6, a7, a8, a9, a10, a11, a12, a13, a14, a15] =
      [a0 ^^^ ((a1 ^^^ a0 ^^^ a2 ^^^ a3) ^^^ xtime (a1 ^^^ a0)),
      a1 ^^^ ((a1 ^^^ a0 ^^^ a2 ^^^ a3) ^^^ xtime (a2 ^^^ a1)),
      a2 ^^^ ((a1 ^^^ a0 ^^^ a2 ^^^ a3) ^^^ xtime (a2 ^^^ a3)),
      a3 ^^^ ((a1 ^^^ a0 ^^^ a2 ^^^ a3) ^^^ xtime (a3 ^^^ a0)),
      a4 ^^^ ((a5 ^^^ a4 ^^^ a6 ^^^ a7) ^^^ xtime (a5 ^^^ a4)),
      a5 ^^^ ((a5 ^^^ a4 ^^^ a6 ^^^ a7) ^^^ xtime (a6 ^^^ a5)),
      a6 ^^^ ((a5 ^^^ a4 ^^^ a6 ^^^ a7) ^^^ xtime (a6 ^^^ a7)),
      a7 ^^^ ((a5 ^^^ a4 ^^^ a6 ^^^ a7) ^^^ xtime (a7 ^^^ a4)),
      a8 ^^^ ((a9 ^^^ a8 ^^^ a10 ^^^ a11) ^^^ xtime (a9 ^^^ a8)),
      a9 ^^^ ((a9 ^^^ a8 ^^^ a10 ^^^ a11) ^^^ xtime (a10 ^^^ a9)),
      a10 ^^^ ((a9 ^^^ a8 ^^^ a10 ^^^ a11) ^^^ xtime (a10 ^^^ a11)),
      a11 ^^^ ((a9 ^^^ a8 ^^^ a10 ^^^ a11) ^^^ xtime (a11 ^^^ a8)),
      a12 ^^^ ((a13 ^^^ a12 ^^^ a14 ^^^ a15) ^^^ xtime (a13 ^^^ a12)),
      a13 ^^^ ((a13 ^^^ a12 ^^^ a14 ^^^ a15) ^^^ xtime (a14 ^^^ a13)),
      a14 ^^^ ((a13 ^^^ a12 ^^^ a14 ^^^ a15) ^^^ xtime (a14 ^^^ a15)),
      a15 ^^^ ((a13 ^^^ a12 ^^^ a14 ^^^ a15) ^^^ xtime (a15 ^^^ a12))] := by
  simp only [mixColumns, mixColumn, List.range, List.range.loop, List.foldl, Nat.mul_zero,
    Nat.mul_one, Nat.zero_add, Nat.add_zero, Nat.reduceMul, Nat.reduceAdd, List.set_cons_zero,
    List.set_cons_succ, List.getD_cons_zero, List.getD_cons_succ]

theorem refMixColumns_list (a0 a1 a2 a3 a4 a5 a6 a7 a8 a9 a10 a11 a12 a13 a14 a15 : Nat) :
    refMixColumns [a0, a1, a2, a3, a4, a5, a6, a7, a8, a9, a10, a11, a12, a13, a14, a15] =
      [0 ^^^ gfMul 2 a0 ^^^ gfMul 3 a1 ^^^ gfMul 1 a2 ^^^ gfMul 1 a3,
      0 ^^^ gfMul 1 a0 ^^^ gfMul 2 a1 ^^^ gfMul 3 a2 ^^^ gfMul 1 a3,
      0 ^^^ gfMul 1 a0 ^^^ gfMul 1 a1 ^^^ gfMul 2 a2 ^^^ gfMul 3 a3,
      0 ^^^ gfMul 3 a0 ^^^ gfMul 1 a1 ^^^ gfMul 1 a2 ^^^ gfMul 2 a3,
      0 ^^^ gfMul 2 a4 ^^^ gfMul 3 a5 ^^^ gfMul 1 a6 ^^^ gfMul 1 a7,
      0 ^^^ gfMul 1 a4 ^^^ gfMul 2 a5 ^^^ gfMul 3 a6 ^^^ gfMul 1 a7,
      0 ^^^ gfMul 1 a4 ^^^ gfMul 1 a5 ^^^ gfMul 2 a6 ^^^ gfMul 3 a7,
      0 ^^^ gfMul 3 a4 ^^^ gfMul 1 a5 ^^^ gfMul 1 a6 ^^^ gfMul 2 a7,
      0 ^^^ gfMul 2 a8 ^^^ gfMul 3 a9 ^^^ gfMul 1 a10 ^^^ gfMul 1 a11,
      0 ^^^ gfMul 1 a8 ^^^ gfMul 2 a9 ^^^ gfMul 3 a10 ^^^ gfMul 1 a11,
      0 ^^^ gfMul 1 a8 ^^^ gfMul 1 a9 ^^^ gfMul 2 a10 ^^^ gfMul 3 a11,
      0 ^^^ gfMul 3 a8 ^^^ gfMul 1 a9 ^^^ gfMul 1 a10 ^^^ gfMul 2 a11,
      0 ^^^ gfMul 2 a12 ^^^ gfMul 3 a13 ^^^ gfMul 1 a14 ^^^ gfMul 1 a15,
      0 ^^^ gfMul 1 a12 ^^^ gfMul 2 a13 ^^^ gfMul 3 a14 ^^^ gfMul 1 a15,
      0 ^^^ gfMul 1 a12 ^^^ gfMul 1 a13 ^^^ gfMul 2 a14 ^^^ gfMul 3 a15,
      0 ^^^ gfMul 3 a12 ^^^ gfMul 1 a13 ^^^ gfMul 1 a14 ^^^ gfMul 2 a15] := rfl

theorem shiftRows_list (a0 a1 a2 a3 a4 a5 a6 a7 a8 a9 a10 a11 a12 a13 a14 a15 : Nat) :
    shiftRows [a0, a1, a2, a3, a4, a5, a6, a7, a8, a9, a10, a11, a12, a13, a14, a15] = [a0, a5, a10, a15, a4, a9, a14, a3, a8, a13, a2, a7, a12, a1, a6, a11] := rfl

theorem refShiftRows_list (a0 a1 a2 a3 a4 a5 a6 a7 a8 a9 a10 a11 a12 a13 a14 a15 : Nat) :
    refShiftRows [a0, a1, a2, a3, a4, a5, a6, a7, a8, a9, a10, a11, a12, a13, a14, a15] = [a0, a5, a10, a15, a4, a9, a14, a3, a8, a13, a2, a7, a12, a1, a6, a11] := rfl

theorem shl_xor (a b k : Nat) : (a ^^^ b) <<< k = (a <<< k) ^^^ (b <<< k) := by
  apply Nat.eq_of_testBit_eq
  intro i
  simp only [Nat.testBit_shiftLeft, Nat.testBit_xor]
  cases decide (i ≥ k) <;> simp

theorem xor_mod_256 (a b : Nat) : (a ^^^ b) % 256 = (a % 256) ^^^ (b % 256) := by
  apply Nat.eq_of_testBit_eq
  intro i
  have p : (256 : Nat) = 2 ^ 8 := by norm_num
  rw [p]
  simp only [Nat.testBit_mod_two_pow, Nat.testBit_xor]
  cases decide (i < 8) <;> simp

theorem carry_xor (a b : Nat) :
    ((a ^^^ b) >>> 7) &&& 1 = (((a >>> 7) &&& 1) ^^^ ((b >>> 7) &&& 1)) := by
  apply Nat.eq_of_testBit_eq
  intro i
  simp only [Nat.testBit_and, Nat.testBit_xor, Nat.testBit_shiftRight]
  cases Nat.testBit 1 i <;> simp

theorem and_one_cases (x : Nat) : x &&& 1 = 0 ∨ x &&& 1 = 1 := by
  rw [Nat.and_one_is_mod]
  omega

theorem nat_xor_left_comm (a b c : Nat) : a ^^^ (b ^^^ c) = b ^^^ (a ^^^ c) := by
  rw [← Nat.xor_assoc, Nat.xor_comm a b, Nat.xor_assoc]

/-- The function `xtime` is linear over GF(2). -/
theorem xtime_xor (a b : Nat) : xtime (a ^^^ b) = xtime a ^^^ xtime b := by
  unfold xtime
  rw [← xor_mod_256, carry_xor, shl_xor]
  rcases and_one_cases (a >>> 7) with h1 | h1 <;> rcases and_one_cases (b >>> 7) with h2 | h2 <;>
    rw [h1, h2] <;> simp [Nat.xor_assoc, Nat.xor_comm, nat_xor_left_comm, Nat.xor_cancel_left]

set_option maxRecDepth 100000 in
/-- The function `xtime` is the multiplication by 2 (the polynomial `x`) in GF(2^8). -/
theorem gfMul_two : ∀ a, a < 256 → gfMul 2 a = xtime a := by decide

set_option maxRecDepth 100000 in
theorem gfMul_three : ∀ a, a < 256 → gfMul 3 a = xtime a ^^^ a := by decide

set_option maxRecDepth 100000 in
theorem gfMul_one : ∀ a, a < 256 → gfMul 1 a = a := by decide

/-- One column of `mixColumns` is the product by the FIPS-197 matrix. -/
theorem mixColumn_identity (a b c d : Nat) (ha : a < 256) (hb : b < 256) (hc : c < 256)
    (hd : d < 256) :
    a ^^^ ((b ^^^ a ^^^ c ^^^ d) ^^^ xtime (b ^^^ a))
      = 0 ^^^ gfMul 2 a ^^^ gfMul 3 b ^^^ gfMul 1 c ^^^ gfMul 1 d ∧
    b ^^^ ((b ^^^ a ^^^ c ^^^ d) ^^^ xtime (c ^^^ b))
      = 0 ^^^ gfMul 1 a ^^^ gfMul 2 b ^^^ gfMul 3 c ^^^ gfMul 1 d ∧
    c ^^^ ((b ^^^ a ^^^ c ^^^ d) ^^^ xtime (c ^^^ d))
      = 0 ^^^ gfMul 1 a ^^^ gfMul 1 b ^^^ gfMul 2 c ^^^ gfMul 3 d ∧
    d ^^^ ((b ^^^ a ^^^ c ^^^ d) ^^^ xtime (d ^^^ a))
      = 0 ^^^ gfMul 3 a ^^^ gfMul 1 b ^^^ gfMul 1 c ^^^ gfMul 2 d := by
  simp only [gfMul_one _ ha, gfMul_one _ hb, gfMul_one _ hc, gfMul_one _ hd,
    gfMul_two _ ha, gfMul_two _ hb, gfMul_two _ hc, gfMul_two _ hd,
    gfMul_three _ ha, gfMul_three _ hb, gfMul_three _ hc, gfMul_three _ hd, xtime_xor]
  refine ⟨?_, ?_, ?_, ?_⟩ <;>
    simp [Nat.xor_assoc, Nat.xor_comm, nat_xor_left_comm, Nat.xor_cancel_left]

theorem mixColumns_eq_ref (st : List Nat) (h : st.length = 16)
    (hb : ∀ j, st.getD j 0 < 256) : mixColumns st = refMixColumns st := by
  obtain ⟨a0, a1, a2, a3, a4, a5, a6, a7, a8, a9, a10, a11, a12, a13, a14, a15, rfl⟩ := list16_cases st h
  have h0 : a0 < 256 := by simpa using hb 0
  have h1 : a1 < 256 := by simpa using hb 1
  have h2 : a2 < 256 := by simpa using hb 2
  have h3 : a3 < 256 := by simpa using hb 3
  have h4 : a4 < 256 := by simpa using hb 4
  have h5 : a5 < 256 := by simpa using hb 5
  have h6 : a6 < 256 := by simpa using hb 6
  have h7 : a7 < 256 := by simpa using hb 7
  have h8 : a8 < 256 := by simpa using hb 8
  have h9 : a9 < 256 := by simpa using hb 9
  have h10 : a10 < 256 := by simpa using hb 10
  have h11 : a11 < 256 := by simpa using hb 11
  have h12 : a12 < 256 := by simpa using hb 12
  have h13 : a13 < 256 := by simpa using hb 13
  have h14 : a14 < 256 := by simpa using hb 14
  have h15 : a15 < 256 := by simpa using hb 15
  obtain ⟨c00, c01, c02, c03⟩ := mixColumn_identity a0 a1 a2 a3 h0 h1 h2 h3
  obtain ⟨c10, c11, c12, c13⟩ := mixColumn_identity a4 a5 a6 a7 h4 h5 h6 h7
  obtain ⟨c20, c21, c22, c23⟩ := mixColumn_identity a8 a9 a10 a11 h8 h9 h10 h11
  obtain ⟨c30, c31, c32, c33⟩ := mixColumn_identity a12 a13 a14 a15 h12 h13 h14 h15
  rw [mixColumns_list, refMixColumns_list, c00, c01, c02, c03, c10, c11, c12, c13, c20, c21, c22, c23, c30, c31, c32, c33]

theorem shiftRows_eq_ref (st : List Nat) (h : st.length = 16) :
    shiftRows st = refShiftRows st := by
  obtain ⟨a0, a1, a2, a3, a4, a5, a6, a7, a8, a9, a10, a11, a12, a13, a14, a15, rfl⟩ := list16_cases st h
  rw [shiftRows_list, refShiftRows_list]

theorem subBytes_eq_ref (st : List Nat) (h : st.length = 16) :
    subBytes st = refSubBytes st := by
  obtain ⟨a0, a1, a2, a3, a4, a5, a6, a7, a8, a9, a10, a11, a12, a13, a14, a15, rfl⟩ := list16_cases st h
  simp only [subBytes, refSubBytes, List.range, List.range.loop, List.foldl,
    List.set_cons_zero, List.set_cons_succ, List.getD_cons_zero, List.getD_cons_succ, List.map]

theorem addRoundKey_eq_ref (st : List Nat) (r : Nat) (K : List Nat) (h : st.length = 16) :
    addRoundKey st r K = refAddRoundKey st r K := by
  obtain ⟨a0, a1, a2, a3, a4, a5, a6, a7, a8, a9, a10, a11, a12, a13, a14, a15, rfl⟩ := list16_cases st h
  simp only [addRoundKey, refAddRoundKey, List.range, List.range.loop, List.foldl,
    List.set_cons_zero, List.set_cons_succ, List.getD_cons_zero, List.getD_cons_succ,
    List.map, Nat.mul_comm r 16]

theorem refAddRoundKey_length (st : List Nat) (r : Nat) (K : List Nat) :
    (refAddRoundKey st r K).length = 16 := by
  simp [refAddRoundKey]

theorem refShiftRows_length (st : List Nat) : (refShiftRows st).length = 16 := by
  simp [refShiftRows]

theorem refSubBytes_length (st : List Nat) : (refSubBytes st).length = st.length := by
  simp [refSubBytes]

theorem refSubBytes_lt (st : List Nat) (j : Nat) : (refSubBytes st).getD j 0 < 256 := by
  by_cases h : j < st.length
  · have : (refSubBytes st).getD j 0 = sbox.getD st[j] 0 := by
      simp [refSubBytes, List.getD_eq_getElem?_getD, List.getElem?_eq_getElem h]
    rw [this]
    exact sbox_lt _
  · rw [getD_of_length_le _ _ (by rw [refSubBytes_length]; omega)]
    decide

theorem refShiftRows_lt (st : List Nat) (h : ∀ j, st.getD j 0 < 256) (j : Nat) :
    (refShiftRows st).getD j 0 < 256 := by
  by_cases hj : j < 16
  · unfold refShiftRows
    rw [getD_map_range _ _ _ hj]
    exact h _
  · rw [getD_of_length_le _ _ (by rw [refShiftRows_length]; omega)]
    decide

/-- One full round of `cipher` is one round of the reference. -/
theorem round_eq_ref (st K : List Nat) (r : Nat) (h : st.length = 16) :
    addRoundKey (mixColumns (shiftRows (subBytes st))) r K
      = refAddRoundKey (refMixColumns (refShiftRows (refSubBytes st))) r K := by
  rw [subBytes_eq_ref st h,
    shiftRows_eq_ref _ (by rw [refSubBytes_length, h]),
    mixColumns_eq_ref _ (refShiftRows_length _) (refShiftRows_lt _ (refSubBytes_lt st)),
    addRoundKey_eq_ref _ _ _ (by simp [refMixColumns])]

theorem rounds_eq_ref (st K : List Nat) (h : st.length = 16) :
    ∀ m, (List.range' 1 m).foldl
        (fun st round => addRoundKey (mixColumns (shiftRows (subBytes st))) round K)
        (addRoundKey st 0 K) = refRounds K m st ∧ (refRounds K m st).length = 16 := by
  intro m
  induction m with
  | zero =>
    refine ⟨?_, refAddRoundKey_length _ _ _⟩
    simp only [List.range', List.foldl, refRounds]
    exact addRoundKey_eq_ref st 0 K h
  | succ m ih =>
    obtain ⟨e, l⟩ := ih
    refine ⟨?_, refAddRoundKey_length _ _ _⟩
    rw [List.range'_1_concat, List.foldl_append, e]
    simp only [List.foldl_cons, List.foldl_nil, refRounds]
    rw [round_eq_ref _ K _ l, Nat.add_comm 1 m]

/-- C7: `cipher` is the reference AES-128 block encryption given the round
keys.  For every 16-byte state and every schedule the result of `cipher`
equals AddRoundKey(0), then for rounds 1..9 SubBytes, ShiftRows, MixColumns,
AddRoundKey(r), then SubBytes, ShiftRows, AddRoundKey(10) (`refCipher`), where
ShiftRows maps `out[4c+r] = in[4((c+r) mod 4)+r]` and MixColumns multiplies
every column by the FIPS-197 matrix over GF(2^8) modulo `x^8+x^4+x^3+x+1`;
and `xtime` is the multiplication by 2 in that field. -/
theorem cipher_eq_refCipher (pState pRoundKey : List Nat) (h : pState.length = 16) :
    cipher pState pRoundKey = refCipher pState pRoundKey ∧
    ∀ a, a < 256 → xtime a = gfMul 2 a := by
  obtain ⟨e, l⟩ := rounds_eq_ref pState pRoundKey h 9
  refine ⟨?_, fun a ha => (gfMul_two a ha).symm⟩
  unfold cipher refCipher
  simp only
  rw [e, subBytes_eq_ref _ l, shiftRows_eq_ref _ (by rw [refSubBytes_length, l]),
    addRoundKey_eq_ref _ _ _ (refShiftRows_length _)]

theorem cipher_eq_refCipher_witness :
    sampleBlock.length = 16 ∧
      (cipher sampleBlock sampleSchedule = refCipher sampleBlock sampleSchedule ∧
      ∀ a, a < 256 → xtime a = gfMul 2 a) :=
  ⟨by decide, cipher_eq_refCipher sampleBlock sampleSchedule (by decide)⟩

/-! ## validateKey -/

theorem foldl_set_length (f : Nat → Nat) : ∀ n (kb : List Nat),
    ((List.range n).foldl (fun kb i => kb.set i (f i)) kb).length = kb.length := by
  intro n
  induction n with
  | zero => intro kb; rfl
  | succ n ih =>
    intro kb
    rw [List.range_succ, List.foldl_append]
    simp [ih]

theorem foldl_set_getD (f : Nat → Nat) : ∀ n (kb : List Nat) (j : Nat),
    ((List.range n).foldl (fun kb i => kb.set i (f i)) kb).getD j 0 =
      if j < n ∧ j < kb.length then f j else kb.getD j 0 := by
  intro n
  induction n with
  | zero =>
    intro kb j
    rw [if_neg (by omega)]
    rfl
  | succ n ih =>
    intro kb j
    rw [List.range_succ, List.foldl_append]
    simp only [List.foldl_cons, List.foldl_nil]
    rw [getD_set_eq, foldl_set_length, ih kb j]
    by_cases h : n = j
    · subst h
      by_cases h2 : n < kb.length
      · rw [if_pos ⟨rfl, h2⟩, if_pos ⟨by omega, h2⟩]
      · rw [if_neg (fun h => h2 h.2), if_neg (by omega), if_neg (fun h => h2 h.2)]
    · rw [if_neg (fun hh => h hh.1)]
      by_cases h3 : j < n ∧ j < kb.length
      · rw [if_pos h3, if_pos ⟨by omega, h3.2⟩]
      · rw [if_neg h3, if_neg (by omega)]

/-- The value of `validateKey` when the 32-bit length is between 1 and 128. -/
theorem validateKey_ok (key tarKey : List Nat) (h1 : 1 ≤ key.length % 2 ^ 32)
    (h2 : key.length % 2 ^ 32 ≤ 128) :
    ∃ b, validateKey key tarKey = .ok b ∧
      (b = true ↔ ∀ i, i < 128 → tarKey.getD i 0 =
        (i / (key.length % 2 ^ 32) + key.getD (i % (key.length % 2 ^ 32)) 0) % 256) := by
  have hne : key.isEmpty = false := by
    cases key with
    | nil => simp at h1
    | cons a t => rfl
  have hgt : ¬ key.length % 2 ^ 32 > 128 := by omega
  have h0 : ¬ key.length % 2 ^ 32 = 0 := by omega
  unfold validateKey
  simp only [hne, hgt, h0, if_false, Bool.false_eq_true]
  refine ⟨_, rfl, ?_⟩
  simp only [List.all_eq_true, List.mem_range, beq_iff_eq]
  constructor
  · intro h i hi
    have := h i hi
    rw [foldl_set_getD, if_pos ⟨hi, by simp [foldl_set_length]; exact hi⟩] at this
    exact this.symm
  · intro h i hi
    rw [foldl_set_getD, if_pos ⟨hi, by simp [foldl_set_length]; exact hi⟩]
    exact (h i hi).symm

theorem mod_two_pow_32_of_le (n : Nat) (h : n ≤ 128) : n % 2 ^ 32 = n := by
  apply Nat.mod_eq_of_lt
  have : (128 : Nat) < 2 ^ 32 := by norm_num
  omega

theorem validateKey_small (key tarKey : List Nat) (h1 : 1 ≤ key.length)
    (h2 : key.length ≤ 128) :
    ∃ b, validateKey key tarKey = .ok b ∧
      (b = true ↔ ∀ i, i < 128 → tarKey.getD i 0 = tiling key i) := by
  have e := mod_two_pow_32_of_le key.length h2
  have := validateKey_ok key tarKey (by rw [e]; exact h1) (by rw [e]; exact h2)
  rw [e] at this
  exact this

/-- C8: `validateKey` decides the tiling exactly.  For every candidate of
length `L` with `1 ≤ L ≤ 128` and every 128-byte target, `validateKey` returns
a boolean, and it returns true if and only if `target[i] = (i / L +
candidate[i mod L]) mod 256` for all `i` in 0..127; consequently changing any
single byte of a matching target makes it return false. -/
theorem validateKey_decides_tiling (key tarKey : List Nat) (h1 : 1 ≤ key.length)
    (h2 : key.length ≤ 128) (ht : tarKey.length = 128) :
    (∃ b, validateKey key tarKey = .ok b) ∧
    (validateKey key tarKey = .ok true ↔
      ∀ i, i < 128 →
        tarKey.getD i 0 = (i / key.length + key.getD (i % key.length) 0) % 256) ∧
    (validateKey key tarKey = .ok true → ∀ j, j < 128 → ∀ v, v ≠ tarKey.getD j 0 →
      validateKey key (tarKey.set j v) = .ok false) := by
  obtain ⟨b, hv, hb⟩ := validateKey_small key tarKey h1 h2
  have hiff : validateKey key tarKey = .ok true ↔
      ∀ i, i < 128 →
        tarKey.getD i 0 = (i / key.length + key.getD (i % key.length) 0) % 256 := by
    rw [hv]
    constructor
    · intro h
      injection h with h
      exact hb.mp h
    · intro h
      rw [hb.mpr h]
  refine ⟨⟨_, hv⟩, hiff, ?_⟩
  intro htrue j hj v hne
  obtain ⟨b2, hv2, hb2⟩ := validateKey_small key (tarKey.set j v) h1 h2
  rw [hv2]
  cases b2 with
  | false => rfl
  | true =>
    exfalso
    have a := hb2.mp rfl j hj
    have c := hiff.mp htrue j hj
    rw [getD_set_eq, if_pos ⟨rfl, by omega⟩] at a
    exact hne (by rw [a, c]; rfl)

theorem validateKey_decides_tiling_witness :
    (1 ≤ [7, 8, 9, 10].length ∧ [7, 8, 9, 10].length ≤ 128 ∧
      ((List.range 128).map (tiling [7, 8, 9, 10])).length = 128) ∧
    ((∃ b, validateKey [7, 8, 9, 10] ((List.range 128).map (tiling [7, 8, 9, 10])) = .ok b) ∧
    (validateKey [7, 8, 9, 10] ((List.range 128).map (tiling [7, 8, 9, 10])) = .ok true ↔
      ∀ i, i < 128 →
        ((List.range 128).map (tiling [7, 8, 9, 10])).getD i 0
          = (i / [7, 8, 9, 10].length + [7, 8, 9, 10].getD (i % [7, 8, 9, 10].length) 0) % 256) ∧
    (validateKey [7, 8, 9, 10] ((List.range 128).map (tiling [7, 8, 9, 10])) = .ok true →
      ∀ j, j < 128 → ∀ v, v ≠ ((List.range 128).map (tiling [7, 8, 9, 10])).getD j 0 →
        validateKey [7, 8, 9, 10] (((List.range 128).map (tiling [7, 8, 9, 10])).set j v)
          = .ok false)) :=
  ⟨⟨by decide, by decide, by simp⟩,
    validateKey_decides_tiling [7, 8, 9, 10] ((List.range 128).map (tiling [7, 8, 9, 10]))
      (by decide) (by decide) (by simp)⟩

/-- Below `2^32` elements the cast of the length is exact, and `validateKey`
throws exactly on the candidates longer than 128 bytes. -/
theorem validateKey_error_iff_of_lt (key tarKey : List Nat) (hlt : key.length < 2 ^ 32) :
    (validateKey key tarKey = .error .keyTooLong ↔ 128 < key.length) ∧
    (1 ≤ key.length → key.length ≤ 128 → ∃ b, validateKey key tarKey = .ok b) := by
  have e : key.length % 2 ^ 32 = key.length := Nat.mod_eq_of_lt hlt
  constructor
  · constructor
    · intro h
      by_contra hle
      have hle : key.length ≤ 128 := by omega
      by_cases h0 : key.length = 0
      · have : key = [] := List.length_eq_zero.mp h0
        rw [this] at h
        simp [validateKey] at h
      · obtain ⟨b, hv, _⟩ := validateKey_small key tarKey (by omega) hle
        rw [hv] at h
        cases h
    · intro h
      have hne : key.isEmpty = false := by
        cases key with
        | nil => simp at h
        | cons a t => rfl
      unfold validateKey
      simp only [hne, e, Bool.false_eq_true, if_false]
      rw [if_pos h]
  · intro h1 h2
    obtain ⟨b, hv, _⟩ := validateKey_small key tarKey h1 h2
    exact ⟨b, hv⟩

/-- A candidate whose 32-bit length is 1 and whose first byte is 0 validates
against the target `0, 1, ..., 127`. -/
theorem validateKey_length_one (key : List Nat) (hl : key.length % 2 ^ 32 = 1)
    (h0 : key.getD 0 0 = 0) : validateKey key (List.range 128) = .ok true := by
  obtain ⟨b, hv, hb⟩ := validateKey_ok key (List.range 128) (by rw [hl]) (by rw [hl]; decide)
  have hbt : b = true := by
    rw [hb, hl]
    intro i hi
    rw [Nat.mod_one, h0, Nat.div_one, Nat.add_zero, List.getD_eq_getElem?_getD,
      List.getElem?_range hi]
    simp only [Option.getD_some]
    omega
  rw [hv, hbt]

/-- C9, as stated, fails: a candidate of `2^32 + 1` bytes is longer than 128
bytes, but its length cast to `uint32_t` is 1, so `validateKey` signals no
error; it returns true on the target `0, 1, ..., 127`.  On the empty candidate
it returns false. -/
theorem validateKey_length_cast :
    128 < (List.replicate (2 ^ 32 + 1) 0).length ∧
    validateKey (List.replicate (2 ^ 32 + 1) 0) (List.range 128) = .ok true ∧
    validateKey [] (List.range 128) = .ok false := by
  refine ⟨?_, validateKey_length_one _ ?_ ?_, ?_⟩
  · rw [List.length_replicate]
    norm_num
  · rw [List.length_replicate]
    norm_num
  · rw [List.getD_eq_getElem?_getD, List.getElem?_replicate]
    simp
  · simp [validateKey]

/-- C9, amended: for every target and every candidate of fewer than `2 ^ 32`
bytes, `validateKey` returns false without error on the empty candidate,
signals an error if and only if the candidate is longer than 128 bytes (the
error is then "Key is too long"), and returns a boolean without error for
every length 1..128. -/
theorem validateKey_error_behaviour (key tarKey : List Nat) (hlt : key.length < 2 ^ 32) :
    validateKey [] tarKey = .ok false ∧
    ((∃ e, validateKey key tarKey = .error e) ↔ 128 < key.length) ∧
    (validateKey key tarKey = .error .keyTooLong ↔ 128 < key.length) ∧
    (1 ≤ key.length → key.length ≤ 128 → ∃ b, validateKey key tarKey = .ok b) := by
  obtain ⟨h1, h2⟩ := validateKey_error_iff_of_lt key tarKey hlt
  refine ⟨by simp [validateKey], ⟨?_, fun h => ⟨_, h1.2 h⟩⟩, h1, h2⟩
  rintro ⟨e, he⟩
  by_contra hle
  by_cases h0 : key.length = 0
  · have : key = [] := List.length_eq_zero.mp h0
    rw [this] at he
    simp [validateKey] at he
  · obtain ⟨b, hb⟩ := h2 (by omega) (by omega)
    rw [hb] at he
    cases he

theorem validateKey_error_behaviour_witness :
    (List.replicate 129 7).length < 2 ^ 32 ∧
    (validateKey [] (List.range 128) = .ok false ∧
    ((∃ e, validateKey (List.replicate 129 7) (List.range 128) = .error e)
      ↔ 128 < (List.replicate 129 7).length) ∧
    (validateKey (List.replicate 129 7) (List.range 128) = .error .keyTooLong
      ↔ 128 < (List.replicate 129 7).length) ∧
    (1 ≤ (List.replicate 129 7).length → (List.replicate 129 7).length ≤ 128 →
      ∃ b, validateKey (List.replicate 129 7) (List.range 128) = .ok b)) :=
  ⟨by rw [List.length_replicate]; norm_num,
    validateKey_error_behaviour (List.replicate 129 7) (List.range 128)
      (by rw [List.length_replicate]; norm_num)⟩

/-! ## findKey -/

theorem candidateKey_eq_take (encKey : List Nat) (i : Nat) (hi : i ≤ encKey.length) :
    candidateKey encKey i = encKey.take i := by
  unfold candidateKey
  apply list_ext_getD
  · rw [foldl_set_length, List.length_replicate, List.length_take]
    omega
  · intro j hj
    rw [foldl_set_length, List.length_replicate] at hj
    rw [foldl_set_getD, if_pos ⟨hj, by rw [List.length_replicate]; exact hj⟩,
      getD_take_lt _ _ _ hj]

theorem findKeyLoop_spec (encKey : List Nat) (hlen : encKey.length = 128) :
    ∀ n i, 1 ≤ i → i + n ≤ 128 →
      ∃ r, findKeyLoop encKey n i = .ok r ∧
        ((r = [] ∧ ∀ L, i ≤ L → L < i + n → validateKey (encKey.take L) encKey = .ok false) ∨
         (∃ L, i ≤ L ∧ L < i + n ∧ r = encKey.take L ∧
            validateKey (encKey.take L) encKey = .ok true ∧
            ∀ M, i ≤ M → M < L → validateKey (encKey.take M) encKey = .ok false)) := by
  intro n
  induction n with
  | zero =>
    intro i _ _
    exact ⟨[], rfl, Or.inl ⟨rfl, fun L h1 h2 => by omega⟩⟩
  | succ n ih =>
    intro i h1 h2
    have hc : candidateKey encKey i = encKey.take i :=
      candidateKey_eq_take encKey i (by omega)
    have htl : (encKey.take i).length = i := by
      rw [List.length_take]
      omega
    obtain ⟨b, hv, _⟩ := validateKey_small (encKey.take i) encKey (by omega) (by omega)
    cases b with
    | true =>
      refine ⟨encKey.take i, ?_, Or.inr ⟨i, le_refl _, by omega, rfl, hv, ?_⟩⟩
      · simp only [findKeyLoop, hc, hv]
      · intro M m1 m2
        omega
    | false =>
      obtain ⟨r, hr, hcase⟩ := ih (i + 1) (by omega) (by omega)
      refine ⟨r, ?_, ?_⟩
      · simp only [findKeyLoop, hc, hv]
        exact hr
      · rcases hcase with ⟨e, hall⟩ | ⟨L, l1, l2, l3, l4, l5⟩
        · refine Or.inl ⟨e, fun L a1 a2 => ?_⟩
          by_cases hLi : L = i
          · rw [hLi]; exact hv
          · exact hall L (by omega) (by omega)
        · refine Or.inr ⟨L, by omega, by omega, l3, l4, fun M m1 m2 => ?_⟩
          by_cases hMi : M = i
          · rw [hMi]; exact hv
          · exact l5 M (by omega) m2

/-- C10: `findKey` is a first-match linear search.  For every 128-byte
target, `findKey` signals no error and returns a sequence `r` that is empty if
and only if no prefix of the target of a length in 4..127 validates;
otherwise `r` is the prefix of the target of length `L = |r|`, with
`4 ≤ L ≤ 127`, it validates, and no prefix of a length in `4..L-1` does: `L` is
the least validating length. -/
theorem findKey_first_match (encKey : List Nat) (hlen : encKey.length = 128) :
    ∃ r, findKey encKey = .ok r ∧
      (r = [] ↔
        ∀ L, 4 ≤ L → L < 128 → validateKey (encKey.take L) encKey ≠ .ok true) ∧
      (r ≠ [] →
        4 ≤ r.length ∧ r.length < 128 ∧ r = encKey.take r.length ∧
        validateKey r encKey = .ok true ∧
        ∀ L, 4 ≤ L → L < r.length → validateKey (encKey.take L) encKey = .ok false) := by
  obtain ⟨r, hr, hcase⟩ := findKeyLoop_spec encKey hlen (128 - 4) 4 (by omega) (by omega)
  refine ⟨r, hr, ?_, ?_⟩
  · rcases hcase with ⟨e, hall⟩ | ⟨L, l1, l2, l3, l4, _⟩
    · refine ⟨fun _ L a1 a2 h => ?_, fun _ => e⟩
      rw [hall L a1 (by omega)] at h
      cases h
    · constructor
      · intro e
        have : (encKey.take L).length = L := by
          rw [List.length_take]
          omega
        rw [← l3, e] at this
        simp at this
        omega
      · intro h
        exact absurd l4 (h L l1 (by omega))
  · intro hne
    rcases hcase with ⟨e, _⟩ | ⟨L, l1, l2, l3, l4, l5⟩
    · exact absurd e hne
    · have hL : r.length = L := by
        rw [l3, List.length_take]
        omega
      rw [hL]
      exact ⟨l1, by omega, l3, by rw [l3]; exact l4, l5⟩

set_option maxRecDepth 8192 in
theorem findKey_first_match_witness :
    ((List.range 128).map (tiling [7, 8, 9, 10])).length = 128 ∧
    ∃ r, findKey ((List.range 128).map (tiling [7, 8, 9, 10])) = .ok r ∧
      (r = [] ↔
        ∀ L, 4 ≤ L → L < 128 →
          validateKey (((List.range 128).map (tiling [7, 8, 9, 10])).take L)
            ((List.range 128).map (tiling [7, 8, 9, 10])) ≠ .ok true) ∧
      (r ≠ [] →
        4 ≤ r.length ∧ r.length < 128 ∧
        r = ((List.range 128).map (tiling [7, 8, 9, 10])).take r.length ∧
        validateKey r ((List.range 128).map (tiling [7, 8, 9, 10])) = .ok true ∧
        ∀ L, 4 ≤ L → L < r.length →
          validateKey (((List.range 128).map (tiling [7, 8, 9, 10])).take L)
            ((List.range 128).map (tiling [7, 8, 9, 10])) = .ok false) :=
  ⟨by simp, findKey_first_match ((List.range 128).map (tiling [7, 8, 9, 10])) (by simp)⟩

/-! ## Key recovery from a tiling -/

theorem tilingBlob_length (K : List Nat) : (tilingBlob K).length = 128 := by
  simp [tilingBlob]

theorem tilingBlob_getD (K : List Nat) (i : Nat) (hi : i < 128) :
    (tilingBlob K).getD i 0 = tiling K i := by
  unfold tilingBlob
  exact getD_map_range _ _ _ hi

theorem getD_lt_of_isBytes (l : List Nat) (hb : IsBytes l) (j : Nat) : l.getD j 0 < 256 := by
  by_cases h : j < l.length
  · have : l.getD j 0 = l[j] := by
      simp [List.getD_eq_getElem?_getD, List.getElem?_eq_getElem h]
    rw [this]
    exact hb _ (List.getElem_mem h)
  · rw [getD_of_length_le _ _ (by omega)]
    decide

/-- The first `L ≤ |K|` bytes of the tiling of a key of bytes are those of the key. -/
theorem tilingBlob_take (K : List Nat) (hb : IsBytes K) (h2 : K.length ≤ 127) (L : Nat)
    (hL : L ≤ K.length) : (tilingBlob K).take L = K.take L := by
  apply list_ext_getD
  · rw [List.length_take, List.length_take, tilingBlob_length]
    omega
  · intro j hj
    rw [List.length_take, tilingBlob_length] at hj
    have hjL : j < L := by omega
    rw [getD_take_lt _ _ _ hjL, getD_take_lt _ _ _ hjL, tilingBlob_getD _ _ (by omega)]
    unfold tiling
    have hjK : j < K.length := by omega
    rw [Nat.div_eq_of_lt hjK, Nat.mod_eq_of_lt hjK, Nat.zero_add,
      Nat.mod_eq_of_lt (getD_lt_of_isBytes K hb j)]

theorem validateKey_true_iff (key tarKey : List Nat) (h1 : 1 ≤ key.length)
    (h2 : key.length ≤ 128) :
    validateKey key tarKey = .ok true ↔ ∀ i, i < 128 → tarKey.getD i 0 = tiling key i := by
  obtain ⟨b, hv, hb⟩ := validateKey_small key tarKey h1 h2
  rw [hv]
  constructor
  · intro h
    injection h with h
    exact hb.mp h
  · intro h
    rw [hb.mpr h]

theorem findKey_tiling_spec (K : List Nat) (hb : IsBytes K) (h1 : 4 ≤ K.length)
    (h2 : K.length ≤ 127) :
    ∃ r, findKey (tilingBlob K) = .ok r ∧
      4 ≤ r.length ∧ r.length ≤ K.length ∧ r = K.take r.length ∧
      (∀ i, i < 128 → tiling r i = tiling K i) ∧
      (∀ L, 4 ≤ L → L < r.length → ∃ i, i < 128 ∧ tiling (K.take L) i ≠ tiling K i) := by
  have hK : (tilingBlob K).take K.length = K := by
    rw [tilingBlob_take K hb h2 _ (le_refl _), List.take_length]
  have hvK : validateKey ((tilingBlob K).take K.length) (tilingBlob K) = .ok true := by
    rw [hK, validateKey_true_iff K _ (by omega) (by omega)]
    exact fun i hi => tilingBlob_getD K i hi
  obtain ⟨r, hr, hcase⟩ :=
    findKeyLoop_spec (tilingBlob K) (tilingBlob_length K) (128 - 4) 4 (by omega) (by omega)
  refine ⟨r, hr, ?_⟩
  rcases hcase with ⟨_, hall⟩ | ⟨L, l1, l2, l3, l4, l5⟩
  · have := hall K.length h1 (by omega)
    rw [hvK] at this
    cases this
  · have hLK : L ≤ K.length := by
      by_contra hgt
      have := l5 K.length h1 (by omega)
      rw [hvK] at this
      cases this
    have hrK : r = K.take L := by rw [l3, tilingBlob_take K hb h2 L hLK]
    have hrl : r.length = L := by
      rw [hrK, List.length_take]
      omega
    rw [hrl]
    refine ⟨l1, hLK, hrK, ?_, ?_⟩
    · intro i hi
      rw [← l3] at l4
      have := (validateKey_true_iff r _ (by omega) (by omega)).mp l4 i hi
      rw [← this, tilingBlob_getD K i hi]
    · intro M m1 m2
      have hf := l5 M m1 m2
      rw [tilingBlob_take K hb h2 M (by omega)] at hf
      have hlen : (K.take M).length = M := by
        rw [List.length_take]
        omega
      by_contra hno
      have hall : ∀ i, i < 128 → (tilingBlob K).getD i 0 = tiling (K.take M) i := by
        intro i hi
        rw [tilingBlob_getD K i hi]
        by_contra hne
        exact hno ⟨i, hi, fun h => hne h.symm⟩
      have := (validateKey_true_iff (K.take M) (tilingBlob K) (by omega) (by omega)).mpr hall
      rw [this] at hf
      cases hf

set_option maxRecDepth 100000 in
/-- C11, as stated, fails: the key `K` made of 64 zero bytes followed by one
byte 1 (65 bytes) has the same tiling as its prefix of 64 zero bytes, and
`findKey` on that tiling does not return `K`. -/
theorem findKey_tiling_not_key :
    IsBytes (List.replicate 64 0 ++ [1]) ∧ 4 ≤ (List.replicate 64 0 ++ [1]).length ∧
    (List.replicate 64 0 ++ [1]).length ≤ 127 ∧
    findKey (tilingBlob (List.replicate 64 0 ++ [1])) ≠ .ok (List.replicate 64 0 ++ [1]) := by
  have hb : IsBytes (List.replicate 64 0 ++ [1]) := by decide
  refine ⟨hb, by decide, by decide, ?_⟩
  obtain ⟨r, hr, r1, r2, r3, r4, r5⟩ :=
    findKey_tiling_spec (List.replicate 64 0 ++ [1]) hb (by decide) (by decide)
  rw [hr]
  intro h
  injection h with h
  have hlen : r.length = 65 := by rw [h]; rfl
  obtain ⟨i, hi, hne⟩ := r5 64 (by decide) (by omega)
  revert hne
  revert i
  decide

/-- C11, amended: for every key `K` of bytes with `4 ≤ |K| ≤ 127`, `findKey`
applied to the tiling of `K` returns, without error, the shortest prefix `r`
of `K` of length at least 4 whose tiling is the tiling of `K`; hence it
returns `K` itself exactly when no proper prefix of `K` of length at least 4
has the same tiling. -/
theorem findKey_tiling_shortest (K : List Nat) (hb : IsBytes K) (h1 : 4 ≤ K.length)
    (h2 : K.length ≤ 127) :
    ∃ r, findKey (tilingBlob K) = .ok r ∧
      4 ≤ r.length ∧ r.length ≤ K.length ∧ r = K.take r.length ∧
      (∀ i, i < 128 → tiling r i = tiling K i) ∧
      (∀ L, 4 ≤ L → L < r.length → ∃ i, i < 128 ∧ tiling (K.take L) i ≠ tiling K i) ∧
      (r = K ↔ ∀ L, 4 ≤ L → L < K.length → ∃ i, i < 128 ∧ tiling (K.take L) i ≠ tiling K i) := by
  obtain ⟨r, hr, r1, r2, r3, r4, r5⟩ := findKey_tiling_spec K hb h1 h2
  refine ⟨r, hr, r1, r2, r3, r4, r5, ?_⟩
  constructor
  · intro h L l1 l2
    exact r5 L l1 (by rw [h]; exact l2)
  · intro h
    by_cases hl : r.length = K.length
    · rw [r3, hl, List.take_length]
    · exfalso
      obtain ⟨i, hi, hne⟩ := h r.length r1 (by omega)
      rw [← r3] at hne
      exact hne (r4 i hi)

set_option maxRecDepth 8192 in
theorem findKey_tiling_shortest_witness :
    (IsBytes [7, 8, 9, 10, 11] ∧ 4 ≤ [7, 8, 9, 10, 11].length ∧
      [7, 8, 9, 10, 11].length ≤ 127) ∧
    ∃ r, findKey (tilingBlob [7, 8, 9, 10, 11]) = .ok r ∧
      4 ≤ r.length ∧ r.length ≤ [7, 8, 9, 10, 11].length ∧
      r = [7, 8, 9, 10, 11].take r.length ∧
      (∀ i, i < 128 → tiling r i = tiling [7, 8, 9, 10, 11] i) ∧
      (∀ L, 4 ≤ L → L < r.length →
        ∃ i, i < 128 ∧ tiling ([7, 8, 9, 10, 11].take L) i ≠ tiling [7, 8, 9, 10, 11] i) ∧
      (r = [7, 8, 9, 10, 11] ↔ ∀ L, 4 ≤ L → L < [7, 8, 9, 10, 11].length →
        ∃ i, i < 128 ∧ tiling ([7, 8, 9, 10, 11].take L) i ≠ tiling [7, 8, 9, 10, 11] i) :=
  ⟨⟨by decide, by decide, by decide⟩,
    findKey_tiling_shortest [7, 8, 9, 10, 11] (by decide) (by decide) (by decide)⟩

/-! ## The generators never return a degenerate state -/

theorem xor_mod_two_pow (a b k : Nat) : (a ^^^ b) % 2 ^ k = (a % 2 ^ k) ^^^ (b % 2 ^ k) := by
  apply Nat.eq_of_testBit_eq
  intro i
  simp only [Nat.testBit_mod_two_pow, Nat.testBit_xor]
  cases decide (i < k) <;> simp

theorem and_fffff_eq_mod (x : Nat) : x &&& 0xFFFFF = x % 1048576 := by
  have := Nat.and_pow_two_sub_one_eq_mod x 20
  have p : (2 : Nat) ^ 20 = 1048576 := by norm_num
  rw [p] at this
  exact this

theorem rng1_tail_ne (x : Nat) :
    (if x &&& 0xFFFFF = 0 then u32 (x + 256) else x) % 1048576 ≠ 0 := by
  rw [and_fffff_eq_mod]
  by_cases h : x % 1048576 = 0
  · rw [if_pos h]
    rw [u32]
    omega
  · rw [if_neg h]
    exact h

theorem rng2_tail_ne (x : Nat) :
    (if x ≠ 0 then (if x % 65536 = 0 then x ^^^ 0x55AA55AA else x) else 0x173BEF) % 65536
      ≠ 0 := by
  by_cases h0 : x ≠ 0
  · rw [if_pos h0]
    by_cases h : x % 65536 = 0
    · have p : (65536 : Nat) = 2 ^ 16 := by norm_num
      rw [if_pos h, p, xor_mod_two_pow, ← p, h]
      decide
    · rw [if_neg h]
      exact h
  · rw [if_neg h0]
    decide

theorem rng3_tail_ne (x : Nat) :
    (if x ≠ 0 then
        (if (if x % 65536 = 0 then x ^^^ 0x59A6F141 else x) &&& 0xFFFFF = 0 then
          u32 ((if x % 65536 = 0 then x ^^^ 0x59A6F141 else x) + 256)
        else (if x % 65536 = 0 then x ^^^ 0x59A6F141 else x))
      else 1566083941) % 65536 ≠ 0 := by
  by_cases h0 : x ≠ 0
  · rw [if_pos h0]
    have hy : (if x % 65536 = 0 then x ^^^ 0x59A6F141 else x) % 65536 ≠ 0 := by
      by_cases h : x % 65536 = 0
      · have p : (65536 : Nat) = 2 ^ 16 := by norm_num
        rw [if_pos h, p, xor_mod_two_pow, ← p, h]
        decide
      · rw [if_neg h]
        exact h
    generalize (if x % 65536 = 0 then x ^^^ 0x59A6F141 else x) = y at hy ⊢
    have h20 : ¬ (y &&& 0xFFFFF = 0) := by
      rw [and_fffff_eq_mod]
      omega
    rw [if_neg h20]
    exact hy
  · rw [if_neg h0]
    decide

theorem rng1_low20 (seed1 : Nat) : rng1 seed1 % 1048576 ≠ 0 := by
  rw [rng1]
  exact rng1_tail_ne _

theorem rng2_low16 (seed : Nat) : rng2 seed % 65536 ≠ 0 := by
  rw [rng2]
  exact rng2_tail_ne _

theorem rng3_low16 (seed2 : Nat) : rng3 seed2 % 65536 ≠ 0 := by
  rw [rng3]
  exact rng3_tail_ne _

/-- C18: the three generators never produce degenerate states.  For every
input state, `customRng1` returns, and stores in `seed1`, a value whose low 20
bits are not all zero; `customRng2` returns, and stores in `seed1`, a value
whose low 16 bits are not all zero; `customRng3` returns, and stores in
`seed2`, a value whose low 16 bits are not all zero; none of them returns 0.
Each leaves the other two fields unchanged. -/
theorem customRng_nondegenerate (rd : RngSeeds) :
    ((customRng1 rd).1 % 1048576 ≠ 0 ∧ (customRng1 rd).1 ≠ 0 ∧
      (customRng1 rd).2 = { rd with seed1 := (customRng1 rd).1 }) ∧
    ((customRng2 rd).1 % 65536 ≠ 0 ∧ (customRng2 rd).1 ≠ 0 ∧
      (customRng2 rd).2 = { rd with seed1 := (customRng2 rd).1 }) ∧
    ((customRng3 rd).1 % 65536 ≠ 0 ∧ (customRng3 rd).1 ≠ 0 ∧
      (customRng3 rd).2 = { rd with seed2 := (customRng3 rd).1 }) := by
  have e1 : (customRng1 rd).1 = rng1 rd.seed1 := by simp only [customRng1]
  have e2 : (customRng2 rd).1 = rng2 rd.seed1 := by simp only [customRng2]
  have e3 : (customRng3 rd).1 = rng3 rd.seed2 := by simp only [customRng3]
  have f1 : (customRng1 rd).2 = { rd with seed1 := (customRng1 rd).1 } := by
    simp only [customRng1]
  have f2 : (customRng2 rd).2 = { rd with seed1 := (customRng2 rd).1 } := by
    simp only [customRng2]
  have f3 : (customRng3 rd).2 = { rd with seed2 := (customRng3 rd).1 } := by
    simp only [customRng3]
  have h1 := rng1_low20 rd.seed1
  have h2 := rng2_low16 rd.seed1
  have h3 := rng3_low16 rd.seed2
  have z : ∀ x k : Nat, x % k ≠ 0 → x ≠ 0 := by
    intro x k hx h
    rw [h, Nat.zero_mod] at hx
    exact hx rfl
  rw [e1, e2, e3] at *
  exact ⟨⟨h1, z _ _ h1, f1⟩, ⟨h2, z _ _ h2, f2⟩, ⟨h3, z _ _ h3, f3⟩⟩

/-! ## runCrypt -/

theorem customRng1_counter (rd : RngSeeds) : (customRng1 rd).2.counter = rd.counter := by
  cases rd
  rfl

theorem customRng2_counter (rd : RngSeeds) : (customRng2 rd).2.counter = rd.counter := by
  cases rd
  rfl

theorem customRng3_counter (rd : RngSeeds) : (customRng3 rd).2.counter = rd.counter := by
  cases rd
  rfl

theorem rngStage_counter (cond : RngSeeds → Bool) (gen : RngSeeds → Nat × RngSeeds)
    (upd : Nat → Nat → Nat) (s : Nat × RngSeeds)
    (hgen : ∀ rd, (gen rd).2.counter = rd.counter) :
    (rngStage cond gen upd s).2.counter = s.2.counter := by
  unfold rngStage
  by_cases h : cond s.2 = true
  · rw [if_pos h]
    exact hgen _
  · rw [if_neg h]

theorem rngChainStep_counter (i : Nat) (rd : RngSeeds) :
    (rngChainStep i rd).2.counter = u32 (rd.counter + 1) := by
  rw [rngChainStep]
  simp only [rngStage_counter _ _ _ _ customRng1_counter,
    rngStage_counter _ _ _ _ customRng2_counter, rngStage_counter _ _ _ _ customRng3_counter,
    customRng2_counter, customRng3_counter]

theorem rngChainLoop_congr : ∀ (row row1 : List Nat) (i : Nat) (rd : RngSeeds),
    row.length = row1.length → rngChainLoop i rd row = rngChainLoop i rd row1 := by
  intro row
  induction row with
  | nil =>
    intro row1 i rd h
    cases row1 with
    | nil => rfl
    | cons a t => simp at h
  | cons x xs ih =>
    intro row1 i rd h
    cases row1 with
    | nil => simp at h
    | cons a t =>
      simp only [rngChainLoop]
      rw [ih t _ _ (by simpa using h)]

theorem rngChainLoop_length : ∀ (row : List Nat) (i : Nat) (rd : RngSeeds),
    (rngChainLoop i rd row).2.length = row.length := by
  intro row
  induction row with
  | nil => intro i rd; rfl
  | cons x xs ih =>
    intro i rd
    simp only [rngChainLoop, List.length_cons]
    rw [ih]

theorem rngChainLoop_counter : ∀ (row : List Nat) (i : Nat) (rd : RngSeeds),
    rd.counter + row.length < 4294967296 →
      (rngChainLoop i rd row).1.counter = rd.counter + row.length := by
  intro row
  induction row with
  | nil => intro i rd _; rfl
  | cons x xs ih =>
    intro i rd h
    simp only [List.length_cons] at h
    have hc : (rngChainStep i rd).2.counter = rd.counter + 1 := by
      rw [rngChainStep_counter, u32]
      exact Nat.mod_eq_of_lt (by omega)
    simp only [rngChainLoop, List.length_cons]
    rw [ih _ _ (by rw [hc]; omega), hc]
    omega

theorem runCryptRows_congr : ∀ (data data1 : List (List Nat)) (rd : RngSeeds),
    data.map List.length = data1.map List.length →
      runCryptRows rd data = runCryptRows rd data1 := by
  intro data
  induction data with
  | nil =>
    intro data1 rd h
    cases data1 with
    | nil => rfl
    | cons a t => simp at h
  | cons x xs ih =>
    intro data1 rd h
    cases data1 with
    | nil => simp at h
    | cons a t =>
      simp only [List.map_cons, List.cons.injEq] at h
      simp only [runCryptRows, rngChain]
      rw [rngChainLoop_congr x a 0 rd h.1, ih t _ h.2]

theorem runCryptRows_shape : ∀ (data : List (List Nat)) (rd : RngSeeds),
    (runCryptRows rd data).2.map List.length = data.map List.length := by
  intro data
  induction data with
  | nil => intro rd; rfl
  | cons x xs ih =>
    intro rd
    simp only [runCryptRows, rngChain, List.map_cons]
    rw [ih, rngChainLoop_length]

theorem runCryptRows_counter : ∀ (data : List (List Nat)) (rd : RngSeeds),
    rd.counter + (data.map List.length).sum < 4294967296 →
      (runCryptRows rd data).1.counter = rd.counter + (data.map List.length).sum := by
  intro data
  induction data with
  | nil => intro rd _; rfl
  | cons x xs ih =>
    intro rd h
    simp only [List.map_cons, List.sum_cons] at h
    have hc := rngChainLoop_counter x 0 rd (by omega)
    simp only [runCryptRows, rngChain, List.map_cons, List.sum_cons]
    rw [ih _ (by rw [hc]; omega), hc]
    omega

theorem isMatrix_shape (data : List (List Nat)) (h : IsMatrix data) :
    data.map List.length = List.replicate 32 256 := by
  obtain ⟨h1, h2⟩ := h
  rw [List.eq_replicate_iff]
  refine ⟨by simp [h1], ?_⟩
  intro b hb
  obtain ⟨row, hrow, rfl⟩ := List.mem_map.mp hb
  exact h2 row hrow

theorem isMatrix_of_shape (data : List (List Nat))
    (h : data.map List.length = List.replicate 32 256) : IsMatrix data := by
  constructor
  · have := congrArg List.length h
    simpa using this
  · intro row hrow
    have : row.length ∈ data.map List.length := List.mem_map.mpr ⟨row, hrow, rfl⟩
    rw [h] at this
    exact List.eq_of_mem_replicate this

theorem isMatrix_fresh : IsMatrix RngData.fresh.data := by
  apply isMatrix_of_shape
  show (List.replicate 32 (List.replicate 256 0)).map List.length = List.replicate 32 256
  rw [List.map_replicate, List.length_replicate]

theorem runCrypt_congr (rd1 rd2 : RngData) (seed1 seed2 : Nat)
    (h : rd1.data.map List.length = rd2.data.map List.length) :
    runCrypt rd1 seed1 seed2 = runCrypt rd2 seed1 seed2 := by
  unfold runCrypt
  simp only
  rw [runCryptRows_congr rd1.data rd2.data _ h]

/-- C15: `runCrypt` overwrites the whole RNG state from its two seeds.  For
every `seed1`, `seed2` and any two prior states with a 32x256 matrix,
`runCrypt` gives the same state (same `seed1`, `seed2`, `counter` and all
cells), the matrix stays 32x256 and the final counter is 8192; hence calling
`Reset` before `runCrypt`, or using a freshly constructed state, gives the
same result as reusing a dirty one. -/
theorem runCrypt_overwrites_state (rd1 rd2 : RngData) (seed1 seed2 : Nat)
    (h1 : IsMatrix rd1.data) (h2 : IsMatrix rd2.data) :
    runCrypt rd1 seed1 seed2 = runCrypt rd2 seed1 seed2 ∧
    (runCrypt rd1 seed1 seed2).counter = 8192 ∧
    IsMatrix (runCrypt rd1 seed1 seed2).data ∧
    runCrypt rd1.Reset seed1 seed2 = runCrypt rd1 seed1 seed2 ∧
    runCrypt RngData.fresh seed1 seed2 = runCrypt rd1 seed1 seed2 := by
  have s1 := isMatrix_shape _ h1
  have s2 := isMatrix_shape _ h2
  have sf := isMatrix_shape _ isMatrix_fresh
  refine ⟨runCrypt_congr _ _ _ _ (by rw [s1, s2]), ?_, ?_,
    runCrypt_congr _ _ _ _ (by rw [s1]; exact sf), runCrypt_congr _ _ _ _ (by rw [s1, sf])⟩
  · have hsum : (rd1.data.map List.length).sum = 8192 := by
      rw [s1]
      simp
    have := runCryptRows_counter rd1.data { seed1 := seed1, seed2 := seed2, counter := 0 }
      (by rw [hsum]; norm_num)
    unfold runCrypt
    simp only
    rw [this, hsum]
  · apply isMatrix_of_shape
    unfold runCrypt
    simp only
    rw [runCryptRows_shape, s1]

theorem runCrypt_overwrites_state_witness :
    (IsMatrix RngData.fresh.data ∧
      IsMatrix (runCrypt RngData.fresh 1 2).data) ∧
    (runCrypt RngData.fresh 7 9 = runCrypt (runCrypt RngData.fresh 1 2) 7 9 ∧
    (runCrypt RngData.fresh 7 9).counter = 8192 ∧
    IsMatrix (runCrypt RngData.fresh 7 9).data ∧
    runCrypt RngData.fresh.Reset 7 9 = runCrypt RngData.fresh 7 9 ∧
    runCrypt RngData.fresh 7 9 = runCrypt RngData.fresh 7 9) :=
  ⟨⟨isMatrix_fresh, isMatrix_of_shape _ (by
      unfold runCrypt
      simp only
      rw [runCryptRows_shape]
      exact isMatrix_shape _ isMatrix_fresh)⟩,
    runCrypt_overwrites_state RngData.fresh (runCrypt RngData.fresh 1 2) 7 9 isMatrix_fresh
      (isMatrix_of_shape _ (by
        unfold runCrypt
        simp only
        rw [runCryptRows_shape]
        exact isMatrix_shape _ isMatrix_fresh))⟩

/-! ## Seed collisions -/

theorem u32_one : u32 (0 + 1) = 1 := by
  rw [u32]

theorem rngStage_skip (cond : RngSeeds → Bool) (gen : RngSeeds → Nat × RngSeeds)
    (upd : Nat → Nat → Nat) (d s1 s2 c : Nat)
    (h : cond { seed1 := s1, seed2 := s2, counter := c } = false) :
    rngStage cond gen upd (d, { seed1 := s1, seed2 := s2, counter := c })
      = (d, { seed1 := s1, seed2 := s2, counter := c }) := by
  unfold rngStage
  rw [if_neg (by rw [h]; exact Bool.false_ne_true)]

theorem rngStage_take (cond : RngSeeds → Bool) (gen : RngSeeds → Nat × RngSeeds)
    (upd : Nat → Nat → Nat) (d s1 s2 c : Nat)
    (h : cond { seed1 := s1, seed2 := s2, counter := c } = true) :
    rngStage cond gen upd (d, { seed1 := s1, seed2 := s2, counter := c })
      = (upd d (gen { seed1 := s1, seed2 := s2, counter := c }).1,
          (gen { seed1 := s1, seed2 := s2, counter := c }).2) := by
  unfold rngStage
  rw [if_pos h]

/-- The first cell that `rngChain` computes from a zero counter. -/
theorem rngChainStep_first (s1 s2 : Nat) :
    (rngChainStep 0 { seed1 := s1, seed2 := s2, counter := 0 }).1 =
      (if rng2 s1 % 65536 = 256 then
        u32 ((if u32 (0 + rng2 s1) % 5 = 0 then rng2 s1 ^^^ rng3 s2 ^^^ rng1 (rng2 s1)
          else rng2 s1 ^^^ rng3 s2) + u32 (3 * rng3 (rng3 s2)))
      else (if u32 (0 + rng2 s1) % 5 = 0 then rng2 s1 ^^^ rng3 s2 ^^^ rng1 (rng2 s1)
          else rng2 s1 ^^^ rng3 s2)) := by
  have c1 : (1 &&& 1 == 0) = false := by decide
  have c2 : (1 % 3 == 0) = false := by decide
  have c3 : (1 % 7 == 0) = false := by decide
  have c4 : (1 &&& 7 == 0) = false := by decide
  have c5 : (1 % 9 == 0) = false := by decide
  have c6 : (1 % 0x18 == 0) = false := by decide
  have c7 : (1 % 0x1F == 0) = false := by decide
  have c8 : (1 % 0x3D == 0) = false := by decide
  have c9 : (1 % 0xA1 == 0) = false := by decide
  rw [rngChainStep]
  simp only [customRng2, customRng3, customRng1, u32_one]
  by_cases h5 : u32 (0 + rng2 s1) % 5 = 0
  · have b5 : (u32 (0 + rng2 s1) % 5 == 0) = true := by rw [h5]; rfl
    by_cases h6 : rng2 s1 % 65536 = 256
    · have b6 : (rng2 s1 % 65536 == 256) = true := by rw [h6]; rfl
      simp only [rngStage_skip, rngStage_take, c1, c2, c3, c4, c5, c6, c7, c8, c9, b5, b6,
        customRng1, customRng3, if_pos h5, if_pos h6]
    · have b6 : (rng2 s1 % 65536 == 256) = false := by
        rw [beq_eq_false_iff_ne]; exact h6
      simp only [rngStage_skip, rngStage_take, c1, c2, c3, c4, c5, c6, c7, c8, c9, b5, b6,
        customRng1, customRng3, if_pos h5, if_neg h6]
  · have b5 : (u32 (0 + rng2 s1) % 5 == 0) = false := by
      rw [beq_eq_false_iff_ne]; exact h5
    by_cases h6 : rng2 s1 % 65536 = 256
    · have b6 : (rng2 s1 % 65536 == 256) = true := by rw [h6]; rfl
      simp only [rngStage_skip, rngStage_take, c1, c2, c3, c4, c5, c6, c7, c8, c9, b5, b6,
        customRng1, customRng3, if_neg h5, if_pos h6]
    · have b6 : (rng2 s1 % 65536 == 256) = false := by
        rw [beq_eq_false_iff_ne]; exact h6
      simp only [rngStage_skip, rngStage_take, c1, c2, c3, c4, c5, c6, c7, c8, c9, b5, b6,
        customRng1, customRng3, if_neg h5, if_neg h6]

theorem u32_lt (x : Nat) : u32 x < 4294967296 := by
  rw [u32]
  exact Nat.mod_lt _ (by decide)

theorem u32_of_lt (x : Nat) (h : x < 4294967296) : u32 x = x := by
  rw [u32]
  exact Nat.mod_eq_of_lt h

theorem xor_lt_u32 (a b : Nat) (ha : a < 4294967296) (hb : b < 4294967296) :
    a ^^^ b < 4294967296 := by
  have p : (4294967296 : Nat) = 2 ^ 32 := by norm_num
  rw [p] at ha hb ⊢
  exact Nat.xor_lt_two_pow ha hb

theorem shiftRight_lt_u32 (a k : Nat) (ha : a < 4294967296) : a >>> k < 4294967296 := by
  rw [Nat.shiftRight_eq_div_pow]
  exact Nat.lt_of_le_of_lt (Nat.div_le_self _ _) ha

theorem rng2_tail_lt (x : Nat) (hx : x < 4294967296) :
    (if x ≠ 0 then (if x % 65536 = 0 then x ^^^ 0x55AA55AA else x) else 0x173BEF)
      < 4294967296 := by
  by_cases h0 : x ≠ 0
  · rw [if_pos h0]
    by_cases h : x % 65536 = 0
    · rw [if_pos h]
      exact xor_lt_u32 _ _ hx (by decide)
    · rw [if_neg h]
      exact hx
  · rw [if_neg h0]
    decide

theorem rng2_lt (seed : Nat) : rng2 seed < 4294967296 := by
  rw [rng2]
  apply rng2_tail_lt
  have h0 := u32_lt (1664525 * seed + 1013904223)
  by_cases c1 : u32 (1664525 * seed + 1013904223) % 3 ≠ 0
  · rw [if_pos c1]
    by_cases c2 : u32 (1664525 * seed + 1013904223) % 3 = 1
    · rw [if_pos c2]
      exact xor_lt_u32 _ _ h0 (shiftRight_lt_u32 _ _ h0)
    · rw [if_neg c2]
      exact u32_lt _
  · rw [if_neg c1]
    exact xor_lt_u32 _ _ h0 (u32_lt _)

/-- The first cell, when the low 16 bits of the first `customRng2` value are
not 256. -/
theorem rngChainStep_first_plain (s1 s2 : Nat) (h6 : rng2 s1 % 65536 ≠ 256) :
    (rngChainStep 0 { seed1 := s1, seed2 := s2, counter := 0 }).1 =
      if rng2 s1 % 5 = 0 then rng2 s1 ^^^ rng3 s2 ^^^ rng1 (rng2 s1)
      else rng2 s1 ^^^ rng3 s2 := by
  rw [rngChainStep_first, if_neg h6, Nat.zero_add, u32_of_lt _ (rng2_lt s1)]

theorem aLotDraw_itrs (s : ALotState) : (aLotDraw s).itrs = s.itrs := by
  cases s
  rfl

theorem aLotDraw_a2 (s : ALotState) : (aLotDraw s).a2 = s.a2 := by
  cases s
  rfl

theorem aLotDraw_counter (s : ALotState) : (aLotDraw s).rd.counter = s.rd.counter := by
  show (customRng2 (customRng1 s.rd.toRngSeeds).2).2.counter = s.rd.counter
  rw [customRng2_counter, customRng1_counter]

theorem aLotSelector_draw (s : ALotState) : aLotSelector (aLotDraw s) = aLotSelector s := by
  unfold aLotSelector
  rw [aLotDraw_a2, aLotDraw_counter]

theorem aLotSwitch_itrs (idx sel : Nat) (s : ALotState) :
    (aLotSwitch idx sel s).itrs = if sel = 0x11 then u32 (s.itrs + 1) else s.itrs := by
  by_cases h11 : sel = 0x11
  · subst h11
    simp only [aLotSwitch]
    simp
  · rw [if_neg h11]
    simp only [aLotSwitch, if_neg h11]
    split_ifs <;> rfl

theorem aLotAdvance_itrs (s : ALotState) :
    (aLotAdvance s).itrs = if s.itrs > 50 then 50 else s.itrs := rfl

/-- The loop bound after one iteration, from the bound and the selector
before it. -/
theorem aLotBody_itrs (idx : Nat) (s : ALotState) (h : s.itrs ≤ 50) :
    (aLotBody idx s).itrs
      = if aLotSelector s = 0x11 then (if s.itrs < 50 then s.itrs + 1 else 50) else s.itrs := by
  unfold aLotBody
  rw [aLotAdvance_itrs, aLotSwitch_itrs, aLotSelector_draw, aLotDraw_itrs]
  by_cases c : aLotSelector s = 0x11
  · rw [if_pos c, if_pos c, u32_of_lt _ (by omega)]
    by_cases d : s.itrs < 50
    · rw [if_pos d, if_neg (by omega)]
    · rw [if_neg d, if_pos (by omega)]
  · rw [if_neg c, if_neg c, if_neg (by omega)]

theorem aLotBody_itrs_le (idx : Nat) (s : ALotState) (h : s.itrs ≤ 50) :
    s.itrs ≤ (aLotBody idx s).itrs ∧ (aLotBody idx s).itrs ≤ 50 := by
  rw [aLotBody_itrs idx s h]
  by_cases c : aLotSelector s = 0x11
  · rw [if_pos c]
    by_cases d : s.itrs < 50
    · rw [if_pos d]; omega
    · rw [if_neg d]; omega
  · rw [if_neg c]; omega

theorem aLotLoop_spec (idx : Nat) : ∀ (fuel i : Nat) (s : ALotState),
    s.itrs ≤ 50 → i ≤ s.itrs → 50 - i < fuel →
    ∃ k, aLotLoop fuel idx i s = some (i + k, (aLotBody idx)^[k] s) ∧
      i + k = ((aLotBody idx)^[k] s).itrs ∧ s.itrs ≤ i + k ∧ i + k ≤ 50 := by
  intro fuel
  induction fuel with
  | zero => intro i s _ _ hf; omega
  | succ fuel ih =>
    intro i s h50 hi hf
    by_cases c : i < s.itrs
    · obtain ⟨hb1, hb2⟩ := aLotBody_itrs_le idx s h50
      obtain ⟨k, hk, e, lo, hi2⟩ := ih (i + 1) (aLotBody idx s) hb2 (by omega) (by omega)
      refine ⟨k + 1, ?_, ?_, ?_, ?_⟩
      · rw [aLotLoop, if_pos c, u32_of_lt _ (by omega), hk, Function.iterate_succ_apply]
        congr 2
        omega
      · rw [Function.iterate_succ_apply, ← e]
        omega
      · omega
      · omega
    · refine ⟨0, ?_, ?_, ?_, ?_⟩
      · rw [aLotLoop, if_neg c]
        rfl
      · show i + 0 = s.itrs
        omega
      · omega
      · omega

/-- C17: with fuel for 51 loop tests, the loop of `aLotOfRngStuff` ends after
`n` iterations of its body with `20 ≤ n ≤ 50`, `n` being the final value of the
bound `itrs`, and `aLotOfRngStuff` returns.  The bound starts at 20; an
iteration entered with bound `itrs ≤ 50` and a selector
`(a2 + rd.counter) % 20` other than 17 leaves it unchanged, and one with
selector 17 adds one to it when it is below 50 and leaves it at 50 otherwise;
it never exceeds 50 and never decreases. -/
theorem aLotOfRngStuff_bounded (fuel : Nat) (rd : RngData) (a2 a3 idx : Nat)
    (cryptData : List Nat) (hf : 51 ≤ fuel) :
    (∃ n, 20 ≤ n ∧ n ≤ 50 ∧
      aLotLoop fuel idx 0 (aLotInit rd a2 a3 cryptData)
        = some (n, (aLotBody idx)^[n] (aLotInit rd a2 a3 cryptData)) ∧
      ((aLotBody idx)^[n] (aLotInit rd a2 a3 cryptData)).itrs = n) ∧
    (aLotOfRngStuff fuel rd a2 a3 idx cryptData).isSome = true ∧
    (aLotInit rd a2 a3 cryptData).itrs = 20 ∧
    (∀ s : ALotState, s.itrs ≤ 50 →
      (aLotBody idx s).itrs ≤ 50 ∧ s.itrs ≤ (aLotBody idx s).itrs ∧
      (aLotBody idx s).itrs
        = if aLotSelector s = 17 then (if s.itrs < 50 then s.itrs + 1 else 50) else s.itrs) := by
  obtain ⟨k, hk, e, lo, hi⟩ :=
    aLotLoop_spec idx fuel 0 (aLotInit rd a2 a3 cryptData) (show 20 ≤ 50 by decide)
      (Nat.zero_le _) (by omega)
  rw [Nat.zero_add] at hk e lo hi
  refine ⟨⟨k, lo, hi, hk, e.symm⟩, ?_, rfl, ?_⟩
  · rw [aLotOfRngStuff, hk]
    rfl
  · intro s hs
    exact ⟨(aLotBody_itrs_le idx s hs).2, (aLotBody_itrs_le idx s hs).1, aLotBody_itrs idx s hs⟩

theorem aLotOfRngStuff_bounded_witness :
    51 ≤ 51 ∧
    ((∃ n, 20 ≤ n ∧ n ≤ 50 ∧
      aLotLoop 51 7 0 (aLotInit RngData.fresh 3 4 (List.replicate 48 0))
        = some (n, (aLotBody 7)^[n] (aLotInit RngData.fresh 3 4 (List.replicate 48 0))) ∧
      ((aLotBody 7)^[n] (aLotInit RngData.fresh 3 4 (List.replicate 48 0))).itrs = n) ∧
    (aLotOfRngStuff 51 RngData.fresh 3 4 7 (List.replicate 48 0)).isSome = true ∧
    (aLotInit RngData.fresh 3 4 (List.replicate 48 0)).itrs = 20 ∧
    (∀ s : ALotState, s.itrs ≤ 50 →
      (aLotBody 7 s).itrs ≤ 50 ∧ s.itrs ≤ (aLotBody 7 s).itrs ∧
      (aLotBody 7 s).itrs
        = if aLotSelector s = 17 then (if s.itrs < 50 then s.itrs + 1 else 50) else s.itrs)) :=
  ⟨by decide, aLotOfRngStuff_bounded 51 RngData.fresh 3 4 7 (List.replicate 48 0) (by decide)⟩

/-! ## The coprime search of calcKey -/

theorem int32_of_range (x : Int) (h1 : -2147483648 ≤ x) (h2 : x < 2147483648) :
    int32 x = x := by
  unfold int32
  omega

theorem strideStart_le (g3 g4 g6 : Nat) (h4 : g4 < 256) : strideStart g3 g4 g6 ≤ 1278 := by
  unfold strideStart
  have : ((g3 % 65536) * g6) &&& 0x3FF ≤ 0x3FF := Nat.and_le_right
  omega

theorem gcdLoop_spec : ∀ (fuel a b : Nat), 0 < b → b < fuel →
    gcdLoop fuel (a : Int) (b : Int) = some ((Nat.gcd a b : Nat) : Int) := by
  intro fuel
  induction fuel with
  | zero => intro a b _ h; omega
  | succ fuel ih =>
    intro a b hb hf
    rw [gcdLoop, ← Int.ofNat_tmod]
    by_cases h : ((a % b : Nat) : Int) ≠ 0
    · rw [if_pos h]
      have hpos : 0 < a % b := by
        rcases Nat.eq_zero_or_pos (a % b) with h0 | h0
        · rw [h0] at h
          exact absurd rfl h
        · exact h0
      have hlt : a % b < b := Nat.mod_lt _ hb
      rw [ih b (a % b) hpos (by omega), Nat.gcd_comm b (a % b), ← Nat.gcd_rec, Nat.gcd_comm]
    · rw [if_neg h]
      have h0 : a % b = 0 := by
        by_contra hne
        exact h (by exact_mod_cast hne)
      rw [Nat.gcd_eq_right (Nat.dvd_of_mod_eq_zero h0)]

theorem strideTest_spec (gfuel s k : Nat) (hs : s < 2147483648) (hk : k < gfuel) :
    strideTest gfuel s (k : Int) = some ((Nat.gcd s k : Nat) : Int) := by
  unfold strideTest
  rw [int32_of_range (s : Int) (by omega) (by omega)]
  by_cases h : (k : Int) ≠ 0
  · rw [if_pos h]
    exact gcdLoop_spec gfuel s k (by omega) hk
  · rw [if_neg h]
    have h0 : k = 0 := by
      by_contra hne
      exact h (by exact_mod_cast hne)
    rw [h0, Nat.gcd_zero_right]

theorem coprimeSearch_spec (s gfuel K : Nat) (hs1 : 1 ≤ s) (hs2 : s < 2147483648)
    (hK : Nat.gcd s K = 1) (hKb : K < 2147483647) (hg : K < gfuel) :
    ∀ (fuel k : Nat), k ≤ K → (∀ j, k ≤ j → j < K → Nat.gcd s j ≠ 1) → K - k < fuel →
      coprimeSearch fuel gfuel s (k : Int) = some (K : Int) := by
  intro fuel
  induction fuel with
  | zero => intro k _ _ h; omega
  | succ fuel ih =>
    intro k hk hmin hf
    rw [coprimeSearch, strideTest_spec gfuel s k hs2 (by omega)]
    by_cases e : k = K
    · subst e
      rw [hK]
      rfl
    · have hne := hmin k (Nat.le_refl k) (by omega)
      have hpos : 0 < Nat.gcd s k := Nat.gcd_pos_of_pos_left k (by omega)
      have hgt : ¬ (((Nat.gcd s k : Nat) : Int) ≤ 1) := by omega
      show (if ((Nat.gcd s k : Nat) : Int) ≤ 1 then some (k : Int)
        else coprimeSearch fuel gfuel s (int32 ((k : Int) + 1))) = some (K : Int)
      rw [if_neg hgt, int32_of_range _ (by omega) (by omega)]
      have := ih (k + 1) (by omega) (fun j h1 h2 => hmin j (by omega) h2) (by omega)
      exact_mod_cast this

theorem gcd_mul_add_one (s q : Nat) : Nat.gcd s (s * q + 1) = 1 := by
  rw [Nat.gcd_mul_left_add_right, Nat.gcd_one_right]

/-- Among any `s` consecutive integers from `k0` on, one is coprime to `s`. -/
theorem exists_coprime_near (s k0 : Nat) (hs : 1 ≤ s) :
    ∃ j, k0 ≤ j ∧ j ≤ k0 + s ∧ Nat.gcd s j = 1 := by
  have hdiv := Nat.div_add_mod k0 s
  have hmod : k0 % s < s := Nat.mod_lt _ (by omega)
  by_cases h : k0 % s ≤ 1
  · exact ⟨s * (k0 / s) + 1, by omega, by omega, gcd_mul_add_one s _⟩
  · refine ⟨s * (k0 / s + 1) + 1, ?_, ?_, gcd_mul_add_one s _⟩
    · rw [Nat.mul_add, Nat.mul_one]; omega
    · rw [Nat.mul_add, Nat.mul_one]; omega

/-- A payload size below `2 ^ 31` is coprime to one of the primes 1279, 1283,
1289, 1291. -/
theorem exists_coprime_prime (s : Nat) (hs1 : 1 ≤ s) (hs2 : s < 2147483648) :
    ∃ p, 1279 ≤ p ∧ p ≤ 1291 ∧ Nat.gcd s p = 1 := by
  have p1 : Nat.Prime 1279 := by norm_num
  have p2 : Nat.Prime 1283 := by norm_num
  have p3 : Nat.Prime 1289 := by norm_num
  have p4 : Nat.Prime 1291 := by norm_num
  by_cases d1 : 1279 ∣ s
  · by_cases d2 : 1283 ∣ s
    · by_cases d3 : 1289 ∣ s
      · by_cases d4 : 1291 ∣ s
        · exfalso
          have hpos : 0 < s := hs1
          have c12 : Nat.Coprime 1279 1283 := by norm_num
          have h12 := Nat.Coprime.mul_dvd_of_dvd_of_dvd c12 d1 d2
          norm_num at h12
          have c123 : Nat.Coprime 1640957 1289 := by norm_num
          have h123 := Nat.Coprime.mul_dvd_of_dvd_of_dvd c123 h12 d3
          norm_num at h123
          have c1234 : Nat.Coprime 2115193573 1291 := by norm_num
          have h1234 := Nat.Coprime.mul_dvd_of_dvd_of_dvd c1234 h123 d4
          norm_num at h1234
          have hle := Nat.le_of_dvd hpos h1234
          clear d1 d2 d3 d4 h12 h123 h1234
          omega
        · exact ⟨1291, by norm_num, by norm_num,
            Nat.coprime_comm.1 ((Nat.Prime.coprime_iff_not_dvd p4).2 d4)⟩
      · exact ⟨1289, by norm_num, by norm_num,
          Nat.coprime_comm.1 ((Nat.Prime.coprime_iff_not_dvd p3).2 d3)⟩
    · exact ⟨1283, by norm_num, by norm_num,
        Nat.coprime_comm.1 ((Nat.Prime.coprime_iff_not_dvd p2).2 d2)⟩
  · exact ⟨1279, by norm_num, by norm_num,
      Nat.coprime_comm.1 ((Nat.Prime.coprime_iff_not_dvd p1).2 d1)⟩

/-- C20: for a payload size `1 ≤ s < 2 ^ 31` and the starting value
`k0 = strideStart g3 g4 g6` computed from header bytes, the coprime search of
`calcKey` ends (with fuel for 1292 passes of either loop) at the least `k ≥ k0`
with `gcd s k = 1`, where `gcd s 0 = s`; this `k` is at most `k0 + s` and at
most 1291, so `k++` never overflows; for `s = 1` the first pass already ends
the search, with `k = k0`. -/
theorem coprimeSearch_least (s g3 g4 g6 fuel gfuel : Nat) (hs1 : 1 ≤ s)
    (hs2 : s < 2147483648) (h4 : g4 < 256) (hf : 1292 ≤ fuel) (hg : 1292 ≤ gfuel) :
    ∃ k : Nat,
      coprimeSearch fuel gfuel s (strideStart g3 g4 g6 : Int) = some (k : Int) ∧
      strideStart g3 g4 g6 ≤ k ∧ Nat.gcd s k = 1 ∧
      (∀ j, strideStart g3 g4 g6 ≤ j → j < k → Nat.gcd s j ≠ 1) ∧
      k ≤ strideStart g3 g4 g6 + s ∧ k ≤ 1291 ∧
      (s = 1 → k = strideStart g3 g4 g6 ∧
        coprimeSearch 1 gfuel s (strideStart g3 g4 g6 : Int)
          = some (strideStart g3 g4 g6 : Int)) ∧
      Nat.gcd s 0 = s := by
  have hk0 := strideStart_le g3 g4 g6 h4
  generalize strideStart g3 g4 g6 = k0 at hk0 ⊢
  have H : ∃ j, k0 ≤ j ∧ Nat.gcd s j = 1 := by
    obtain ⟨j, h1, _, h3⟩ := exists_coprime_near s k0 hs1
    exact ⟨j, h1, h3⟩
  have hspec := Nat.find_spec H
  have hmin : ∀ j, k0 ≤ j → j < Nat.find H → Nat.gcd s j ≠ 1 :=
    fun j h1 h2 h3 => Nat.find_min H h2 ⟨h1, h3⟩
  have hnear : Nat.find H ≤ k0 + s := by
    obtain ⟨j, h1, h2, h3⟩ := exists_coprime_near s k0 hs1
    exact Nat.le_trans (Nat.find_min' H ⟨h1, h3⟩) h2
  have hprime : Nat.find H ≤ 1291 := by
    obtain ⟨p, h1, h2, h3⟩ := exists_coprime_prime s hs1 hs2
    exact Nat.le_trans (Nat.find_min' H ⟨by omega, h3⟩) h2
  refine ⟨Nat.find H, ?_, hspec.1, hspec.2, hmin, hnear, hprime, ?_, Nat.gcd_zero_right s⟩
  · exact coprimeSearch_spec s gfuel (Nat.find H) hs1 hs2 hspec.2 (by omega) (by omega)
      fuel k0 hspec.1 hmin (by omega)
  · intro h1
    have hg1 : Nat.gcd s k0 = 1 := by rw [h1, Nat.gcd_one_left]
    have e : Nat.find H = k0 := Nat.le_antisymm (Nat.find_min' H ⟨Nat.le_refl _, hg1⟩) hspec.1
    refine ⟨e, ?_⟩
    exact coprimeSearch_spec s gfuel k0 hs1 hs2 hg1 (by omega) (by omega) 1 k0 (Nat.le_refl _)
      (fun j h1 h2 => by omega) (by omega)

theorem coprimeSearch_least_witness :
    (1 ≤ 6 ∧ 6 < 2147483648 ∧ 0 < 256 ∧ 1292 ≤ 1292) ∧
    coprimeSearch 1292 1292 6 (strideStart 2 0 1 : Int) = some 5 ∧
    ∃ k : Nat,
      coprimeSearch 1292 1292 6 (strideStart 2 0 1 : Int) = some (k : Int) ∧
      strideStart 2 0 1 ≤ k ∧ Nat.gcd 6 k = 1 ∧
      (∀ j, strideStart 2 0 1 ≤ j → j < k → Nat.gcd 6 j ≠ 1) ∧
      k ≤ strideStart 2 0 1 + 6 ∧ k ≤ 1291 ∧
      (6 = 1 → k = strideStart 2 0 1 ∧
        coprimeSearch 1 1292 6 (strideStart 2 0 1 : Int)
          = some (strideStart 2 0 1 : Int)) ∧
      Nat.gcd 6 0 = 6 :=
  ⟨⟨by decide, by decide, by decide, by decide⟩, by decide,
    coprimeSearch_least 6 2 0 1 1292 1292 (by decide) (by decide) (by decide) (by decide)
      (by decide)⟩

/-! ## initCrypt: the payload size and the seeds -/

theorem stdDataSize_lt (n : Nat) : stdDataSize n < 4294967296 := by
  unfold stdDataSize
  omega

theorem stdDataSize_of_ge (n : Nat) (h1 : 31 ≤ n) (h2 : n < 4294967296 + 31) :
    stdDataSize n = n - 31 := by
  unfold stdDataSize
  omega

theorem stdDataSize_of_lt (n : Nat) (h : n < 31) : stdDataSize n = n + 4294967296 - 31 := by
  unfold stdDataSize
  omega

theorem initCrypt_dataSize (cd : CryptData) :
    (initCrypt cd).dataSize = stdDataSize cd.gameDatBytes.length := by
  simp only [initCrypt]

theorem initCrypt_keyBytes (cd : CryptData) :
    (initCrypt cd).keyBytes = stdKeyBytes (stdDataSize cd.gameDatBytes.length) := by
  simp only [initCrypt]

theorem initCrypt_gameDatBytes (cd : CryptData) :
    (initCrypt cd).gameDatBytes = cd.gameDatBytes := by
  simp only [initCrypt]

theorem sizeDiv_shift (s : Nat) (h : s < 4294967296) : (s / 3) >>> 31 = 0 := by
  rw [Nat.shiftRight_eq_div_pow]
  apply Nat.div_eq_of_lt
  have p : (2 : Nat) ^ 31 = 2147483648 := by norm_num
  rw [p]
  omega

/-- C25: in `initCrypt` the term `sizeDiv >> 31` is zero for every buffer: the
payload size `s` is a 32-bit value, `(s / 3) >> 31 = 0`, `seed1 = s / 3 + 71`
without wraparound, and `seed2 = s % 1200 + 152`, which lies in 152..1351. -/
theorem initCrypt_seeds (cd : CryptData) :
    (initCrypt cd).dataSize < 4294967296 ∧
    ((initCrypt cd).dataSize / 3) >>> 31 = 0 ∧
    (initCrypt cd).seed1 = (initCrypt cd).dataSize / 3 + 71 ∧
    (initCrypt cd).seed2 = (initCrypt cd).dataSize % 1200 + 152 ∧
    152 ≤ (initCrypt cd).seed2 ∧ (initCrypt cd).seed2 ≤ 1351 := by
  have hlt := stdDataSize_lt cd.gameDatBytes.length
  have hsh := sizeDiv_shift _ hlt
  simp only [initCrypt]
  generalize stdDataSize cd.gameDatBytes.length = s at hlt hsh ⊢
  rw [hsh]
  refine ⟨hlt, rfl, ?_, ?_, ?_, ?_⟩ <;> omega

/-! ## The mask loop of decrpytProV2P1 -/

theorem decrpytLoop_spec (rnds : List Nat) : ∀ (fuel i : Nat) (data : List Nat),
    data.length < 4294967296 → data.length - i < fuel →
    ∃ out, decrpytLoop rnds fuel i data = some out ∧ out.length = data.length ∧
      ∀ j, out.getD j 0 =
        if i ≤ j ∧ j < data.length then (data.getD j 0 ^^^ rnds.getD (j % 128) 0) % 256
        else data.getD j 0 := by
  intro fuel
  induction fuel with
  | zero => intro i data _ h; omega
  | succ fuel ih =>
    intro i data hlen hf
    by_cases c : i < data.length
    · have e1 : (i + 1) % 4294967296 = i + 1 := Nat.mod_eq_of_lt (by omega)
      obtain ⟨out, ho, hl, hg⟩ := ih (i + 1)
        (data.set i ((data.getD i 0 ^^^ rnds.getD (i % 128) 0) % 256))
        (by rw [List.length_set]; exact hlen) (by rw [List.length_set]; omega)
      refine ⟨out, ?_, ?_, ?_⟩
      · rw [decrpytLoop, if_pos c, e1]
        exact ho
      · rw [hl, List.length_set]
      · intro j
        rw [hg j, List.length_set]
        by_cases d : i + 1 ≤ j ∧ j < data.length
        · rw [if_pos d, if_pos ⟨by omega, d.2⟩, getD_set_eq, if_neg (by omega)]
        · rw [if_neg d, getD_set_eq]
          by_cases e : i = j
          · subst e
            rw [if_pos ⟨rfl, c⟩, if_pos ⟨Nat.le_refl _, c⟩]
          · rw [if_neg (fun h => e h.1), if_neg (by omega)]
    · refine ⟨data, ?_, rfl, ?_⟩
      · rw [decrpytLoop, if_neg c]
      · intro j
        rw [if_neg (by omega)]

/-- On a buffer of `2 ^ 32` bytes or more the 32-bit index never reaches the
size: the loop does not end. -/
theorem decrpytLoop_diverges (rnds : List Nat) : ∀ (fuel i : Nat) (data : List Nat),
    4294967296 ≤ data.length → i < 4294967296 → decrpytLoop rnds fuel i data = none := by
  intro fuel
  induction fuel with
  | zero => intro i data _ _; rfl
  | succ fuel ih =>
    intro i data hlen hi
    rw [decrpytLoop, if_pos (by omega)]
    exact ih _ _ (by rw [List.length_set]; exact hlen) (Nat.mod_lt _ (by decide))

theorem protMask_spec (gen : Nat → Nat → Nat) (fuel : Nat) (g : List Nat)
    (hlen : g.length < 4294967296) (hf : g.length < fuel) :
    ∃ out, protMask gen fuel g = some out ∧ out.length = g.length ∧
      ∀ j, out.getD j 0 =
        if 10 ≤ j ∧ j < g.length then
          (g.getD j 0 ^^^
            gen (genMTSeed (g.getD 0 0) (g.getD 8 0) (g.getD 6 0)) (j % 128)) % 256
        else g.getD j 0 := by
  obtain ⟨out, ho, hl, hg⟩ := decrpytLoop_spec
    ((List.range 128).map (gen (genMTSeed (g.getD 0 0) (g.getD 8 0) (g.getD 6 0))))
    fuel 10 g hlen (by omega)
  refine ⟨out, ho, hl, ?_⟩
  intro j
  rw [hg j, getD_map_range _ _ _ (Nat.mod_lt _ (by decide))]

theorem protMask_diverges (gen : Nat → Nat → Nat) (fuel : Nat) (g : List Nat)
    (hlen : 4294967296 ≤ g.length) : protMask gen fuel g = none :=
  decrpytLoop_diverges _ fuel 10 g hlen (by decide)

theorem protDataSize_of_lt (n : Nat) (h1 : 20 ≤ n) (h2 : n < 4294967296) :
    protDataSize n = min (n - 20) 326 := by
  unfold protDataSize
  have e : (n % 4294967296 + 4294967296 - 20) % 4294967296 = n - 20 := by omega
  rw [e]
  by_cases c : n - 20 < 326
  · rw [if_pos c]; omega
  · rw [if_neg c]; omega

theorem protDataSize_short (n : Nat) (h : n < 20) : protDataSize n = 326 := by
  unfold protDataSize
  have e : (n % 4294967296 + 4294967296 - 20) % 4294967296 = n + 4294967296 - 20 := by omega
  rw [e, if_neg (by omega)]

theorem initCryptProt_spec (gen : Nat → Nat → Nat) (fuel : Nat) (cd : CryptData)
    (hlen : cd.gameDatBytes.length < 4294967296) (hf : cd.gameDatBytes.length < fuel) :
    ∃ cd1, initCryptProt gen fuel cd = some cd1 ∧
      cd1.dataSize = protDataSize cd.gameDatBytes.length ∧
      cd1.gameDatBytes.length = cd.gameDatBytes.length ∧
      protMask gen fuel cd.gameDatBytes = some cd1.gameDatBytes := by
  obtain ⟨out, ho, hl, _⟩ := protMask_spec gen fuel cd.gameDatBytes hlen hf
  simp only [initCryptProt, ho, Option.some.injEq, exists_eq_left']
  exact ⟨trivial, hl, trivial⟩

theorem initCryptProt_diverges (gen : Nat → Nat → Nat) (fuel : Nat) (cd : CryptData)
    (hlen : 4294967296 ≤ cd.gameDatBytes.length) : initCryptProt gen fuel cd = none := by
  unfold initCryptProt
  rw [protMask_diverges gen fuel _ hlen]

/-! ## Claims on initCrypt and initCryptProt -/

/-- C13, as stated, fails: on a 30-byte buffer `initCrypt` computes the payload
size `2 ^ 32 - 1`, and on a 19-byte buffer `initCryptProt` returns with the
payload size 326; neither signals an error. -/
theorem initCrypt_short_wraps :
    (initCrypt (CryptData.ofBytes (List.replicate 30 0))).dataSize = 4294967295 ∧
    ∃ cd1, initCryptProt (fun _ _ => 0) 20 (CryptData.ofBytes (List.replicate 19 0)) = some cd1 ∧
      cd1.dataSize = 326 := by
  constructor
  · rw [initCrypt_dataSize]
    decide
  · obtain ⟨cd1, h1, h2, _, _⟩ := initCryptProt_spec (fun _ _ => 0) 20
      (CryptData.ofBytes (List.replicate 19 0)) (by decide) (by decide)
    exact ⟨cd1, h1, by rw [h2]; decide⟩

/-- C13, amended: the derivation has no error path.  On a buffer of `n` bytes
with `8 ≤ n < 31` (so that the header bytes 3, 5, 6, 7 exist) `initCrypt` sets
the payload size to `n - 31` modulo `2 ^ 32`, that is `n + 2 ^ 32 - 31`; on a
buffer of `n` bytes with `15 ≤ n < 20` (so that the header bytes up to 14
exist) `initCryptProt` returns, with the payload size 326. -/
theorem initCrypt_short_no_error (gen : Nat → Nat → Nat) (fuel : Nat) (g1 g2 : List Nat)
    (h1 : 8 ≤ g1.length) (h2 : g1.length < 31) (h3 : 15 ≤ g2.length) (h4 : g2.length < 20)
    (hf : 20 ≤ fuel) :
    ((initCrypt (CryptData.ofBytes g1)).dataSize = g1.length + 4294967296 - 31 ∧
      4294967273 ≤ (initCrypt (CryptData.ofBytes g1)).dataSize ∧
      (initCrypt (CryptData.ofBytes g1)).gameDatBytes = g1 ∧ 7 < g1.length) ∧
    ∃ cd1, initCryptProt gen fuel (CryptData.ofBytes g2) = some cd1 ∧
      cd1.dataSize = 326 ∧ cd1.gameDatBytes.length = g2.length ∧ 14 < g2.length := by
  constructor
  · rw [initCrypt_dataSize, initCrypt_gameDatBytes]
    have e : (CryptData.ofBytes g1).gameDatBytes = g1 := rfl
    rw [e, stdDataSize_of_lt _ h2]
    exact ⟨rfl, by omega, rfl, by omega⟩
  · have e : (CryptData.ofBytes g2).gameDatBytes = g2 := rfl
    obtain ⟨cd1, c1, c2, c3, _⟩ := initCryptProt_spec gen fuel (CryptData.ofBytes g2)
      (by rw [e]; omega) (by rw [e]; omega)
    rw [e] at c2 c3
    exact ⟨cd1, c1, by rw [c2, protDataSize_short _ h4], c3, by omega⟩

theorem initCrypt_short_no_error_witness :
    (8 ≤ (List.replicate 30 7).length ∧ (List.replicate 30 7).length < 31 ∧
      15 ≤ (List.replicate 19 7).length ∧ (List.replicate 19 7).length < 20 ∧ 20 ≤ 20) ∧
    ((initCrypt (CryptData.ofBytes (List.replicate 30 7))).dataSize
        = (List.replicate 30 7).length + 4294967296 - 31 ∧
      4294967273 ≤ (initCrypt (CryptData.ofBytes (List.replicate 30 7))).dataSize ∧
      (initCrypt (CryptData.ofBytes (List.replicate 30 7))).gameDatBytes = List.replicate 30 7 ∧
      7 < (List.replicate 30 7).length) ∧
    ∃ cd1, initCryptProt (fun _ j => j) 20 (CryptData.ofBytes (List.replicate 19 7)) = some cd1 ∧
      cd1.dataSize = 326 ∧ cd1.gameDatBytes.length = (List.replicate 19 7).length ∧
      14 < (List.replicate 19 7).length :=
  ⟨⟨by decide, by decide, by decide, by decide, by decide⟩,
    initCrypt_short_no_error (fun _ j => j) 20 (List.replicate 30 7) (List.replicate 19 7)
      (by decide) (by decide) (by decide) (by decide) (by decide)⟩

/-- C14, as stated, fails: for a buffer of `2 ^ 32 + 25` bytes the payload size
computed by `initCryptProt` is 5, not `min (n - 20) 326 = 326`, and the mask
loop that follows never ends. -/
theorem initCryptProt_large :
    protDataSize (4294967296 + 25) = 5 ∧ min (4294967296 + 25 - 20) 326 = 326 ∧
    ∀ fuel, initCryptProt (fun _ _ => 0) fuel
      (CryptData.ofBytes (List.replicate (4294967296 + 25) 0)) = none := by
  refine ⟨by decide, by decide, fun fuel => initCryptProt_diverges _ fuel _ ?_⟩
  show 4294967296 ≤ (List.replicate (4294967296 + 25) 0).length
  rw [List.length_replicate]
  omega

/-- C14, amended: for a buffer of `n` bytes with `20 ≤ n < 2 ^ 32`,
`initCryptProt` returns (with fuel for `n + 1` loop tests) and sets the payload
size to `min (n - 20) 326`; the buffer keeps its length, so the region
`[20, 20 + payload size)` lies inside it. -/
theorem initCryptProt_dataSize (gen : Nat → Nat → Nat) (fuel : Nat) (cd : CryptData)
    (h1 : 20 ≤ cd.gameDatBytes.length) (h2 : cd.gameDatBytes.length < 4294967296)
    (hf : cd.gameDatBytes.length < fuel) :
    ∃ cd1, initCryptProt gen fuel cd = some cd1 ∧
      cd1.dataSize = min (cd.gameDatBytes.length - 20) 326 ∧
      cd1.gameDatBytes.length = cd.gameDatBytes.length ∧
      20 + cd1.dataSize ≤ cd1.gameDatBytes.length := by
  obtain ⟨cd1, c1, c2, c3, _⟩ := initCryptProt_spec gen fuel cd h2 hf
  rw [protDataSize_of_lt _ h1 h2] at c2
  refine ⟨cd1, c1, c2, c3, ?_⟩
  rw [c2, c3]
  omega

theorem initCryptProt_dataSize_witness :
    (20 ≤ (CryptData.ofBytes (List.replicate 25 1)).gameDatBytes.length ∧
      (CryptData.ofBytes (List.replicate 25 1)).gameDatBytes.length < 4294967296 ∧
      (CryptData.ofBytes (List.replicate 25 1)).gameDatBytes.length < 26) ∧
    ∃ cd1, initCryptProt (fun s j => s + j) 26 (CryptData.ofBytes (List.replicate 25 1))
        = some cd1 ∧
      cd1.dataSize = min ((CryptData.ofBytes (List.replicate 25 1)).gameDatBytes.length - 20) 326 ∧
      cd1.gameDatBytes.length = (CryptData.ofBytes (List.replicate 25 1)).gameDatBytes.length ∧
      20 + cd1.dataSize ≤ cd1.gameDatBytes.length :=
  ⟨⟨by decide, by decide, by decide⟩,
    initCryptProt_dataSize (fun s j => s + j) 26 (CryptData.ofBytes (List.replicate 25 1))
      (by decide) (by decide) (by decide)⟩

/-! ## The header mask of initCryptProt -/

/-- C19, as stated, fails: on a buffer of `2 ^ 32` bytes the first step of
`initCryptProt` never returns, whatever the fuel. -/
theorem protMask_large :
    (List.replicate 4294967296 0).length = 4294967296 ∧
    ∀ fuel, protMask (fun _ _ => 0) fuel (List.replicate 4294967296 0) = none :=
  ⟨List.length_replicate _ _,
    fun fuel => protMask_diverges _ fuel _ (by rw [List.length_replicate])⟩

/-- C19, amended: on a buffer of fewer than `2 ^ 32` bytes the first step of
`initCryptProt` returns (with fuel for one loop test per byte and one more); it
keeps the length and the bytes 0..9, and XORs each byte `i ≥ 10` with the low 8
bits of the word `i % 128` of the generator seeded by `genMTSeed` of the bytes
0, 8, 6.  The seed is the same for the result, and applying the step to the
result restores the buffer. -/
theorem protMask_involution (gen : Nat → Nat → Nat) (fuel : Nat) (g : List Nat)
    (hb : IsBytes g) (hlen : g.length < 4294967296) (hf : g.length < fuel) :
    ∃ out, protMask gen fuel g = some out ∧ out.length = g.length ∧
      (∀ i, i < 10 → out.getD i 0 = g.getD i 0) ∧
      (∀ i, 10 ≤ i → i < g.length → out.getD i 0 =
        g.getD i 0 ^^^ (gen (genMTSeed (g.getD 0 0) (g.getD 8 0) (g.getD 6 0)) (i % 128) % 256)) ∧
      genMTSeed (out.getD 0 0) (out.getD 8 0) (out.getD 6 0)
        = genMTSeed (g.getD 0 0) (g.getD 8 0) (g.getD 6 0) ∧
      protMask gen fuel out = some g := by
  obtain ⟨out, ho, hl, hg⟩ := protMask_spec gen fuel g hlen hf
  have hlow : ∀ i, i < 10 → out.getD i 0 = g.getD i 0 := by
    intro i hi
    rw [hg i, if_neg (by omega)]
  have hbyte : ∀ i, g.getD i 0 % 256 = g.getD i 0 := fun i =>
    Nat.mod_eq_of_lt (getD_lt_of_isBytes g hb i)
  have hhigh : ∀ i, 10 ≤ i → i < g.length → out.getD i 0 =
      g.getD i 0 ^^^ (gen (genMTSeed (g.getD 0 0) (g.getD 8 0) (g.getD 6 0)) (i % 128) % 256) := by
    intro i h1 h2
    rw [hg i, if_pos ⟨h1, h2⟩, xor_mod_256, hbyte]
  have hseed : genMTSeed (out.getD 0 0) (out.getD 8 0) (out.getD 6 0)
      = genMTSeed (g.getD 0 0) (g.getD 8 0) (g.getD 6 0) := by
    rw [hlow 0 (by decide), hlow 8 (by decide), hlow 6 (by decide)]
  refine ⟨out, ho, hl, hlow, hhigh, hseed, ?_⟩
  obtain ⟨out2, ho2, hl2, hg2⟩ := protMask_spec gen fuel out (by rw [hl]; exact hlen)
    (by rw [hl]; exact hf)
  rw [ho2]
  congr 1
  apply list_ext_getD _ _ (by rw [hl2, hl])
  intro j hj
  rw [hg2 j, hseed, hl]
  by_cases c : 10 ≤ j ∧ j < g.length
  · rw [if_pos c, hhigh j c.1 c.2, xor_mod_256, xor_mod_256, Nat.mod_mod, hbyte,
      xor_xor_cancel]
  · rw [if_neg c, hg j, if_neg c]

theorem protMask_involution_witness :
    (IsBytes (List.replicate 20 3) ∧ (List.replicate 20 3).length < 4294967296 ∧
      (List.replicate 20 3).length < 21) ∧
    ∃ out, protMask (fun s j => s + j) 21 (List.replicate 20 3) = some out ∧
      out.length = (List.replicate 20 3).length ∧
      (∀ i, i < 10 → out.getD i 0 = (List.replicate 20 3).getD i 0) ∧
      (∀ i, 10 ≤ i → i < (List.replicate 20 3).length → out.getD i 0 =
        (List.replicate 20 3).getD i 0 ^^^
          ((fun s j => s + j) (genMTSeed ((List.replicate 20 3).getD 0 0)
            ((List.replicate 20 3).getD 8 0) ((List.replicate 20 3).getD 6 0)) (i % 128) % 256)) ∧
      genMTSeed (out.getD 0 0) (out.getD 8 0) (out.getD 6 0)
        = genMTSeed ((List.replicate 20 3).getD 0 0) ((List.replicate 20 3).getD 8 0)
          ((List.replicate 20 3).getD 6 0) ∧
      protMask (fun s j => s + j) 21 out = some (List.replicate 20 3) :=
  ⟨⟨by decide, by decide, by decide⟩,
    protMask_involution (fun s j => s + j) 21 (List.replicate 20 3) (by decide) (by decide)
      (by decide)⟩

/-! ## wolfCrypt is seekable -/

/-- C23: with the advance-pointer flag set, `wolfCrypt` over `[a, b)` followed
by `wolfCrypt` over `[b, c)` gives the same buffer as one call over `[a, c)`,
for `a ≤ b ≤ c` within the buffer. -/
theorem wolfCrypt_seekable (pKey pData : List Nat) (a b c : Nat) (hab : a ≤ b) (hbc : b ≤ c)
    (hc : c ≤ pData.length) :
    wolfCrypt pKey (wolfCrypt pKey pData a b true) b c true = wolfCrypt pKey pData a c true := by
  apply list_ext_getD
  · rw [wolfCrypt_length, wolfCrypt_length, wolfCrypt_length]
  · intro j _
    rw [wolfCrypt_getD pKey _ b c true b rfl (by rw [wolfCrypt_length]; omega) j,
      wolfCrypt_getD pKey pData a b true a rfl (by omega) j,
      wolfCrypt_getD pKey pData a c true a rfl (by omega) j]
    by_cases h1 : b ≤ j ∧ j < b + (c - b)
    · rw [if_pos h1, if_neg (by omega), if_pos (by omega)]
      congr 2
      omega
    · rw [if_neg h1]
      by_cases h2 : a ≤ j ∧ j < a + (b - a)
      · rw [if_pos h2, if_pos (by omega)]
      · rw [if_neg h2, if_neg (by omega)]

theorem wolfCrypt_seekable_witness :
    (1 ≤ 3 ∧ 3 ≤ 6 ∧ 6 ≤ [10, 20, 30, 40, 50, 60, 70].length) ∧
    wolfCrypt (List.range 768) (wolfCrypt (List.range 768) [10, 20, 30, 40, 50, 60, 70] 1 3 true)
        3 6 true
      = wolfCrypt (List.range 768) [10, 20, 30, 40, 50, 60, 70] 1 6 true :=
  ⟨⟨by decide, by decide, by decide⟩,
    wolfCrypt_seekable (List.range 768) [10, 20, 30, 40, 50, 60, 70] 1 3 6 (by decide)
      (by decide) (by decide)⟩

/-! ## The selector-6 branch of the substitution network -/

theorem saltRound_ff00 : saltRound 0xFF 0 = 5 := by decide

/-- C24: the selector-6 branch of the substitution network never fires.  When
the selector `(curS2 | (curS << 8)) % 7` is 6, `curS = 255 ∧ curS2 = 0` fails;
hence the mark `skip` is never set, the value of `newK` after a `switch` on
selector 6 is `sXk`, not the stored 0, and the byte written is never taken from
the fallback `~sXk`. -/
theorem substSwitch_no_skip (i j t curS curS2 curK : Nat) :
    (saltRound curS curS2 = 6 → ¬ (curS = 0xFF ∧ curS2 = 0)) ∧
    (substSwitch j t curS curS2 curK).2 = false ∧
    (saltRound curS curS2 = 6 → (substSwitch j t curS curS2 curK).1 = curS ^^^ curK) ∧
    substByte i j t curS curS2 curK
      = if ((j + i) % 4294967296) % (curS % 5 + 1) = 0 then
          ((substSwitch j t curS curS2 curK).1 ^^^ t) % 256
        else (substSwitch j t curS curS2 curK).1 := by
  have h6 : saltRound curS curS2 = 6 → ¬ (curS = 0xFF ∧ curS2 = 0) := by
    rintro h ⟨rfl, rfl⟩
    rw [saltRound_ff00] at h
    exact absurd h (by decide)
  have hskip : (substSwitch j t curS curS2 curK).2 = false := by
    by_cases c6 : curS = 0xFF ∧ curS2 = 0
    · obtain ⟨rfl, rfl⟩ := c6
      simp [substSwitch, saltRound_ff00]
    · unfold substSwitch
      simp only [if_neg c6]
      split_ifs <;> rfl
  refine ⟨h6, hskip, ?_, ?_⟩
  · intro h
    simp [substSwitch, h, h6 h]
  · unfold substByte
    simp only [hskip]
    by_cases c : ((j + i) % 4294967296) % (curS % 5 + 1) = 0
    · rw [if_pos c, if_pos c]
    · rw [if_neg c, if_neg c, if_neg (by decide)]

/-! ## genMTSeed -/

theorem testBit_high (x i : Nat) (h : x < 4294967296) (hi : 32 ≤ i) : x.testBit i = false := by
  apply Nat.testBit_lt_two_pow
  have p : (4294967296 : Nat) = 2 ^ 32 := by norm_num
  rw [p] at h
  exact Nat.lt_of_lt_of_le h (Nat.pow_le_pow_right (by decide) hi)

theorem bool_xor_cancel (a b c : Bool) (h : (a ^^ c) = (b ^^ c)) : a = b := by
  cases a <;> cases b <;> cases c <;> simp_all

/-- The step `x ^= x << k` on 32-bit values is injective. -/
theorem xorshl_inj (k x y : Nat) (hk : 0 < k) (hx : x < 4294967296) (hy : y < 4294967296)
    (h : x ^^^ ((x <<< k) % 4294967296) = y ^^^ ((y <<< k) % 4294967296)) : x = y := by
  have p : (4294967296 : Nat) = 2 ^ 32 := by norm_num
  apply Nat.eq_of_testBit_eq
  intro i
  induction i using Nat.strong_induction_on with
  | _ i ih =>
    by_cases hi : 32 ≤ i
    · rw [testBit_high x i hx hi, testBit_high y i hy hi]
    · have hb := congrArg (fun z => Nat.testBit z i) h
      simp only [Nat.testBit_xor, p, Nat.testBit_mod_two_pow, Nat.testBit_shiftLeft] at hb
      by_cases hik : i ≥ k
      · rw [ih (i - k) (by omega)] at hb
        exact bool_xor_cancel _ _ _ hb
      · simpa [hik] using hb

/-- The step `x ^= x >> k` on 32-bit values is injective. -/
theorem xorshr_inj (k x y : Nat) (hk : 0 < k) (hx : x < 4294967296) (hy : y < 4294967296)
    (h : x ^^^ (x >>> k) = y ^^^ (y >>> k)) : x = y := by
  apply Nat.eq_of_testBit_eq
  have key : ∀ m i, 32 ≤ i + m → x.testBit i = y.testBit i := by
    intro m
    induction m with
    | zero =>
      intro i hi
      rw [testBit_high x i hx (by omega), testBit_high y i hy (by omega)]
    | succ m ih =>
      intro i hi
      have hb := congrArg (fun z => Nat.testBit z i) h
      simp only [Nat.testBit_xor, Nat.testBit_shiftRight] at hb
      rw [ih (k + i) (by omega)] at hb
      exact bool_xor_cancel _ _ _ hb
  intro i
  exact key 32 i (by omega)

theorem xorshift32_inj (x y : Nat) (hx : x < 4294967296) (hy : y < 4294967296)
    (h : xorshift32 x = xorshift32 y) : x = y := by
  unfold xorshift32 at h
  have m : ∀ z : Nat, z % 4294967296 < 4294967296 := fun z => Nat.mod_lt _ (by decide)
  have b1 : ∀ z, z < 4294967296 → z ^^^ ((z <<< 13) % 4294967296) < 4294967296 :=
    fun z hz => xor_lt_u32 _ _ hz (m _)
  have b2 : ∀ z, z < 4294967296 → z ^^^ (z >>> 17) < 4294967296 :=
    fun z hz => xor_lt_u32 _ _ hz (shiftRight_lt_u32 _ _ hz)
  have h3 := xorshl_inj 5 _ _ (by decide) (b2 _ (b1 x hx)) (b2 _ (b1 y hy)) h
  have h2 := xorshr_inj 17 _ _ (by decide) (b1 x hx) (b1 y hy) h3
  exact xorshl_inj 13 x y (by decide) hx hy h2

theorem xorshift32_zero : xorshift32 0 = 0 := by
  simp [xorshift32]

/-- The 24-bit value assembled by `genMTSeed` from three bytes. -/
theorem seedWord_eq (s0 s1 s2 : Nat) (h1 : s1 < 256) (h2 : s2 < 256) :
    s2 ||| ((s1 ||| (s0 <<< 8)) <<< 8) = s0 * 65536 + s1 * 256 + s2 := by
  have p : (256 : Nat) = 2 ^ 8 := by norm_num
  rw [Nat.shiftLeft_eq, Nat.shiftLeft_eq, Nat.lor_comm s1, Nat.lor_comm s2]
  have e1 := Nat.mul_add_lt_is_or (p ▸ h1) s0
  have e2 := Nat.mul_add_lt_is_or (p ▸ h2) (s0 * 2 ^ 8 ||| s1)
  rw [Nat.mul_comm (s0 * 2 ^ 8 ||| s1), ← e2, Nat.mul_comm s0, ← e1]
  norm_num
  ring

theorem seedP2_eq (a x : Nat) :
    ((a ^^^ x) >>> 17) ^^^ a ^^^ x = (x ^^^ a) ^^^ ((x ^^^ a) >>> 17) := by
  rw [Nat.xor_assoc, Nat.xor_comm a x, Nat.xor_comm]

theorem genMTSeed_eq (s0 s1 s2 : Nat) :
    genMTSeed s0 s1 s2 = xorshift32 (s2 ||| ((s1 ||| (s0 <<< 8)) <<< 8)) := by
  unfold genMTSeed xorshift32
  simp only []
  generalize s2 ||| ((s1 ||| (s0 <<< 8)) <<< 8) = x
  rw [seedP2_eq]
  generalize (x ^^^ x <<< 13 % 4294967296) ^^^ (x ^^^ x <<< 13 % 4294967296) >>> 17 = z
  have e5 : 32 * z = z <<< 5 := by
    rw [Nat.shiftLeft_eq]
    omega
  rw [e5, Nat.xor_comm]

/-- C26: for bytes `s0`, `s1`, `s2`, `genMTSeed` is one xorshift32 step applied
to the 24-bit big-endian value `s0 * 65536 + s1 * 256 + s2`; two byte triples
with the same seed are equal, and the seed is 0 only for the all-zero triple. -/
theorem genMTSeed_injective (s0 s1 s2 t0 t1 t2 : Nat) (hs0 : s0 < 256) (hs1 : s1 < 256)
    (hs2 : s2 < 256) (ht0 : t0 < 256) (ht1 : t1 < 256) (ht2 : t2 < 256) :
    genMTSeed s0 s1 s2 = xorshift32 (s0 * 65536 + s1 * 256 + s2) ∧
    (genMTSeed s0 s1 s2 = genMTSeed t0 t1 t2 → s0 = t0 ∧ s1 = t1 ∧ s2 = t2) ∧
    (genMTSeed s0 s1 s2 = 0 ↔ s0 = 0 ∧ s1 = 0 ∧ s2 = 0) := by
  have es := genMTSeed_eq s0 s1 s2
  have et := genMTSeed_eq t0 t1 t2
  rw [seedWord_eq s0 s1 s2 hs1 hs2] at es
  rw [seedWord_eq t0 t1 t2 ht1 ht2] at et
  refine ⟨es, ?_, ?_⟩
  · intro h
    rw [es, et] at h
    have := xorshift32_inj _ _ (by omega) (by omega) h
    omega
  · constructor
    · intro h
      rw [es, ← xorshift32_zero] at h
      have := xorshift32_inj _ _ (by omega) (by decide) h
      omega
    · rintro ⟨rfl, rfl, rfl⟩
      rw [es]
      exact xorshift32_zero

theorem genMTSeed_injective_witness :
    (1 < 256 ∧ 2 < 256 ∧ 3 < 256 ∧ 1 < 256 ∧ 2 < 256 ∧ 4 < 256) ∧
    (genMTSeed 1 2 3 = xorshift32 (1 * 65536 + 2 * 256 + 3) ∧
    (genMTSeed 1 2 3 = genMTSeed 1 2 4 → 1 = 1 ∧ 2 = 2 ∧ 3 = 4) ∧
    (genMTSeed 1 2 3 = 0 ↔ 1 = 0 ∧ 2 = 0 ∧ 3 = 0)) :=
  ⟨⟨by decide, by decide, by decide, by decide, by decide, by decide⟩,
    genMTSeed_injective 1 2 3 1 2 4 (by decide) (by decide) (by decide) (by decide) (by decide)
      (by decide)⟩

/-! ## The shuffle of aesKeyGen -/

theorem shuffleStep_length (l : List Nat) (rn i : Nat) :
    (shuffleStep l rn i).length = l.length := by
  unfold shuffleStep
  rw [List.length_set, List.length_set]

theorem shuffleStep_getD (l : List Nat) (rn i k : Nat) (hl : l.length = 48) (hi : i < 48) :
    (shuffleStep l rn i).getD k 0
      = l.getD (if k = rn % 48 then i else if k = i then rn % 48 else k) 0 := by
  have hr : rn % 48 < 48 := Nat.mod_lt _ (by decide)
  unfold shuffleStep
  rw [getD_set_eq, List.length_set, getD_set_eq]
  by_cases c1 : k = rn % 48
  · rw [if_pos ⟨c1.symm, by omega⟩, if_pos c1]
  · rw [if_neg (fun h => c1 h.1.symm), if_neg c1]
    by_cases c2 : k = i
    · rw [if_pos ⟨c2.symm, by omega⟩, if_pos c2]
    · rw [if_neg (fun h => c2 h.1.symm), if_neg c2]

theorem isIndexTable_range : IsIndexTable (List.range 48) := by
  have hg : ∀ i, i < 48 → (List.range 48).getD i 0 = i := by
    intro i hi
    rw [List.getD_eq_getElem _ _ (by rw [List.length_range]; exact hi), List.getElem_range]
  refine ⟨List.length_range 48, ?_, ?_⟩
  · intro i hi
    rw [hg i hi]
    exact hi
  · intro i j hi hj h
    rw [hg i hi, hg j hj] at h
    exact h

theorem isIndexTable_step (l : List Nat) (rn i : Nat) (h : IsIndexTable l) (hi : i < 48) :
    IsIndexTable (shuffleStep l rn i) := by
  obtain ⟨h1, h2, h3⟩ := h
  have hr : rn % 48 < 48 := Nat.mod_lt _ (by decide)
  have hs : ∀ k, k < 48 → (if k = rn % 48 then i else if k = i then rn % 48 else k) < 48 := by
    intro k hk
    split_ifs <;> omega
  refine ⟨by rw [shuffleStep_length, h1], ?_, ?_⟩
  · intro k hk
    rw [shuffleStep_getD l rn i k h1 hi]
    exact h2 _ (hs k hk)
  · intro a b ha hb hab
    rw [shuffleStep_getD l rn i a h1 hi, shuffleStep_getD l rn i b h1 hi] at hab
    have := h3 _ _ (hs a ha) (hs b hb) hab
    split_ifs at this <;> omega

theorem isIndexTable_foldl (rand : Nat → Nat) : ∀ n, n ≤ 48 →
    IsIndexTable ((List.range n).foldl
      (fun indexes i => shuffleStep indexes (rand i % 4294967296) i) (List.range 48)) := by
  intro n
  induction n with
  | zero => intro _; exact isIndexTable_range
  | succ n ih =>
    intro hn
    rw [List.range_succ n, List.foldl_append]
    exact isIndexTable_step _ _ n (ih (by omega)) (by omega)

theorem isIndexTable_shuffle (rand : Nat → Nat) : IsIndexTable (shuffle rand) :=
  isIndexTable_foldl rand 48 (Nat.le_refl _)

theorem isIndexTable_perm (l : List Nat) (h : IsIndexTable l) : l.Perm (List.range 48) := by
  obtain ⟨h1, h2, h3⟩ := h
  have hnd : l.Nodup := by
    rw [List.nodup_iff_injective_getElem]
    intro a b hab
    have ha : a.1 < 48 := by have := a.2; omega
    have hb : b.1 < 48 := by have := b.2; omega
    have e := h3 a.1 b.1 ha hb (by
      rw [List.getD_eq_getElem _ _ a.2, List.getD_eq_getElem _ _ b.2]
      exact hab)
    exact Fin.ext e
  have hsub : l ⊆ List.range 48 := by
    intro x hx
    obtain ⟨n, hn, e⟩ := List.mem_iff_getElem.1 hx
    rw [List.mem_range, ← e, ← List.getD_eq_getElem _ 0 hn]
    exact h2 n (by omega)
  exact (List.subperm_of_subset hnd hsub).perm_of_length_le (by rw [List.length_range, h1])

theorem aesKeyGenSelect_getD (rand : Nat → Nat → Nat) (seedBytes cryptData : List Nat) :
    (∀ i, i < 16 → (aesKeyGenSelect rand seedBytes cryptData).1.getD i 0
      = cryptData.getD ((shuffle (rand (seedBytes.getD 1 0 ^^^ seedBytes.getD 2 0))).getD i 0) 0) ∧
    (∀ i, i < 16 → (aesKeyGenSelect rand seedBytes cryptData).2.getD i 0
      = cryptData.getD
        ((shuffle (rand (seedBytes.getD 1 0 ^^^ seedBytes.getD 2 0))).getD (16 + i) 0) 0) := by
  constructor
  · intro i hi
    simp only [aesKeyGenSelect]
    rw [List.getD_eq_getElem?_getD, List.getElem?_take_of_lt hi, ← List.getD_eq_getElem?_getD,
      getD_map_range _ _ _ (by omega)]
  · intro i hi
    simp only [aesKeyGenSelect]
    rw [List.getD_eq_getElem?_getD, List.getElem?_take_of_lt hi, List.getElem?_drop,
      ← List.getD_eq_getElem?_getD, getD_map_range _ _ _ (by omega)]

/-- C22: whatever the platform generator returns, the index table after the 48
swap steps of `aesKeyGen` is a permutation of 0..47: it has 48 entries below 48,
no two equal.  The 16 key bytes are the pool bytes at the shuffled positions
0..15 and the 16 IV bytes those at the shuffled positions 16..31, which are 32
pairwise distinct positions of the pool. -/
theorem aesKeyGen_shuffle_perm (rand : Nat → Nat → Nat) (seedBytes cryptData : List Nat) :
    (shuffle (rand (seedBytes.getD 1 0 ^^^ seedBytes.getD 2 0))).Perm (List.range 48) ∧
    (∀ i, i < 48 →
      (shuffle (rand (seedBytes.getD 1 0 ^^^ seedBytes.getD 2 0))).getD i 0 < 48) ∧
    (∀ i j, i < 32 → j < 32 →
      (shuffle (rand (seedBytes.getD 1 0 ^^^ seedBytes.getD 2 0))).getD i 0
        = (shuffle (rand (seedBytes.getD 1 0 ^^^ seedBytes.getD 2 0))).getD j 0 → i = j) ∧
    (aesKeyGenSelect rand seedBytes cryptData).1.length = 16 ∧
    (aesKeyGenSelect rand seedBytes cryptData).2.length = 16 ∧
    (∀ i, i < 16 → (aesKeyGenSelect rand seedBytes cryptData).1.getD i 0
      = cryptData.getD ((shuffle (rand (seedBytes.getD 1 0 ^^^ seedBytes.getD 2 0))).getD i 0) 0) ∧
    (∀ i, i < 16 → (aesKeyGenSelect rand seedBytes cryptData).2.getD i 0
      = cryptData.getD
        ((shuffle (rand (seedBytes.getD 1 0 ^^^ seedBytes.getD 2 0))).getD (16 + i) 0) 0) := by
  have ht := isIndexTable_shuffle (rand (seedBytes.getD 1 0 ^^^ seedBytes.getD 2 0))
  refine ⟨isIndexTable_perm _ ht, ht.2.1, fun i j hi hj => ht.2.2 i j (by omega) (by omega),
    ?_, ?_, (aesKeyGenSelect_getD rand seedBytes cryptData).1,
    (aesKeyGenSelect_getD rand seedBytes cryptData).2⟩
  · simp [aesKeyGenSelect]
  · simp [aesKeyGenSelect]

/-! ## The coprime search on every 32-bit payload size -/

theorem natAbs_tmod (a b : Int) : (Int.tmod a b).natAbs = a.natAbs % b.natAbs := by
  cases a <;> cases b <;> simp [Int.tmod] <;> rfl

theorem gcdLoop_natAbs : ∀ (fuel : Nat) (a b : Int), b ≠ 0 → b.natAbs < fuel →
    ∃ r, gcdLoop fuel a b = some r ∧ r.natAbs = Nat.gcd a.natAbs b.natAbs := by
  intro fuel
  induction fuel with
  | zero => intro a b _ h; omega
  | succ fuel ih =>
    intro a b hb hf
    have hpos : 0 < b.natAbs := Int.natAbs_pos.2 hb
    have hlt : a.natAbs % b.natAbs < b.natAbs := Nat.mod_lt _ hpos
    by_cases h : Int.tmod a b ≠ 0
    · obtain ⟨r, hr, hg⟩ := ih b (Int.tmod a b) h (by rw [natAbs_tmod]; omega)
      refine ⟨r, ?_, ?_⟩
      · rw [gcdLoop, if_pos h]
        exact hr
      · rw [hg, natAbs_tmod, Nat.gcd_comm b.natAbs, ← Nat.gcd_rec, Nat.gcd_comm]
    · refine ⟨b, ?_, ?_⟩
      · rw [gcdLoop, if_neg h]
      · have h0 : a.natAbs % b.natAbs = 0 := by
          rw [← natAbs_tmod]
          have : Int.tmod a b = 0 := by
            by_contra hne
            exact h hne
          rw [this]
          rfl
        rw [Nat.gcd_eq_right (Nat.dvd_of_mod_eq_zero h0)]

theorem strideTest_natAbs (gfuel s k : Nat) (hk : k < gfuel) :
    ∃ r, strideTest gfuel s (k : Int) = some r ∧
      r.natAbs = Nat.gcd (int32 (s : Int)).natAbs k := by
  unfold strideTest
  by_cases h : (k : Int) ≠ 0
  · rw [if_pos h]
    have := gcdLoop_natAbs gfuel (int32 (s : Int)) (k : Int) h (by simpa using hk)
    simpa using this
  · rw [if_neg h]
    have h0 : k = 0 := by
      by_contra hne
      exact h (by exact_mod_cast hne)
    exact ⟨_, rfl, by rw [h0, Nat.gcd_zero_right]⟩

theorem int32_natAbs (s : Nat) (h1 : 1 ≤ s) (h2 : s < 4294967296) :
    1 ≤ (int32 (s : Int)).natAbs ∧ (int32 (s : Int)).natAbs ≤ 2147483648 := by
  unfold int32
  omega

theorem exists_coprime_prime_le (v : Nat) (h1 : 1 ≤ v) (h2 : v ≤ 2147483648) :
    ∃ p, 1279 ≤ p ∧ p ≤ 1291 ∧ Nat.gcd v p = 1 := by
  rcases Nat.lt_or_ge v 2147483648 with h | h
  · exact exists_coprime_prime v h1 h
  · have e : v = 2147483648 := by omega
    rw [e]
    exact ⟨1279, by norm_num, by norm_num, by norm_num⟩

theorem coprimeSearch_bound (s gfuel P : Nat) (hP : Nat.gcd (int32 (s : Int)).natAbs P = 1)
    (hPb : P < 2147483647) (hg : P < gfuel) :
    ∀ (fuel k : Nat), k ≤ P → P - k < fuel →
      ∃ r : Nat, coprimeSearch fuel gfuel s (k : Int) = some (r : Int) ∧ k ≤ r ∧ r ≤ P := by
  intro fuel
  induction fuel with
  | zero => intro k _ h; omega
  | succ fuel ih =>
    intro k hk hf
    obtain ⟨v, hv, hvg⟩ := strideTest_natAbs gfuel s k (by omega)
    rw [coprimeSearch, hv]
    by_cases c : v ≤ 1
    · exact ⟨k, by simp only [if_pos c], Nat.le_refl _, hk⟩
    · have hne : k ≠ P := by
        intro e
        rw [e, hP] at hvg
        omega
      obtain ⟨r, hr, h1, h2⟩ := ih (k + 1) (by omega) (by omega)
      refine ⟨r, ?_, by omega, h2⟩
      simp only [if_neg c]
      rw [int32_of_range _ (by omega) (by omega)]
      exact_mod_cast hr

/-- The search ends on every non-zero 32-bit payload size, at a stride of at
most 1291. -/
theorem coprimeSearch_total (s k0 fuel gfuel : Nat) (hs1 : 1 ≤ s) (hs2 : s < 4294967296)
    (hk0 : k0 ≤ 1278) (hf : 1292 ≤ fuel) (hg : 1292 ≤ gfuel) :
    ∃ r : Nat, coprimeSearch fuel gfuel s (k0 : Int) = some (r : Int) ∧ k0 ≤ r ∧ r ≤ 1291 := by
  obtain ⟨v1, v2⟩ := int32_natAbs s hs1 hs2
  obtain ⟨p, p1, p2, p3⟩ := exists_coprime_prime_le _ v1 v2
  obtain ⟨r, hr, r1, r2⟩ := coprimeSearch_bound s gfuel p p3 (by omega) (by omega) fuel k0
    (by omega) (by omega)
  exact ⟨r, hr, r1, by omega⟩

/-! ## calcKey: the shape of the key -/

theorem aLotOfRngStuff_some (fuel : Nat) (rd : RngData) (a2 a3 idx : Nat)
    (cryptData : List Nat) (hf : 51 ≤ fuel) :
    ∃ r, aLotOfRngStuff fuel rd a2 a3 idx cryptData = some r := by
  obtain ⟨k, hk, _⟩ :=
    aLotLoop_spec idx fuel 0 (aLotInit rd a2 a3 cryptData) (show 20 ≤ 50 by decide)
      (Nat.zero_le _) (by omega)
  rw [aLotOfRngStuff, hk]
  exact ⟨_, rfl⟩

theorem aesKeyGenPool_some (fuel sb2 sb3 : Nat) (hf : 51 ≤ fuel) :
    ∀ (n i : Nat) (rd : RngData) (cryptData : List Nat),
      ∃ r, aesKeyGenPool fuel sb2 sb3 n i rd cryptData = some r := by
  intro n
  induction n with
  | zero => intro i rd cryptData; exact ⟨_, rfl⟩
  | succ n ih =>
    intro i rd cryptData
    obtain ⟨r, hr⟩ := aLotOfRngStuff_some fuel rd ((i + sb3) % 4294967296)
      ((sb2 + 4294967296 - i) % 4294967296) i cryptData hf
    obtain ⟨r2, hr2⟩ := ih (i + 1) r.1 r.2
    refine ⟨r2, ?_⟩
    rw [aesKeyGenPool, hr]
    exact hr2

theorem aesKeyGen_some (rand : Nat → Nat → Nat) (fuel : Nat) (cd : CryptData) (rd : RngData)
    (hf : 51 ≤ fuel) : ∃ r, aesKeyGen rand fuel cd rd = some r := by
  obtain ⟨r, hr⟩ := aesKeyGenPool_some fuel (cd.seedBytes.getD 2 0) (cd.seedBytes.getD 3 0) hf
    48 0 (runCrypt rd (cd.seedBytes.getD 0 0) (cd.seedBytes.getD 1 0)) (List.replicate 48 0)
  rw [aesKeyGen, hr]
  exact ⟨_, rfl⟩

theorem getD_header (g x : List Nat) (j : Nat) (hj : j < 30) (hn : 30 ≤ g.length) :
    (g.take 30 ++ x).getD j 0 = g.getD j 0 := by
  rw [List.getD_append _ _ _ _ (by rw [List.length_take]; omega), getD_take_lt _ _ _ hj]

theorem stdDataSize_le (n : Nat) (h : 31 ≤ n) : stdDataSize n ≤ n - 31 := by
  unfold stdDataSize
  omega

/-- The result of `calcKey` on a buffer of at least 32 bytes with a non-zero
payload size: when every sampled index lies inside the buffer, the sampled
bytes, a zero byte and the four derived key bytes; otherwise no result. -/
theorem calcKey_spec (rand : Nat → Nat → Nat) (fuel : Nat) (g : List Nat) (hb : IsBytes g)
    (hn : 32 ≤ g.length) (hs : stdDataSize g.length ≠ 0) (hf : 1292 ≤ fuel) :
    ∃ (k : Nat) (g1 : List Nat), k ≤ 1291 ∧
      coprimeSearch fuel fuel (stdDataSize g.length)
        (strideStart (g.getD 3 0) (g.getD 4 0) (g.getD 6 0)) = some (k : Int) ∧
      (∀ j, j < 30 → g1.getD j 0 = g.getD j 0) ∧
      calcKey rand fuel g =
        if ∀ i, i < g.getD 19 0 →
            keySampleIndex (stdDataSize g.length) (g.getD 7 0) i k < g.length then
          some ((List.range (g.getD 19 0)).map
              (fun i => g1.getD (keySampleIndex (stdDataSize g.length) (g.getD 7 0) i k) 0)
            ++ [0] ++ stdKeyBytes (stdDataSize g.length))
        else none := by
  obtain ⟨r, hr⟩ := aesKeyGen_some rand fuel (initCrypt (CryptData.ofBytes g))
    (runCrypt RngData.fresh (initCrypt (CryptData.ofBytes g)).seed1
      (initCrypt (CryptData.ofBytes g)).seed2) (by omega)
  have hlt := stdDataSize_lt g.length
  have hle := stdDataSize_le g.length (by omega)
  obtain ⟨k, hk, _, hk2⟩ := coprimeSearch_total (stdDataSize g.length)
    (strideStart (g.getD 3 0) (g.getD 4 0) (g.getD 6 0)) fuel fuel (by omega) hlt
    (strideStart_le _ _ _ (getD_lt_of_isBytes g hb 4)) hf hf
  have hn30 : 30 ≤ g.length := by omega
  unfold calcKey
  simp only [hr, initCrypt_dataSize, initCrypt_keyBytes, initCrypt_gameDatBytes]
  have e : (CryptData.ofBytes g).gameDatBytes = g := rfl
  simp only [e, getD_header g _ _ (show 3 < 30 by decide) hn30,
    getD_header g _ _ (show 4 < 30 by decide) hn30,
    getD_header g _ _ (show 6 < 30 by decide) hn30,
    getD_header g _ _ (show 7 < 30 by decide) hn30,
    getD_header g _ _ (show 19 < 30 by decide) hn30, hk]
  rw [if_neg (by omega), if_neg (fun h => hs h.1)]
  exact ⟨k, _, hk2, rfl, fun j hj => getD_header g _ j hj hn30, rfl⟩

theorem stdKeyBytes_eq_spec (s : Nat) (h : s < 4294967296) : stdKeyBytes s = specKeyBytes s := by
  unfold stdKeyBytes specKeyBytes
  simp only []
  rw [sizeDiv_shift s h, Nat.mod_eq_of_lt (xor_lt_u32 s 0x70 h (by decide))]
  have e4 : s + 2 * s + 85 = 3 * s + 85 := by omega
  rw [e4]
  generalize s ^^^ 0x70 = v2
  generalize (3 * s + 85) % 4294967296 = v4
  generalize v2 * v4 = m
  refine congrArg₂ _ rfl (congrArg₂ _ ?_ (congrArg₂ _ ?_ (congrArg₂ _ ?_ rfl))) <;> omega

theorem getD_replicate_zero (n j : Nat) : (List.replicate n 0).getD j 0 = 0 := by
  rw [List.getD_eq_getElem?_getD, List.getElem?_replicate]
  by_cases h : j < n
  · rw [if_pos h]; rfl
  · rw [if_neg h]; rfl

theorem isBytes_replicate_zero (n : Nat) : IsBytes (List.replicate n 0) := by
  intro x hx
  rw [List.eq_of_mem_replicate hx]
  decide

theorem calcKey_key_shape (a : List Nat) (kb : List Nat) (hk : kb.length = 4) (m : Nat)
    (ha : a.length = m) :
    (a ++ [0] ++ kb).length = m + 5 ∧ (a ++ [0] ++ kb).getD m 0 = 0 ∧
      (a ++ [0] ++ kb).drop (m + 1) = kb := by
  refine ⟨?_, ?_, ?_⟩
  · simp [ha, hk]
  · rw [List.append_assoc, List.getD_append_right _ _ _ _ (by omega), ha, Nat.sub_self]
    rfl
  · rw [List.drop_append_of_le_length (by simp [ha]),
      List.drop_of_length_le (by simp [ha])]
    rfl

theorem stdKeyBytes_length (s : Nat) : (stdKeyBytes s).length = 4 := rfl

/-- C12, as stated, fails: for the buffer of `2 ^ 32 + 32` zero bytes (no byte
is sampled, since `header[19] = 0`) `calcKey` returns a key whose last four
bytes are the derived key bytes of the payload size 1, not those of
`n - 31 = 2 ^ 32 + 1`. -/
theorem calcKey_large_buffer :
    ∃ key, calcKey (fun _ _ => 0) 1292 (List.replicate (4294967296 + 32) 0) = some key ∧
      key.drop 1 = [31, 10, 25, 216] ∧
      specKeyBytes ((List.replicate (4294967296 + 32) 0).length - 31) = [196, 250, 25, 216] := by
  have hlen : (List.replicate (4294967296 + 32) 0).length = 4294967296 + 32 :=
    List.length_replicate _ _
  have hds : stdDataSize (List.replicate (4294967296 + 32) 0).length = 1 := by
    rw [hlen]
    unfold stdDataSize
    omega
  obtain ⟨k, g1, _, _, _, hc⟩ := calcKey_spec (fun _ _ => 0) 1292
    (List.replicate (4294967296 + 32) 0) (isBytes_replicate_zero _) (by rw [hlen]; omega)
    (by rw [hds]; decide) (Nat.le_refl _)
  simp only [hds, getD_replicate_zero, List.range_zero, List.map_nil, List.nil_append] at hc
  rw [if_pos (fun i hi => absurd hi (Nat.not_lt_zero i))] at hc
  refine ⟨_, hc, ?_, ?_⟩
  · decide
  · rw [hlen]
    decide

/-- C12, amended: for every buffer of bytes of length `n` with
`32 ≤ n < 2 ^ 32 + 31` on which every index sampled at line 806, for the stride
`k` found by the coprime search, lies inside the buffer, `calcKey` returns (with
fuel for 1292 passes of each loop) a key of length `header[19] + 5` whose byte
at position `header[19]` is 0 and whose last four bytes are the derived key
bytes for the payload size `s = n - 31`. -/
theorem calcKey_shape (rand : Nat → Nat → Nat) (fuel : Nat) (g : List Nat) (hb : IsBytes g)
    (hn : 32 ≤ g.length) (hn2 : g.length < 4294967296 + 31) (hf : 1292 ≤ fuel)
    (hidx : ∀ k : Int,
      coprimeSearch fuel fuel (g.length - 31)
        (strideStart (g.getD 3 0) (g.getD 4 0) (g.getD 6 0)) = some k →
      ∀ i, i < g.getD 19 0 → keySampleIndex (g.length - 31) (g.getD 7 0) i k < g.length) :
    ∃ key, calcKey rand fuel g = some key ∧
      key.length = g.getD 19 0 + 5 ∧ key.getD (g.getD 19 0) 0 = 0 ∧
      key.drop (g.getD 19 0 + 1) = specKeyBytes (g.length - 31) := by
  have hds := stdDataSize_of_ge g.length (by omega) hn2
  obtain ⟨k, g1, _, hk, _, hc⟩ := calcKey_spec rand fuel g hb hn (by rw [hds]; omega) hf
  rw [hds] at hk hc
  rw [if_pos (hidx k hk)] at hc
  obtain ⟨s1, s2, s3⟩ := calcKey_key_shape
    ((List.range (g.getD 19 0)).map
      (fun i => g1.getD (keySampleIndex (g.length - 31) (g.getD 7 0) i k) 0))
    (stdKeyBytes (g.length - 31)) (stdKeyBytes_length _) (g.getD 19 0)
    (by rw [List.length_map, List.length_range])
  refine ⟨_, hc, s1, s2, ?_⟩
  rw [s3, stdKeyBytes_eq_spec _ (by omega)]

theorem calcKey_shape_witness :
    (IsBytes (List.replicate 40 1) ∧ 32 ≤ (List.replicate 40 1).length ∧
      (List.replicate 40 1).length < 4294967296 + 31 ∧ 1292 ≤ 1292 ∧
      ∀ k : Int,
        coprimeSearch 1292 1292 ((List.replicate 40 1).length - 31)
          (strideStart ((List.replicate 40 1).getD 3 0) ((List.replicate 40 1).getD 4 0)
            ((List.replicate 40 1).getD 6 0)) = some k →
        ∀ i, i < (List.replicate 40 1).getD 19 0 →
          keySampleIndex ((List.replicate 40 1).length - 31) ((List.replicate 40 1).getD 7 0) i k
            < (List.replicate 40 1).length) ∧
    ∃ key, calcKey (fun s j => s + j) 1292 (List.replicate 40 1) = some key ∧
      key.length = (List.replicate 40 1).getD 19 0 + 5 ∧
      key.getD ((List.replicate 40 1).getD 19 0) 0 = 0 ∧
      key.drop ((List.replicate 40 1).getD 19 0 + 1)
        = specKeyBytes ((List.replicate 40 1).length - 31) := by
  have hidx : ∀ k : Int,
      coprimeSearch 1292 1292 ((List.replicate 40 1).length - 31)
        (strideStart ((List.replicate 40 1).getD 3 0) ((List.replicate 40 1).getD 4 0)
          ((List.replicate 40 1).getD 6 0)) = some k →
      ∀ i, i < (List.replicate 40 1).getD 19 0 →
        keySampleIndex ((List.replicate 40 1).length - 31) ((List.replicate 40 1).getD 7 0) i k
          < (List.replicate 40 1).length := by
    intro k hk i hi
    have e : coprimeSearch 1292 1292 ((List.replicate 40 1).length - 31)
        (strideStart ((List.replicate 40 1).getD 3 0) ((List.replicate 40 1).getD 4 0)
          ((List.replicate 40 1).getD 6 0)) = some 2 := by decide
    rw [e] at hk
    injection hk with hk
    subst hk
    have h19 : (List.replicate 40 1).getD 19 0 = 1 := by decide
    rw [h19] at hi
    have h0 : i = 0 := by omega
    subst h0
    decide
  exact ⟨⟨by decide, by decide, by decide, by decide, hidx⟩,
    calcKey_shape (fun s j => s + j) 1292 (List.replicate 40 1) (by decide) (by decide)
      (by decide) (by decide) hidx⟩

/-! ## calcKey: the sampled indices -/

theorem keySampleIndex_eq (s g7 i r : Nat) (h7 : g7 < 256)
    (hi : i < 256) (hr : r ≤ 1291) :
    keySampleIndex s g7 i (r : Int) = (i * r) % s + 30 + g7 := by
  unfold keySampleIndex
  have e : ((r : Int) % 4294967296).toNat = r := by omega
  rw [e]
  have hm : i * r ≤ 255 * 1291 := Nat.mul_le_mul (by omega) hr
  have hle : (i * r) % s ≤ i * r := Nat.mod_le _ _
  rw [Nat.mod_eq_of_lt (show i * r < 4294967296 by omega)]
  generalize (i * r) % s = y at hle
  omega

/-- C21 fails on the code: for the 32-byte buffer whose byte 7 is 5 and whose
byte 19 is 1 (all others 0), the payload size is 1 and the index read at line
806 for `i = 0 < header[19]` is 35, whatever the stride: outside the payload
region `[30, 31)` and outside the buffer, so that `calcKey` has no defined
result. -/
theorem calcKey_sample_outside :
    ([0, 0, 0, 0, 0, 0, 0, 5, 0, 0, 0, 0, 0, 0, 0, 0, 0, 0, 0, 1, 0, 0, 0, 0, 0, 0, 0, 0, 0, 0,
      0, 0] : List Nat).length = 32 ∧
    (∀ k : Int, keySampleIndex (stdDataSize 32) 5 0 k = 35) ∧
    ¬ (35 < 30 + (32 - 31)) ∧ ¬ (35 < 32) ∧
    calcKey (fun _ _ => 0) 1292
      [0, 0, 0, 0, 0, 0, 0, 5, 0, 0, 0, 0, 0, 0, 0, 0, 0, 0, 0, 1, 0, 0, 0, 0, 0, 0, 0, 0, 0, 0,
        0, 0] = none := by
  have e : stdDataSize 32 = 1 := by decide
  have hidx : ∀ k : Int, keySampleIndex (stdDataSize 32) 5 0 k = 35 := by
    intro k
    rw [e]
    unfold keySampleIndex
    rw [Nat.zero_mul, Nat.zero_mod]
  refine ⟨rfl, hidx, by decide, by decide, ?_⟩
  obtain ⟨k, g1, _, _, _, hc⟩ := calcKey_spec (fun _ _ => 0) 1292
    [0, 0, 0, 0, 0, 0, 0, 5, 0, 0, 0, 0, 0, 0, 0, 0, 0, 0, 0, 1, 0, 0, 0, 0, 0, 0, 0, 0, 0, 0,
      0, 0] (by decide) (by decide) (by decide) (Nat.le_refl _)
  rw [hc, if_neg]
  intro h
  have h0 := h 0 (by decide)
  have h35 := hidx k
  have hlen : ([0, 0, 0, 0, 0, 0, 0, 5, 0, 0, 0, 0, 0, 0, 0, 0, 0, 0, 0, 1, 0, 0, 0, 0, 0, 0,
    0, 0, 0, 0, 0, 0] : List Nat).length = 32 := rfl
  have h7 : ([0, 0, 0, 0, 0, 0, 0, 5, 0, 0, 0, 0, 0, 0, 0, 0, 0, 0, 0, 1, 0, 0, 0, 0, 0, 0,
    0, 0, 0, 0, 0, 0] : List Nat).getD 7 0 = 5 := rfl
  rw [hlen, h7, h35] at h0
  omega

end UberWolf
